import Mathlib

/-!
# Banker's algorithm safety check (`bankers_algorithm.cpp`)

A shallow embedding of `isSafeState` and the properties of it that the
specification states.

Modelling conventions.

* `vector<int>` is `List Int`, `vector<vector<int>>` is `List (List Int)` and
  `vector<bool>` is `List Bool`.  Reading `v[i]` is `idx v i`, writing
  `v[i] = x` is `v.set i x`.  An index outside the vector is undefined
  behaviour in C++; the embedding then reads `0` and ignores the write.
* `int` is `Int`.  `isSafeState` computes in exact arithmetic; `isSafeState32`
  repeats it with the subtraction of line 57 and the addition of line 116 wrapped
  around to 32 bits (`wrap32`), which is what these operations do on
  two's-complement hardware when the exact result does not fit.  Under the
  resource bound the two runs are equal (`isSafeState32_eq`).
* The `while` loop takes a fuel argument: the number of passes it may make.
  `none` means the fuel ran out.  Five passes are always enough.
* The console output is not modelled.
* The input file is `none` when it cannot be opened and otherwise the list of its
  whitespace-separated tokens; `extract` is `inputFile >> x` on that list.
* `isSafeStateChk` repeats `isSafeState` with a bounds check on every vector access,
  and `isSafeStateS` repeats it on a memory that also holds the three input vectors;
  both are proved to agree with `isSafeState`.
* `check_safety` is the algorithm as section 4.1 of the specification words it.
-/

namespace Bankers

/-! ## The embedding and the notions used to state the properties -/

/-- Line 13: `const int NUM_PROCESSES = 5;` -/
def NUM_PROCESSES : Nat := 5

/-- Line 14: `const int NUM_RESOURCES = 3;` -/
def NUM_RESOURCES : Nat := 3

/-- Read `v[i]` of a `vector<int>`. -/
def idx (v : List Int) (i : Nat) : Int := v.getD i 0

/-- Read `m[i][j]` of a `vector<vector<int>>`. -/
def idx2 (m : List (List Int)) (i j : Nat) : Int := idx (m.getD i []) j

/-- Lines 50-59: the need matrix, `need[i][j] = max_need[i][j] - allocation[i][j]`. -/
def computeNeed (allocation max_need : List (List Int)) : List (List Int) :=
  (List.range NUM_PROCESSES).map fun i =>
    (List.range NUM_RESOURCES).map fun j => idx2 max_need i j - idx2 allocation i j

/-- Lines 65-68: the work vector, a copy of the first entries of `available`. -/
def initWork (available : List Int) : List Int :=
  (List.range NUM_RESOURCES).map fun i => idx available i

/-- The mutable variables of `isSafeState` at a loop boundary.  The last two
fields are bookkeeping that the C++ code does not have: `cmps` counts the
evaluations of `need[p][j] > work[j]` made in the current pass of the `while`
loop, and `passCmps` holds that count for every pass made so far. -/
structure State where
  work : List Int
  finish : List Bool
  safeSequence : List Int
  safeIndex : Nat
  count : Nat
  found : Bool
  cmps : Nat
  passCmps : List Nat
deriving DecidableEq

/-- Lines 96-102: the scan `for (j ...) if (need[p][j] > work[j]) { canRun = false; break; }`
over the resources `js`.  Returns `canRun` and the number of comparisons made. -/
def canRunLoop (need : List (List Int)) (work : List Int) (p : Nat) : List Nat → Bool × Nat
  | [] => (true, 0)
  | j :: js =>
    if idx2 need p j > idx work j then (false, 1)
    else ((canRunLoop need work p js).1, (canRunLoop need work p js).2 + 1)

/-- Lines 115-117: `for (k ...) work[k] += allocation[p][k];` over the resources `ks`. -/
def releaseLoop (allocation : List (List Int)) (p : Nat) : List Nat → List Int → List Int
  | [], work => work
  | k :: ks, work => releaseLoop allocation p ks (work.set k (idx work k + idx2 allocation p k))

/-- Lines 88-131: one iteration of `for (int p = 0; p < NUM_PROCESSES; p++)`. -/
def forBody (allocation need : List (List Int)) (st : State) (p : Nat) : State :=
  if st.finish.getD p false then st
  else
    let r := canRunLoop need st.work p (List.range NUM_RESOURCES)
    if r.1 then
      { work := releaseLoop allocation p (List.range NUM_RESOURCES) st.work
        finish := st.finish.set p true
        safeSequence := st.safeSequence.set st.safeIndex (p : Int)
        safeIndex := st.safeIndex + 1
        count := st.count + 1
        found := true
        cmps := st.cmps + r.2
        passCmps := st.passCmps }
    else { st with cmps := st.cmps + r.2 }

/-- Lines 88-131: the `for` loop over the processes `ps`. -/
def forLoop (allocation need : List (List Int)) : List Nat → State → State
  | [], st => st
  | p :: ps, st => forLoop allocation need ps (forBody allocation need st p)

/-- Lines 85-131: one pass of the `while` body up to the test of `found`:
`found = false`, then the `for` loop over all processes. -/
def pass (allocation need : List (List Int)) (st : State) : State :=
  let st1 := forLoop allocation need (List.range NUM_PROCESSES) { st with found := false, cmps := 0 }
  { st1 with passCmps := st1.passCmps ++ [st1.cmps] }

/-- Lines 83-144: the `while (count < NUM_PROCESSES)` loop and the two `return`s.
The result is the returned `bool` with the variables at that moment. -/
def whileLoop (allocation need : List (List Int)) : Nat → State → Option (Bool × State)
  | 0, st => if st.count < NUM_PROCESSES then none else some (true, st)
  | fuel + 1, st =>
    if st.count < NUM_PROCESSES then
      if (pass allocation need st).found then whileLoop allocation need fuel (pass allocation need st)
      else some (false, pass allocation need st)
    else some (true, st)

/-- Lines 65-82: the variables when the `while` loop is first reached. -/
def initState (available safeSequence : List Int) : State :=
  { work := initWork available
    finish := List.replicate NUM_PROCESSES false
    safeSequence := safeSequence
    safeIndex := 0
    count := 0
    found := false
    cmps := 0
    passCmps := [] }

/-- Lines 43-145: `isSafeState`.  `safeSequence` is the caller's output buffer as
it is before the call; the buffer after the call is the `safeSequence` field of
the returned state. -/
def isSafeState (fuel : Nat) (allocation max_need : List (List Int))
    (available safeSequence : List Int) : Option (Bool × State) :=
  whileLoop allocation (computeNeed allocation max_need) fuel (initState available safeSequence)

/-- Allocation matrix of scenarios A and B. -/
def allocA : List (List Int) := [[0,1,0],[2,0,0],[3,0,2],[2,1,1],[0,0,2]]

/-- Maximum-need matrix of scenarios A and B. -/
def maxA : List (List Int) := [[7,5,3],[3,2,2],[9,0,2],[2,2,2],[4,3,3]]

/-- The buffer `vector<int> safeSequence(NUM_PROCESSES)` that `main` passes (line 201). -/
def mainBuffer : List Int := List.replicate NUM_PROCESSES 0

/-- The need of process `p` for resource `j` as the specification defines it:
`Need = max_need - allocation`. -/
def needOf (allocation max_need : List (List Int)) (p j : Nat) : Int :=
  idx2 max_need p j - idx2 allocation p j

/-- The amount of resource `j` at hand once the processes of `s` have run from the
vector `w` and each has released its allocation. -/
def workAfter (allocation : List (List Int)) (w : List Int) (s : List Nat) (j : Nat) : Int :=
  idx w j + (s.map fun p => idx2 allocation p j).sum

/-- Replaying `s` in order from the vector `w` never asks for more than is at
hand: at every position `k` the need of `s[k]` is covered, resource by resource,
by `w` plus the allocations of the processes before position `k`. -/
def Completable (allocation max_need : List (List Int)) (w : List Int) (s : List Nat) : Prop :=
  ∀ k, k < s.length → ∀ j, j < NUM_RESOURCES →
    needOf allocation max_need (s.getD k 0) j ≤ workAfter allocation w (s.take k) j

instance (allocation max_need : List (List Int)) (w : List Int) (s : List Nat) :
    Decidable (Completable allocation max_need w s) := by
  unfold Completable
  infer_instance

/-- A safe ordering: a permutation of the process indices that can be replayed
from `available`. -/
def SafeOrdering (allocation max_need : List (List Int)) (available : List Int)
    (s : List Nat) : Prop :=
  s.Perm (List.range NUM_PROCESSES) ∧ Completable allocation max_need available s

instance (allocation max_need : List (List Int)) (available : List Int) (s : List Nat) :
    Decidable (SafeOrdering allocation max_need available s) := by
  unfold SafeOrdering
  infer_instance

/-- The preconditions of the specification: non-negative entries, and no process
holds more than its declared maximum. -/
def Precondition (allocation max_need : List (List Int)) (available : List Int) : Prop :=
  (∀ i, i < NUM_PROCESSES → ∀ j, j < NUM_RESOURCES →
      0 ≤ idx2 allocation i j ∧ idx2 allocation i j ≤ idx2 max_need i j) ∧
    ∀ j, j < NUM_RESOURCES → 0 ≤ idx available j

instance (allocation max_need : List (List Int)) (available : List Int) :
    Decidable (Precondition allocation max_need available) := by
  unfold Precondition
  infer_instance

/-- The entries written to the output buffer so far. -/
def written (st : State) : List Int := st.safeSequence.take st.safeIndex

/-- Whether iteration `p` of the `for` loop schedules process `p`. -/
def runs (need : List (List Int)) (st : State) (p : Nat) : Bool :=
  !st.finish.getD p false && (canRunLoop need st.work p (List.range NUM_RESOURCES)).1

/-- What holds of the variables at every loop boundary.  `L` lists the processes
scheduled so far, in the order in which they were scheduled. -/
structure Inv (allocation max_need : List (List Int)) (available : List Int)
    (st : State) (L : List Nat) : Prop where
  work_len : st.work.length = NUM_RESOURCES
  fin_len : st.finish.length = NUM_PROCESSES
  nodup : L.Nodup
  lt : ∀ p ∈ L, p < NUM_PROCESSES
  fin : ∀ p, st.finish.getD p false = true ↔ p ∈ L
  fin_count : st.finish.count true = L.length
  sidx : st.safeIndex = L.length
  cnt : st.count = L.length
  work : ∀ j, j < NUM_RESOURCES → idx st.work j = workAfter allocation available L j
  comp : Completable allocation max_need available L

/-- What holds of the output buffer at every loop boundary, `sq` being the buffer
before the call. -/
structure BufInv (sq : List Int) (st : State) (L : List Nat) : Prop where
  len : st.safeSequence.length = sq.length
  pre : st.safeSequence.take L.length = L.map Int.ofNat
  post : st.safeSequence.drop L.length = sq.drop L.length

/-- The processes scheduled so far, after iteration `p` of the `for` loop. -/
def sched (need : List (List Int)) (st : State) (p : Nat) (L : List Nat) : List Nat :=
  if runs need st p then L ++ [p] else L

/-- The processes scheduled so far, after the `for` loop has gone over `ps`. -/
def schedLoop (allocation need : List (List Int)) : List Nat → State → List Nat → List Nat
  | [], _, L => L
  | p :: ps, st, L =>
    schedLoop allocation need ps (forBody allocation need st p) (sched need st p L)

/-- The processes scheduled so far, after one pass of the `while` loop. -/
def schedPass (allocation need : List (List Int)) (st : State) (L : List Nat) : List Nat :=
  schedLoop allocation need (List.range NUM_PROCESSES) { st with found := false, cmps := 0 } L

/-- What holds each time the test of the `while` loop is reached, `sq` being the
output buffer before the call. -/
def Head (allocation max_need : List (List Int)) (available sq : List Int) (st : State) : Prop :=
  ∃ L, Inv allocation max_need available st L ∧
    (NUM_PROCESSES ≤ sq.length → BufInv sq st L) ∧
    st.passCmps.length ≤ st.count ∧
    ∀ c ∈ st.passCmps, c ≤ NUM_PROCESSES * NUM_RESOURCES

/-- The variables with which `isSafeState` returns in scenario A when called, as
`main` calls it, with a buffer of five zeros. -/
def finalA : State :=
  { work := [10, 5, 7]
    finish := [true, true, true, true, true]
    safeSequence := [1, 3, 4, 0, 2]
    safeIndex := 5
    count := 5
    found := true
    cmps := 6
    passCmps := [11, 6] }

/-- The variables with which `isSafeState` returns in scenario B when called with a
buffer of five zeros. -/
def finalB : State :=
  { work := [0, 0, 0]
    finish := [false, false, false, false, false]
    safeSequence := [0, 0, 0, 0, 0]
    safeIndex := 0
    count := 0
    found := false
    cmps := 6
    passCmps := [6] }

/-- The variables other than the output buffer. -/
def ctl (st : State) : State := { st with safeSequence := [] }

/-- Two runs of the loops on the same inputs with different output buffers: all
variables but the buffer agree, and so do the entries written so far. -/
structure Rel (allocation max_need : List (List Int)) (available : List Int)
    (s1 s2 : State) : Prop where
  same : ctl s1 = ctl s2
  wr : written s1 = written s2
  len1 : NUM_PROCESSES ≤ s1.safeSequence.length
  len2 : NUM_PROCESSES ≤ s2.safeSequence.length
  inv : ∃ L, Inv allocation max_need available s1 L

/-- The all-zero matrix of the boundary case. -/
def zeroMatrix : List (List Int) := List.replicate NUM_PROCESSES (List.replicate NUM_RESOURCES 0)

/-- The variables with which `isSafeState` returns in the boundary case when called
with a buffer of five zeros. -/
def finalZero : State :=
  { work := [0, 0, 0]
    finish := [true, true, true, true, true]
    safeSequence := [0, 1, 2, 3, 4]
    safeIndex := 5
    count := 5
    found := true
    cmps := 15
    passCmps := [15] }

/-- The sum of all entries of the need matrix. -/
def totalNeed (allocation max_need : List (List Int)) : Int :=
  ((List.range NUM_PROCESSES).map fun i =>
    ((List.range NUM_RESOURCES).map fun j => needOf allocation max_need i j).sum).sum

/-- The variables after each iteration of the `for` loop over `ps`. -/
def forTrace (allocation need : List (List Int)) : List Nat → State → List State
  | [], _ => []
  | p :: ps, st =>
    forBody allocation need st p :: forTrace allocation need ps (forBody allocation need st p)

/-- The variables at every loop boundary of the `while` loop, in the order in which
they occur: at the test of the `while` loop, after `found = false`, after each
iteration of the `for` loop, and at the test of `found`. -/
def whileTrace (allocation need : List (List Int)) : Nat → State → List State
  | 0, st => [st]
  | fuel + 1, st =>
    if st.count < NUM_PROCESSES then
      st :: { st with found := false, cmps := 0 } ::
        (forTrace allocation need (List.range NUM_PROCESSES) { st with found := false, cmps := 0 }
          ++ (if (pass allocation need st).found then whileTrace allocation need fuel (pass allocation need st)
              else [pass allocation need st]))
    else [st]

/-- The variables at every loop boundary of a call of `isSafeState`. -/
def trace (fuel : Nat) (allocation max_need : List (List Int))
    (available safeSequence : List Int) : List State :=
  whileTrace allocation (computeNeed allocation max_need) fuel (initState available safeSequence)

/-- The finish set and the sequence agree: `safeIndex`, `count` and the number of
processes marked finished are equal, and the entries written to `safeSequence` are
pairwise distinct and are exactly the indices in `0..4` of the finished processes. -/
def FinishSeqInv (st : State) : Prop :=
  st.safeIndex = st.count ∧ st.count = st.finish.count true ∧
    (written st).length = st.safeIndex ∧ (written st).Nodup ∧
    ∀ x : Int, x ∈ written st ↔
      ∃ p : Nat, p < NUM_PROCESSES ∧ x = (p : Int) ∧ st.finish.getD p false = true

/-- The variables with which `isSafeState` returns in scenario B when called with a
buffer of five nines. -/
def finalB9 : State :=
  { work := [0, 0, 0]
    finish := [false, false, false, false, false]
    safeSequence := [9, 9, 9, 9, 9]
    safeIndex := 0
    count := 0
    found := false
    cmps := 6
    passCmps := [6] }

/-- The processes marked finished, in increasing order of index. -/
def finishedList (st : State) : List Nat :=
  (List.range NUM_PROCESSES).filter fun p => st.finish.getD p false

/-- The work vector of `t` is, resource by resource, at least that of `s`. -/
def WorkLe (s t : State) : Prop :=
  ∀ j, j < NUM_RESOURCES → idx s.work j ≤ idx t.work j

/-- The largest value of a 32-bit `int`. -/
def INT_MAX : Int := 2 ^ 31 - 1

/-- The total of column `j` of `allocation`: what all processes hold of resource `j`. -/
def colTotal (allocation : List (List Int)) (j : Nat) : Int :=
  ((List.range NUM_PROCESSES).map fun i => idx2 allocation i j).sum

/-- The memory a call of `isSafeState` works on: the vectors `allocation`, `max_need`
and `available` that it receives by reference, its local matrix `need`, and in `loc`
the output buffer `safeSequence` with the other local variables. -/
structure Store where
  allocation : List (List Int)
  max_need : List (List Int)
  available : List Int
  need : List (List Int)
  loc : State

/-- Lines 88-131 as a change of the memory: one iteration of the `for` loop, reading
`allocation` and `need` from the memory it is given. -/
def forBodyS (s : Store) (p : Nat) : Store :=
  { s with loc := forBody s.allocation s.need s.loc p }

/-- Lines 88-131 as a change of the memory: the `for` loop over the processes `ps`. -/
def forLoopS : List Nat → Store → Store
  | [], s => s
  | p :: ps, s => forLoopS ps (forBodyS s p)

/-- Lines 85-131 as a change of the memory: `found = false`, then the `for` loop. -/
def passS (s : Store) : Store :=
  let s1 := forLoopS (List.range NUM_PROCESSES)
    { s with loc := { s.loc with found := false, cmps := 0 } }
  { s1 with loc := { s1.loc with passCmps := s1.loc.passCmps ++ [s1.loc.cmps] } }

/-- Lines 83-144 as a change of the memory: the `while` loop and the two `return`s. -/
def whileLoopS : Nat → Store → Option (Bool × Store)
  | 0, s => if s.loc.count < NUM_PROCESSES then none else some (true, s)
  | fuel + 1, s =>
    if s.loc.count < NUM_PROCESSES then
      if (passS s).loc.found then whileLoopS fuel (passS s)
      else some (false, passS s)
    else some (true, s)

/-- Lines 43-145 as a change of the memory: the memory when `isSafeState` is entered
holds the caller's four vectors; `need` and the local variables are then set up from
what the memory holds, and the `while` loop runs. -/
def isSafeStateS (fuel : Nat) (allocation max_need : List (List Int))
    (available safeSequence : List Int) : Option (Bool × Store) :=
  let s0 : Store :=
    { allocation := allocation, max_need := max_need, available := available,
      need := [], loc := initState [] safeSequence }
  let s1 : Store := { s0 with need := computeNeed s0.allocation s0.max_need }
  let s2 : Store := { s1 with loc := initState s1.available s1.loc.safeSequence }
  whileLoopS fuel s2

/-- The smallest value of a 32-bit `int`. -/
def INT_MIN : Int := -(2 ^ 31)

/-- A whitespace-separated token of the input file: `num v` is the integer literal
of value `v`, `word` is a token that does not start with an integer literal.  (A
token such as `12abc` is the literal `12` followed by a `word`.) -/
inductive Token where
  | num (v : Int)
  | word
deriving DecidableEq

/-- The `ifstream` once it is open: the tokens not yet consumed and the fail bit. -/
structure IStream where
  rest : List Token
  fail : Bool
deriving DecidableEq

/-- The statement `inputFile >> x` for an `int` variable `x` that holds `old`: the
stream and the value of `x` afterwards.  A stream that has failed is left alone and
so is `x`; at the end of the file the stream fails and `x` is left alone; a literal
that does not fit an `int` makes the stream fail and stores the nearest `int`; a
token that is no integer literal makes the stream fail and stores `0`. -/
def extract (s : IStream) (old : Int) : IStream × Int :=
  if s.fail then (s, old)
  else
    match s.rest with
    | [] => ({ s with fail := true }, old)
    | Token.num v :: rest =>
      if v < INT_MIN then ({ rest := rest, fail := true }, INT_MIN)
      else if INT_MAX < v then ({ rest := rest, fail := true }, INT_MAX)
      else ({ rest := rest, fail := false }, v)
    | Token.word :: _ => ({ s with fail := true }, 0)

/-- Write `m[i][j] = v` on a `vector<vector<int>>`. -/
def set2 (m : List (List Int)) (i j : Nat) (v : Int) : List (List Int) :=
  m.set i ((m.getD i []).set j v)

/-- Lines 166-168 and 174-176: `for (j ...) inputFile >> m[i][j];` over the columns `js`. -/
def readRow (i : Nat) : List Nat → IStream × List (List Int) → IStream × List (List Int)
  | [], sm => sm
  | j :: js, sm =>
    readRow i js ((extract sm.1 (idx2 sm.2 i j)).1, set2 sm.2 i j (extract sm.1 (idx2 sm.2 i j)).2)

/-- Lines 165-169 and 173-177: the loop over the rows `rows` that reads a matrix. -/
def readMatrix : List Nat → IStream × List (List Int) → IStream × List (List Int)
  | [], sm => sm
  | i :: rows, sm => readMatrix rows (readRow i (List.range NUM_RESOURCES) sm)

/-- Lines 181-183: `for (i ...) inputFile >> available[i];` over the indices `is`. -/
def readVector : List Nat → IStream × List Int → IStream × List Int
  | [], sv => sv
  | i :: rest, sv =>
    readVector rest ((extract sv.1 (idx sv.2 i)).1, sv.2.set i (extract sv.1 (idx sv.2 i)).2)

/-- What `readInputFile` leaves behind: the returned `bool` and the three vectors it
received by reference. -/
structure Loaded where
  ok : Bool
  allocation : List (List Int)
  max_need : List (List Int)
  available : List Int
deriving DecidableEq

/-- Lines 149-188: `readInputFile`.  The file is `none` when it cannot be opened and
otherwise the list of its tokens. -/
def readInputFile (file : Option (List Token)) (allocation max_need : List (List Int))
    (available : List Int) : Loaded :=
  match file with
  | none => { ok := false, allocation := allocation, max_need := max_need, available := available }
  | some toks =>
    let a := readMatrix (List.range NUM_PROCESSES) ({ rest := toks, fail := false }, allocation)
    let m := readMatrix (List.range NUM_PROCESSES) (a.1, max_need)
    let v := readVector (List.range NUM_RESOURCES) (m.1, available)
    { ok := true, allocation := a.2, max_need := m.2, available := v.2 }

/-- What a run of `main` amounts to: its exit status, and the verdict of
`isSafeState` that it reports, `none` when `isSafeState` was not called. -/
structure Outcome where
  status : Int
  verdict : Option Bool
deriving DecidableEq

/-- What `main` loads (lines 198-204): `readInputFile` on vectors of zeros. -/
def mainLoad (file : Option (List Token)) : Loaded :=
  readInputFile file zeroMatrix zeroMatrix (List.replicate NUM_RESOURCES 0)

/-- Lines 190-253: `main`.  `none` means that the fuel of `isSafeState` ran out. -/
def main (fuel : Nat) (file : Option (List Token)) : Option Outcome :=
  if !(mainLoad file).ok then some { status := 1, verdict := none }
  else
    match isSafeState fuel (mainLoad file).allocation (mainLoad file).max_need
        (mainLoad file).available mainBuffer with
    | none => none
    | some r => some { status := 0, verdict := some r.1 }

/-- The tokens of an input file that holds the given integers. -/
def fileOf (vals : List Int) : Option (List Token) := some (vals.map Token.num)

/-- The input file of scenario A. -/
def fileA : Option (List Token) :=
  fileOf [0,1,0, 2,0,0, 3,0,2, 2,1,1, 0,0,2,  7,5,3, 3,2,2, 9,0,2, 2,2,2, 4,3,3,  3,3,2]

/-- The input file of scenario B. -/
def fileB : Option (List Token) :=
  fileOf [0,1,0, 2,0,0, 3,0,2, 2,1,1, 0,0,2,  7,5,3, 3,2,2, 9,0,2, 2,2,2, 4,3,3,  0,0,0]

/-- An input file of 33 integers in which every process holds one unit of every
resource, every declared maximum is zero, and `-1` units of the first resource are
available. -/
def fileInconsistent : Option (List Token) :=
  fileOf [1,1,1, 1,1,1, 1,1,1, 1,1,1, 1,1,1,  0,0,0, 0,0,0, 0,0,0, 0,0,0, 0,0,0,  -1,0,0]

/-- The input file of scenario A cut off after the allocation matrix and the first
row of the maximum-need matrix. -/
def fileTruncated : Option (List Token) :=
  fileOf [0,1,0, 2,0,0, 3,0,2, 2,1,1, 0,0,2,  7,5,3]

/-- The input file of scenario A with its second number replaced by a word. -/
def fileNonNumeric : Option (List Token) :=
  some (Token.num 0 :: Token.word :: ([0, 2,0,0, 3,0,2, 2,1,1, 0,0,2,  7,5,3, 3,2,2, 9,0,2,
    2,2,2, 4,3,3,  3,3,2] : List Int).map Token.num)

/-- The matrix has `NUM_PROCESSES` rows of `NUM_RESOURCES` entries. -/
def IsMatrix (m : List (List Int)) : Prop :=
  m.length = NUM_PROCESSES ∧ ∀ r ∈ m, r.length = NUM_RESOURCES

instance (m : List (List Int)) : Decidable (IsMatrix m) := by
  unfold IsMatrix
  infer_instance

/-- The value fits a 32-bit `int`. -/
def IsInt32 (v : Int) : Prop := INT_MIN ≤ v ∧ v ≤ INT_MAX

instance (v : Int) : Decidable (IsInt32 v) := by
  unfold IsInt32
  infer_instance

/-- The tokens of a well-formed input file that lists the matrix `A` row by row, then
the matrix `M`, then the vector `V`. -/
def fileOfData (A M : List (List Int)) (V : List Int) : Option (List Token) :=
  fileOf (A.flatten ++ (M.flatten ++ V))

/-- The matrices and the vector of the file `fileInconsistent`. -/
def onesMatrix : List (List Int) := List.replicate NUM_PROCESSES (List.replicate NUM_RESOURCES 1)

/-- The state of the algorithm as the specification words it: the Work vector, the
Finish set and the Sequence. -/
structure SpecState where
  work : List Int
  finish : List Nat
  sequence : List Nat
deriving DecidableEq

/-- Step 3a of the specification: the processes not yet in Finish whose need is
covered, resource by resource, by the Work held at the start of the pass, in
increasing index order. -/
def specMarked (allocation max_need : List (List Int)) (s : SpecState) : List Nat :=
  (List.range NUM_PROCESSES).filter fun p =>
    decide (p ∉ s.finish) &&
      decide (∀ j, j < NUM_RESOURCES → needOf allocation max_need p j ≤ idx s.work j)

/-- Step 3b of the specification for one marked process `p`: add `p` to Finish, append
it to Sequence, and add `allocation[p][j]` to `Work[j]` for every resource `j`. -/
def specFinish (allocation : List (List Int)) (s : SpecState) (p : Nat) : SpecState :=
  { work := (List.range NUM_RESOURCES).map fun j => idx s.work j + idx2 allocation p j
    finish := p :: s.finish
    sequence := s.sequence ++ [p] }

/-- Steps 3a and 3b of the specification: mark, then finish the marked processes in
increasing index order. -/
def specPass (allocation max_need : List (List Int)) (s : SpecState) : SpecState :=
  (specMarked allocation max_need s).foldl (specFinish allocation) s

/-- Finish holds all `NUM_PROCESSES` processes. -/
def specAllFinished (s : SpecState) : Bool :=
  (List.range NUM_PROCESSES).all fun p => decide (p ∈ s.finish)

/-- Steps 3 and 4 of the specification: safe once Finish holds all processes, unsafe
on a pass that marks none, and another pass otherwise.  `none` means that the fuel,
the number of passes allowed, ran out. -/
def specLoop (allocation max_need : List (List Int)) : Nat → SpecState → Option (Bool × List Nat)
  | 0, s => if specAllFinished s then some (true, s.sequence) else none
  | fuel + 1, s =>
    if specAllFinished s then some (true, s.sequence)
    else if specMarked allocation max_need s = [] then some (false, s.sequence)
    else specLoop allocation max_need fuel (specPass allocation max_need s)

/-- The algorithm `check_safety` as section 4.1 of the specification words it, with
the two-step pass.  Step 1 is `needOf`; step 2 sets Work to a copy of
`available` and Finish and Sequence to empty. -/
def check_safety (fuel : Nat) (allocation max_need : List (List Int)) (available : List Int) :
    Option (Bool × List Nat) :=
  specLoop allocation max_need fuel { work := available, finish := [], sequence := [] }

/-- What holds of the state of the specification's algorithm between passes. -/
structure SpecInv (allocation max_need : List (List Int)) (available : List Int)
    (s : SpecState) : Prop where
  nodup : s.sequence.Nodup
  lt : ∀ p ∈ s.sequence, p < NUM_PROCESSES
  fin : ∀ p, p ∈ s.finish ↔ p ∈ s.sequence
  work : ∀ j, j < NUM_RESOURCES → idx s.work j = workAfter allocation available s.sequence j
  comp : Completable allocation max_need available s.sequence

/-- Read `v[i]` with a bounds check: `none` when `i` is outside the vector. -/
def rd {α : Type} (v : List α) (i : Nat) : Option α := v[i]?

/-- Write `v[i] = x` with a bounds check: `none` when `i` is outside the vector. -/
def wr {α : Type} (v : List α) (i : Nat) (x : α) : Option (List α) :=
  if i < v.length then some (v.set i x) else none

/-- Read `m[i][j]` with a bounds check on both indices. -/
def rd2 (m : List (List Int)) (i j : Nat) : Option Int :=
  (rd m i).bind fun row => rd row j

/-- Write `m[i][j] = x` with a bounds check on both indices. -/
def wr2 (m : List (List Int)) (i j : Nat) (x : Int) : Option (List (List Int)) :=
  (rd m i).bind fun row => (wr row j x).bind fun row2 => wr m i row2

/-- Lines 56-58 with bounds checks: `for (j ...) need[i][j] = max_need[i][j] - allocation[i][j];`
over the columns `js`. -/
def needRowChk (allocation max_need : List (List Int)) (i : Nat) :
    List Nat → List (List Int) → Option (List (List Int))
  | [], need => some need
  | j :: js, need =>
    (rd2 max_need i j).bind fun a =>
      (rd2 allocation i j).bind fun b =>
        (wr2 need i j (a - b)).bind fun need2 => needRowChk allocation max_need i js need2

/-- Lines 55-59 with bounds checks: the loop over the rows `rows` that fills `need`. -/
def needLoopChk (allocation max_need : List (List Int)) :
    List Nat → List (List Int) → Option (List (List Int))
  | [], need => some need
  | i :: rows, need =>
    (needRowChk allocation max_need i (List.range NUM_RESOURCES) need).bind fun need2 =>
      needLoopChk allocation max_need rows need2

/-- Lines 50-59 with bounds checks: `need` is created with `NUM_PROCESSES` rows of
`NUM_RESOURCES` zeros and then filled. -/
def computeNeedChk (allocation max_need : List (List Int)) : Option (List (List Int)) :=
  needLoopChk allocation max_need (List.range NUM_PROCESSES) zeroMatrix

/-- Lines 66-68 with bounds checks: `for (i ...) work[i] = available[i];` over `is`. -/
def workLoopChk (available : List Int) : List Nat → List Int → Option (List Int)
  | [], work => some work
  | i :: rest, work =>
    (rd available i).bind fun a => (wr work i a).bind fun work2 => workLoopChk available rest work2

/-- Lines 65-68 with bounds checks: `work` is created with `NUM_RESOURCES` zeros and
then filled. -/
def initWorkChk (available : List Int) : Option (List Int) :=
  workLoopChk available (List.range NUM_RESOURCES) (List.replicate NUM_RESOURCES 0)

/-- Lines 96-102 with bounds checks. -/
def canRunLoopChk (need : List (List Int)) (work : List Int) (p : Nat) :
    List Nat → Option (Bool × Nat)
  | [] => some (true, 0)
  | j :: js =>
    (rd2 need p j).bind fun n =>
      (rd work j).bind fun w =>
        if n > w then some (false, 1)
        else (canRunLoopChk need work p js).bind fun r => some (r.1, r.2 + 1)

/-- Lines 115-117 with bounds checks. -/
def releaseLoopChk (allocation : List (List Int)) (p : Nat) :
    List Nat → List Int → Option (List Int)
  | [], work => some work
  | k :: ks, work =>
    (rd work k).bind fun w =>
      (rd2 allocation p k).bind fun a =>
        (wr work k (w + a)).bind fun work2 => releaseLoopChk allocation p ks work2

/-- Lines 108-110 and 120-122 with bounds checks: `for (k ...) cout << work[k];` over
the resources `ks`.  Only the reads are modelled. -/
def printLoopChk (work : List Int) : List Nat → Option Unit
  | [] => some ()
  | k :: ks => (rd work k).bind fun _ => printLoopChk work ks

/-- Lines 23-29 with bounds checks, as called on line 61: `displayMatrix` reads
`matrix[i][j]` for every row of `rows` and every column.  Only the reads are
modelled. -/
def displayMatrixChk (matrix : List (List Int)) : List Nat → Option Unit
  | [] => some ()
  | i :: rows =>
    ((List.range NUM_RESOURCES).foldl
        (fun acc j => acc.bind fun _ => (rd2 matrix i j).bind fun _ => some ()) (some ())).bind
      fun _ => displayMatrixChk matrix rows

/-- Lines 88-131 with bounds checks: one iteration of the `for` loop. -/
def forBodyChk (allocation need : List (List Int)) (st : State) (p : Nat) : Option State :=
  (rd st.finish p).bind fun f =>
    if f then some st
    else
      (canRunLoopChk need st.work p (List.range NUM_RESOURCES)).bind fun r =>
        if r.1 then
          (printLoopChk st.work (List.range NUM_RESOURCES)).bind fun _ =>
          (releaseLoopChk allocation p (List.range NUM_RESOURCES) st.work).bind fun work2 =>
          (printLoopChk work2 (List.range NUM_RESOURCES)).bind fun _ =>
            (wr st.safeSequence st.safeIndex (p : Int)).bind fun seq2 =>
              (wr st.finish p true).bind fun fin2 =>
                some { work := work2
                       finish := fin2
                       safeSequence := seq2
                       safeIndex := st.safeIndex + 1
                       count := st.count + 1
                       found := true
                       cmps := st.cmps + r.2
                       passCmps := st.passCmps }
        else some { st with cmps := st.cmps + r.2 }

/-- Lines 88-131 with bounds checks: the `for` loop over the processes `ps`. -/
def forLoopChk (allocation need : List (List Int)) : List Nat → State → Option State
  | [], st => some st
  | p :: ps, st =>
    (forBodyChk allocation need st p).bind fun st2 => forLoopChk allocation need ps st2

/-- Lines 85-131 with bounds checks: one pass of the `while` body. -/
def passChk (allocation need : List (List Int)) (st : State) : Option State :=
  (forLoopChk allocation need (List.range NUM_PROCESSES) { st with found := false, cmps := 0 }).bind
    fun st1 => some { st1 with passCmps := st1.passCmps ++ [st1.cmps] }

/-- Lines 83-144 with bounds checks.  The outer `none` means that an index was out of
bounds, the inner `none` that the fuel ran out. -/
def whileLoopChk (allocation need : List (List Int)) :
    Nat → State → Option (Option (Bool × State))
  | 0, st => if st.count < NUM_PROCESSES then some none else some (some (true, st))
  | fuel + 1, st =>
    if st.count < NUM_PROCESSES then
      (passChk allocation need st).bind fun st2 =>
        if st2.found then whileLoopChk allocation need fuel st2
        else some (some (false, st2))
    else some (some (true, st))

/-- Lines 43-145 with bounds checks on every vector access.  The outer `none` means
that an index was out of bounds, the inner `none` that the fuel ran out. -/
def isSafeStateChk (fuel : Nat) (allocation max_need : List (List Int))
    (available safeSequence : List Int) : Option (Option (Bool × State)) :=
  (computeNeedChk allocation max_need).bind fun need =>
    (displayMatrixChk need (List.range NUM_PROCESSES)).bind fun _ =>
    (initWorkChk available).bind fun work =>
      whileLoopChk allocation need fuel
        { work := work
          finish := List.replicate NUM_PROCESSES false
          safeSequence := safeSequence
          safeIndex := 0
          count := 0
          found := false
          cmps := 0
          passCmps := [] }

/-- The value that a 32-bit two's-complement `int` holds after an operation whose
exact result is `x`. -/
def wrap32 (x : Int) : Int := (x + 2 ^ 31) % 2 ^ 32 - 2 ^ 31

/-- Lines 50-59 in 32-bit arithmetic: `need[i][j] = max_need[i][j] - allocation[i][j]`. -/
def computeNeed32 (allocation max_need : List (List Int)) : List (List Int) :=
  (List.range NUM_PROCESSES).map fun i =>
    (List.range NUM_RESOURCES).map fun j => wrap32 (idx2 max_need i j - idx2 allocation i j)

/-- Lines 115-117 in 32-bit arithmetic: `for (k ...) work[k] += allocation[p][k];`. -/
def releaseLoop32 (allocation : List (List Int)) (p : Nat) : List Nat → List Int → List Int
  | [], work => work
  | k :: ks, work =>
    releaseLoop32 allocation p ks (work.set k (wrap32 (idx work k + idx2 allocation p k)))

/-- Lines 88-131 in 32-bit arithmetic: one iteration of the `for` loop. -/
def forBody32 (allocation need : List (List Int)) (st : State) (p : Nat) : State :=
  if st.finish.getD p false then st
  else
    let r := canRunLoop need st.work p (List.range NUM_RESOURCES)
    if r.1 then
      { work := releaseLoop32 allocation p (List.range NUM_RESOURCES) st.work
        finish := st.finish.set p true
        safeSequence := st.safeSequence.set st.safeIndex (p : Int)
        safeIndex := st.safeIndex + 1
        count := st.count + 1
        found := true
        cmps := st.cmps + r.2
        passCmps := st.passCmps }
    else { st with cmps := st.cmps + r.2 }

/-- Lines 88-131 in 32-bit arithmetic: the `for` loop over the processes `ps`. -/
def forLoop32 (allocation need : List (List Int)) : List Nat → State → State
  | [], st => st
  | p :: ps, st => forLoop32 allocation need ps (forBody32 allocation need st p)

/-- Lines 85-131 in 32-bit arithmetic: one pass of the `while` body. -/
def pass32 (allocation need : List (List Int)) (st : State) : State :=
  let st1 := forLoop32 allocation need (List.range NUM_PROCESSES) { st with found := false, cmps := 0 }
  { st1 with passCmps := st1.passCmps ++ [st1.cmps] }

/-- Lines 83-144 in 32-bit arithmetic: the `while` loop and the two `return`s. -/
def whileLoop32 (allocation need : List (List Int)) : Nat → State → Option (Bool × State)
  | 0, st => if st.count < NUM_PROCESSES then none else some (true, st)
  | fuel + 1, st =>
    if st.count < NUM_PROCESSES then
      if (pass32 allocation need st).found then
        whileLoop32 allocation need fuel (pass32 allocation need st)
      else some (false, pass32 allocation need st)
    else some (true, st)

/-- Lines 43-145 in 32-bit arithmetic: `isSafeState` as it runs on `int`s that wrap
around, which is how the subtraction of line 57 and the addition of line 116 behave
on two's-complement hardware when the exact result does not fit. -/
def isSafeState32 (fuel : Nat) (allocation max_need : List (List Int))
    (available safeSequence : List Int) : Option (Bool × State) :=
  whileLoop32 allocation (computeNeed32 allocation max_need) fuel
    (initState available safeSequence)

/-- The variables after each iteration of the `for` loop, in 32-bit arithmetic. -/
def forTrace32 (allocation need : List (List Int)) : List Nat → State → List State
  | [], _ => []
  | p :: ps, st =>
    forBody32 allocation need st p :: forTrace32 allocation need ps (forBody32 allocation need st p)

/-- The variables at every loop boundary of the `while` loop, in 32-bit arithmetic. -/
def whileTrace32 (allocation need : List (List Int)) : Nat → State → List State
  | 0, st => [st]
  | fuel + 1, st =>
    if st.count < NUM_PROCESSES then
      st :: { st with found := false, cmps := 0 } ::
        (forTrace32 allocation need (List.range NUM_PROCESSES) { st with found := false, cmps := 0 }
          ++ (if (pass32 allocation need st).found then
                whileTrace32 allocation need fuel (pass32 allocation need st)
              else [pass32 allocation need st]))
    else [st]

/-- The variables at every loop boundary of a call of `isSafeState`, in 32-bit
arithmetic. -/
def trace32 (fuel : Nat) (allocation max_need : List (List Int))
    (available safeSequence : List Int) : List State :=
  whileTrace32 allocation (computeNeed32 allocation max_need) fuel
    (initState available safeSequence)

/-- The resource bound: the entries of `allocation` are non-negative, the entries of
`available` are `int`s, and for each resource `available[j]` plus the column total of
`allocation` is at most `2^31 - 1`. -/
def WorkBound (allocation : List (List Int)) (available : List Int) : Prop :=
  (∀ i, i < NUM_PROCESSES → ∀ j, j < NUM_RESOURCES → 0 ≤ idx2 allocation i j) ∧
    ∀ j, j < NUM_RESOURCES →
      INT_MIN ≤ idx available j ∧ idx available j + colTotal allocation j ≤ INT_MAX

instance (allocation : List (List Int)) (available : List Int) :
    Decidable (WorkBound allocation available) := by
  unfold WorkBound
  infer_instance

/-- The part of the loop invariant that does not depend on the need matrix.  `L`
lists the processes scheduled so far. -/
structure WInv (allocation : List (List Int)) (available : List Int)
    (st : State) (L : List Nat) : Prop where
  work_len : st.work.length = NUM_RESOURCES
  fin_len : st.finish.length = NUM_PROCESSES
  nodup : L.Nodup
  lt : ∀ p ∈ L, p < NUM_PROCESSES
  fin : ∀ p, st.finish.getD p false = true ↔ p ∈ L
  cnt : st.count = L.length
  work : ∀ j, j < NUM_RESOURCES → idx st.work j = workAfter allocation available L j

/-- The allocation matrix of an input on which 32-bit arithmetic matters: process 0
holds one unit of resource 0. -/
def allocX : List (List Int) := [[1,0,0],[0,0,0],[0,0,0],[0,0,0],[0,0,0]]

/-- The maximum-need matrix that goes with `allocX`: processes 0 and 1 may each want
one unit of resource 0. -/
def maxX : List (List Int) := [[1,0,0],[1,0,0],[0,0,0],[0,0,0],[0,0,0]]

/-- The variables with which the 32-bit run returns on `allocX`, `maxX` and
`available = [2147483647, 0, 0]`: process 0 is scheduled, `work[0]` wraps around to
`-2147483648`, and no other process passes the need test any more. -/
def finalX : State :=
  { work := [-2147483648, 0, 0]
    finish := [true, false, false, false, false]
    safeSequence := [0, 0, 0, 0, 0]
    safeIndex := 1
    count := 1
    found := false
    cmps := 4
    passCmps := [7, 4] }

/-- The variables with which the 32-bit run returns on `allocation = max_need = allocX`
and `available = [2147483647, 2147483647, 2147483647]`. -/
def finalX2 : State :=
  { work := [-2147483648, 2147483647, 2147483647]
    finish := [true, false, false, false, false]
    safeSequence := [0, 0, 0, 0, 0]
    safeIndex := 1
    count := 1
    found := false
    cmps := 4
    passCmps := [7, 4] }

/-- The variables of the 32-bit run on `allocX`, `maxX` and
`available = [2147483647, 0, 0]` when the first pass starts. -/
def startX : State :=
  { work := [2147483647, 0, 0]
    finish := [false, false, false, false, false]
    safeSequence := [0, 0, 0, 0, 0]
    safeIndex := 0
    count := 0
    found := false
    cmps := 0
    passCmps := [] }

/-- The variables of the same run one loop boundary later, after the iteration that
schedules process 0. -/
def afterX : State :=
  { work := [-2147483648, 0, 0]
    finish := [true, false, false, false, false]
    safeSequence := [0, 0, 0, 0, 0]
    safeIndex := 1
    count := 1
    found := true
    cmps := 3
    passCmps := [] }

/-! ## Reading and writing vectors -/

theorem idx_set (v : List Int) (i j : Nat) (x : Int) :
    idx (v.set i x) j = if i = j ∧ i < v.length then x else idx v j := by
  unfold idx
  simp only [List.getD_eq_getElem?_getD, List.getElem?_set]
  by_cases h : i = j
  · subst h
    by_cases h2 : i < v.length
    · simp [h2]
    · simp [h2, List.getElem?_eq_none (Nat.le_of_not_lt h2)]
  · simp [h]

theorem getD_set_bool (v : List Bool) (i j : Nat) :
    (v.set i true).getD j false = if i = j ∧ i < v.length then true else v.getD j false := by
  simp only [List.getD_eq_getElem?_getD, List.getElem?_set]
  by_cases h : i = j
  · subst h
    by_cases h2 : i < v.length
    · simp [h2]
    · simp [h2, List.getElem?_eq_none (Nat.le_of_not_lt h2)]
  · simp [h]

theorem idx2_computeNeed (allocation max_need : List (List Int)) (p j : Nat)
    (hp : p < NUM_PROCESSES) (hj : j < NUM_RESOURCES) :
    idx2 (computeNeed allocation max_need) p j = idx2 max_need p j - idx2 allocation p j := by
  unfold computeNeed
  conv_lhs => unfold idx2 idx
  simp [List.getD_eq_getElem?_getD, List.getElem?_map, List.getElem?_range, hp, hj, idx2, idx]

theorem idx_initWork (available : List Int) (j : Nat) (hj : j < NUM_RESOURCES) :
    idx (initWork available) j = idx available j := by
  unfold initWork
  conv_lhs => unfold idx
  simp [List.getD_eq_getElem?_getD, List.getElem?_map, List.getElem?_range, hj, idx]

/-! ## The two inner loops -/

theorem canRunLoop_true (need : List (List Int)) (work : List Int) (p : Nat) (js : List Nat) :
    (canRunLoop need work p js).1 = true ↔ ∀ j ∈ js, idx2 need p j ≤ idx work j := by
  induction js with
  | nil => simp [canRunLoop]
  | cons j js ih =>
    unfold canRunLoop
    by_cases h : idx2 need p j > idx work j
    · simp only [h, if_true]
      constructor
      · intro h0; cases h0
      · intro h0
        have := h0 j (List.mem_cons_self _ _)
        omega
    · simp only [h, if_false, ih, List.mem_cons, forall_eq_or_imp]
      constructor
      · intro h0; exact ⟨by omega, h0⟩
      · intro h0; exact h0.2

theorem canRunLoop_cmps (need : List (List Int)) (work : List Int) (p : Nat) (js : List Nat) :
    (canRunLoop need work p js).2 ≤ js.length := by
  induction js with
  | nil => simp [canRunLoop]
  | cons j js ih =>
    unfold canRunLoop
    split
    · simp
    · simpa using ih

theorem releaseLoop_length (allocation : List (List Int)) (p : Nat) (ks : List Nat) (work : List Int) :
    (releaseLoop allocation p ks work).length = work.length := by
  induction ks generalizing work with
  | nil => rfl
  | cons k ks ih => simp [releaseLoop, ih]

theorem idx_releaseLoop (allocation : List (List Int)) (p : Nat) (ks : List Nat) (work : List Int)
    (hnd : ks.Nodup) (hlt : ∀ k ∈ ks, k < work.length) (j : Nat) :
    idx (releaseLoop allocation p ks work) j
      = if j ∈ ks then idx work j + idx2 allocation p j else idx work j := by
  induction ks generalizing work with
  | nil => simp [releaseLoop]
  | cons k ks ih =>
    have hk : k < work.length := hlt k (List.mem_cons_self _ _)
    have hnd2 := List.nodup_cons.mp hnd
    unfold releaseLoop
    rw [ih _ hnd2.2 (by
      intro k2 hk2
      simpa using hlt k2 (List.mem_cons_of_mem _ hk2))]
    rw [idx_set]
    by_cases hjk : k = j
    · subst hjk
      simp [hnd2.1, hk]
    · have hjk2 : ¬ j = k := fun h => hjk h.symm
      simp [hjk, hjk2]

theorem idx_release (allocation : List (List Int)) (p : Nat) (work : List Int)
    (hlen : work.length = NUM_RESOURCES) (j : Nat) (hj : j < NUM_RESOURCES) :
    idx (releaseLoop allocation p (List.range NUM_RESOURCES) work) j
      = idx work j + idx2 allocation p j := by
  rw [idx_releaseLoop _ _ _ _ (List.nodup_range _) (by
    intro k hk
    rw [hlen]
    exact List.mem_range.mp hk)]
  simp [List.mem_range.mpr hj]

/-! ## One iteration of the `for` loop -/

theorem forBody_of_not_runs (allocation need : List (List Int)) (st : State) (p : Nat)
    (h : runs need st p = false) :
    ∃ c, c ≤ NUM_RESOURCES ∧ forBody allocation need st p = { st with cmps := st.cmps + c } := by
  unfold runs at h
  unfold forBody
  by_cases hf : st.finish.getD p false = true
  · exact ⟨0, Nat.zero_le _, by rw [if_pos hf]; rfl⟩
  · have hf2 : st.finish.getD p false = false := by simpa using hf
    rw [hf2] at h
    have hc : (canRunLoop need st.work p (List.range NUM_RESOURCES)).1 = false := by
      simpa using h
    refine ⟨(canRunLoop need st.work p (List.range NUM_RESOURCES)).2, ?_, ?_⟩
    · simpa using canRunLoop_cmps need st.work p (List.range NUM_RESOURCES)
    · rw [if_neg hf]
      simp only [hc]
      rfl

theorem forBody_of_runs (allocation need : List (List Int)) (st : State) (p : Nat)
    (h : runs need st p = true) :
    forBody allocation need st p =
      { work := releaseLoop allocation p (List.range NUM_RESOURCES) st.work
        finish := st.finish.set p true
        safeSequence := st.safeSequence.set st.safeIndex (p : Int)
        safeIndex := st.safeIndex + 1
        count := st.count + 1
        found := true
        cmps := st.cmps + (canRunLoop need st.work p (List.range NUM_RESOURCES)).2
        passCmps := st.passCmps } := by
  unfold runs at h
  simp only [Bool.and_eq_true, Bool.not_eq_true'] at h
  unfold forBody
  rw [if_neg (by rw [h.1]; simp)]
  simp only [h.2, if_true]

theorem runs_iff (allocation max_need : List (List Int)) (st : State) (p : Nat)
    (hp : p < NUM_PROCESSES) :
    runs (computeNeed allocation max_need) st p = true ↔
      st.finish.getD p false = false ∧
        ∀ j, j < NUM_RESOURCES → needOf allocation max_need p j ≤ idx st.work j := by
  unfold runs needOf
  simp only [Bool.and_eq_true, Bool.not_eq_true', canRunLoop_true, List.mem_range]
  constructor
  · rintro ⟨h1, h2⟩
    refine ⟨h1, fun j hj => ?_⟩
    rw [← idx2_computeNeed allocation max_need p j hp hj]
    exact h2 j hj
  · rintro ⟨h1, h2⟩
    refine ⟨h1, fun j hj => ?_⟩
    rw [idx2_computeNeed allocation max_need p j hp hj]
    exact h2 j hj

/-! ## The loop invariant -/

theorem length_le_of_nodup_of_lt (L : List Nat) (n : Nat) (hnd : L.Nodup)
    (hlt : ∀ p ∈ L, p < n) : L.length ≤ n := by
  have h := List.subperm_of_subset hnd (fun p hp => List.mem_range.mpr (hlt p hp))
  simpa using h.length_le

theorem count_set_true (v : List Bool) (p : Nat) (hp : p < v.length)
    (hf : v.getD p false = false) : (v.set p true).count true = v.count true + 1 := by
  induction v generalizing p with
  | nil => simp at hp
  | cons b v ih =>
    cases p with
    | zero =>
      simp only [List.getD_cons_zero] at hf
      subst hf
      simp
    | succ p =>
      simp only [List.getD_cons_succ] at hf
      simp only [List.length_cons, Nat.add_lt_add_iff_right] at hp
      simp only [List.set_cons_succ, List.count_cons, ih p hp hf]
      omega

theorem workAfter_append (allocation : List (List Int)) (w : List Int) (L : List Nat)
    (p j : Nat) :
    workAfter allocation w (L ++ [p]) j = workAfter allocation w L j + idx2 allocation p j := by
  unfold workAfter
  simp [add_assoc]

theorem Completable_append (allocation max_need : List (List Int)) (w : List Int)
    (L : List Nat) (p : Nat) (hL : Completable allocation max_need w L)
    (hp : ∀ j, j < NUM_RESOURCES → needOf allocation max_need p j ≤ workAfter allocation w L j) :
    Completable allocation max_need w (L ++ [p]) := by
  intro k hk j hj
  simp only [List.length_append, List.length_singleton] at hk
  by_cases hkL : k < L.length
  · have h1 : (L ++ [p]).getD k 0 = L.getD k 0 := by
      simp [List.getD_eq_getElem?_getD, List.getElem?_append_left hkL]
    have h2 : (L ++ [p]).take k = L.take k := by
      rw [List.take_append_of_le_length (Nat.le_of_lt hkL)]
    rw [h1, h2]
    exact hL k hkL j hj
  · have hk2 : k = L.length := by omega
    subst hk2
    have h1 : (L ++ [p]).getD L.length 0 = p := by
      simp [List.getD_eq_getElem?_getD]
    have h2 : (L ++ [p]).take L.length = L := by simp
    rw [h1, h2]
    exact hp j hj

theorem take_succ_set (v : List Int) (k : Nat) (x : Int) (hk : k < v.length) :
    (v.set k x).take (k + 1) = v.take k ++ [x] := by
  induction v generalizing k with
  | nil => simp at hk
  | cons a v ih =>
    cases k with
    | zero => simp
    | succ k =>
      simp only [List.length_cons, Nat.add_lt_add_iff_right] at hk
      simp [ih k hk]

theorem drop_succ_set (v : List Int) (k : Nat) (x : Int) :
    (v.set k x).drop (k + 1) = v.drop (k + 1) := by
  induction v generalizing k with
  | nil => simp
  | cons a v ih =>
    cases k with
    | zero => simp
    | succ k => simp [ih k]

theorem drop_succ_of_drop_eq (v w : List Int) (k : Nat) (h : v.drop k = w.drop k) :
    v.drop (k + 1) = w.drop (k + 1) := by
  have h1 := congrArg (List.drop 1) h
  simpa [List.drop_drop, Nat.add_comm] using h1

theorem Inv_congr {allocation max_need : List (List Int)} {available : List Int}
    {st : State} {L : List Nat} (h : Inv allocation max_need available st L) (st2 : State)
    (hw : st2.work = st.work) (hf : st2.finish = st.finish)
    (hi : st2.safeIndex = st.safeIndex) (hc : st2.count = st.count) :
    Inv allocation max_need available st2 L where
  work_len := by rw [hw]; exact h.work_len
  fin_len := by rw [hf]; exact h.fin_len
  nodup := h.nodup
  lt := h.lt
  fin := by rw [hf]; exact h.fin
  fin_count := by rw [hf]; exact h.fin_count
  sidx := by rw [hi]; exact h.sidx
  cnt := by rw [hc]; exact h.cnt
  work := by rw [hw]; exact h.work
  comp := h.comp

theorem BufInv_congr {sq : List Int} {st : State} {L : List Nat} (h : BufInv sq st L)
    (st2 : State) (hs : st2.safeSequence = st.safeSequence) : BufInv sq st2 L where
  len := by rw [hs]; exact h.len
  pre := by rw [hs]; exact h.pre
  post := by rw [hs]; exact h.post

theorem Inv_initState (allocation max_need : List (List Int)) (available sq : List Int) :
    Inv allocation max_need available (initState available sq) [] where
  work_len := by simp [initState, initWork]
  fin_len := by simp [initState]
  nodup := List.nodup_nil
  lt := by simp
  fin := by
    intro p
    simp only [initState, List.getD_eq_getElem?_getD, List.getElem?_replicate]
    split <;> simp
  fin_count := by simp [initState, List.count_replicate]
  sidx := rfl
  cnt := rfl
  work := by
    intro j hj
    simp [initState, idx_initWork available j hj, workAfter]
  comp := by
    intro k hk
    simp at hk

theorem BufInv_initState (available sq : List Int) : BufInv sq (initState available sq) [] where
  len := rfl
  pre := by simp
  post := by simp [initState]

theorem Inv_forBody (allocation max_need : List (List Int)) (available : List Int)
    (st : State) (L : List Nat) (p : Nat) (hp : p < NUM_PROCESSES)
    (h : Inv allocation max_need available st L) :
    Inv allocation max_need available
      (forBody allocation (computeNeed allocation max_need) st p)
      (sched (computeNeed allocation max_need) st p L) := by
  unfold sched
  by_cases hr : runs (computeNeed allocation max_need) st p = true
  · rw [if_pos hr, forBody_of_runs _ _ _ _ hr]
    have hr2 := (runs_iff allocation max_need st p hp).mp hr
    have hpL : p ∉ L := by
      intro hmem
      have := (h.fin p).mpr hmem
      rw [hr2.1] at this
      cases this
    have hplen : p < st.finish.length := by rw [h.fin_len]; exact hp
    constructor
    · simp only [releaseLoop_length]; exact h.work_len
    · simp only [List.length_set]; exact h.fin_len
    · exact List.Nodup.append h.nodup (List.nodup_singleton p) (by simpa using hpL)
    · intro q hq
      rcases List.mem_append.mp hq with hq | hq
      · exact h.lt q hq
      · rw [List.mem_singleton.mp hq]; exact hp
    · intro q
      simp only [getD_set_bool, List.mem_append, List.mem_singleton]
      by_cases hqp : p = q
      · subst hqp
        simp [hplen]
      · have hqp2 : ¬ q = p := fun e => hqp e.symm
        simp only [hqp, false_and, if_false, hqp2, or_false]
        exact h.fin q
    · simp only [List.length_append, List.length_singleton]
      rw [count_set_true _ _ hplen hr2.1, h.fin_count]
    · simp only [List.length_append, List.length_singleton, h.sidx]
    · simp only [List.length_append, List.length_singleton, h.cnt]
    · intro j hj
      simp only []
      rw [idx_release allocation p st.work h.work_len j hj, workAfter_append, h.work j hj]
    · refine Completable_append _ _ _ _ _ h.comp ?_
      intro j hj
      rw [← h.work j hj]
      exact hr2.2 j hj
  · have hr0 : runs (computeNeed allocation max_need) st p = false := by simpa using hr
    rw [if_neg hr]
    obtain ⟨c, _, hc⟩ := forBody_of_not_runs allocation (computeNeed allocation max_need) st p hr0
    rw [hc]
    exact Inv_congr h _ rfl rfl rfl rfl

theorem BufInv_forBody (allocation max_need : List (List Int)) (available sq : List Int)
    (st : State) (L : List Nat) (p : Nat) (hp : p < NUM_PROCESSES)
    (hsq : NUM_PROCESSES ≤ sq.length)
    (h : Inv allocation max_need available st L) (hb : BufInv sq st L) :
    BufInv sq (forBody allocation (computeNeed allocation max_need) st p)
      (sched (computeNeed allocation max_need) st p L) := by
  have h2 := Inv_forBody allocation max_need available st L p hp h
  unfold sched at h2 ⊢
  by_cases hr : runs (computeNeed allocation max_need) st p = true
  · rw [if_pos hr] at h2 ⊢
    have hlen := length_le_of_nodup_of_lt _ NUM_PROCESSES h2.nodup h2.lt
    simp only [List.length_append, List.length_singleton] at hlen
    have hk : L.length < st.safeSequence.length := by rw [hb.len]; omega
    rw [forBody_of_runs _ _ _ _ hr]
    constructor
    · simp only [List.length_set]; exact hb.len
    · simp only [List.length_append, List.length_singleton, h.sidx]
      rw [take_succ_set _ _ _ hk, hb.pre]
      simp
    · simp only [List.length_append, List.length_singleton, h.sidx]
      rw [drop_succ_set]
      exact drop_succ_of_drop_eq _ _ _ hb.post
  · have hr0 : runs (computeNeed allocation max_need) st p = false := by simpa using hr
    rw [if_neg hr]
    obtain ⟨c, _, hc⟩ := forBody_of_not_runs allocation (computeNeed allocation max_need) st p hr0
    rw [hc]
    exact BufInv_congr hb _ rfl

/-! ## The `for` loop and a pass of the `while` loop -/

theorem Inv_forLoop (allocation max_need : List (List Int)) (available : List Int)
    (ps : List Nat) (hps : ∀ p ∈ ps, p < NUM_PROCESSES) (st : State) (L : List Nat)
    (h : Inv allocation max_need available st L) :
    Inv allocation max_need available
      (forLoop allocation (computeNeed allocation max_need) ps st)
      (schedLoop allocation (computeNeed allocation max_need) ps st L) := by
  induction ps generalizing st L with
  | nil => exact h
  | cons p ps ih =>
    unfold forLoop schedLoop
    exact ih (fun q hq => hps q (List.mem_cons_of_mem _ hq)) _ _
      (Inv_forBody _ _ _ _ _ _ (hps p (List.mem_cons_self _ _)) h)

theorem BufInv_forLoop (allocation max_need : List (List Int)) (available sq : List Int)
    (hsq : NUM_PROCESSES ≤ sq.length)
    (ps : List Nat) (hps : ∀ p ∈ ps, p < NUM_PROCESSES) (st : State) (L : List Nat)
    (h : Inv allocation max_need available st L) (hb : BufInv sq st L) :
    BufInv sq (forLoop allocation (computeNeed allocation max_need) ps st)
      (schedLoop allocation (computeNeed allocation max_need) ps st L) := by
  induction ps generalizing st L with
  | nil => exact hb
  | cons p ps ih =>
    unfold forLoop schedLoop
    have hp := hps p (List.mem_cons_self _ _)
    exact ih (fun q hq => hps q (List.mem_cons_of_mem _ hq)) _ _
      (Inv_forBody _ _ _ _ _ _ hp h) (BufInv_forBody _ _ _ _ _ _ _ hp hsq h hb)

theorem forBody_cmps (allocation need : List (List Int)) (st : State) (p : Nat) :
    (forBody allocation need st p).passCmps = st.passCmps ∧
      (forBody allocation need st p).cmps ≤ st.cmps + NUM_RESOURCES := by
  by_cases hr : runs need st p = true
  · rw [forBody_of_runs _ _ _ _ hr]
    refine ⟨rfl, ?_⟩
    have := canRunLoop_cmps need st.work p (List.range NUM_RESOURCES)
    simp only [List.length_range] at this
    simp only []
    omega
  · have hr0 : runs need st p = false := by simpa using hr
    obtain ⟨c, hc, he⟩ := forBody_of_not_runs allocation need st p hr0
    rw [he]
    exact ⟨rfl, by simp only []; omega⟩

theorem forLoop_cmps (allocation need : List (List Int)) (ps : List Nat) (st : State) :
    (forLoop allocation need ps st).passCmps = st.passCmps ∧
      (forLoop allocation need ps st).cmps ≤ st.cmps + ps.length * NUM_RESOURCES := by
  induction ps generalizing st with
  | nil => exact ⟨rfl, by simp [forLoop]⟩
  | cons p ps ih =>
    unfold forLoop
    have h1 := forBody_cmps allocation need st p
    have h2 := ih (forBody allocation need st p)
    refine ⟨h2.1.trans h1.1, ?_⟩
    simp only [List.length_cons, Nat.add_mul, Nat.one_mul]
    omega

theorem forLoop_found_of_found (allocation need : List (List Int)) (ps : List Nat) (st : State)
    (h : st.found = true) : (forLoop allocation need ps st).found = true := by
  induction ps generalizing st with
  | nil => exact h
  | cons p ps ih =>
    unfold forLoop
    apply ih
    by_cases hr : runs need st p = true
    · rw [forBody_of_runs _ _ _ _ hr]
    · have hr0 : runs need st p = false := by simpa using hr
      obtain ⟨c, _, he⟩ := forBody_of_not_runs allocation need st p hr0
      rw [he]
      exact h

theorem forLoop_count (allocation need : List (List Int)) (ps : List Nat) (st : State) :
    st.count ≤ (forLoop allocation need ps st).count ∧
      ((forLoop allocation need ps st).found = true →
        st.found = true ∨ st.count < (forLoop allocation need ps st).count) := by
  induction ps generalizing st with
  | nil => exact ⟨Nat.le_refl _, fun h => Or.inl h⟩
  | cons p ps ih =>
    unfold forLoop
    have h2 := ih (forBody allocation need st p)
    by_cases hr : runs need st p = true
    · rw [forBody_of_runs _ _ _ _ hr] at h2 ⊢
      simp only [] at h2
      exact ⟨by omega, fun _ => Or.inr (by omega)⟩
    · have hr0 : runs need st p = false := by simpa using hr
      obtain ⟨c, _, he⟩ := forBody_of_not_runs allocation need st p hr0
      rw [he] at h2 ⊢
      exact h2

theorem forLoop_not_found (allocation need : List (List Int)) (ps : List Nat) (st : State)
    (h : (forLoop allocation need ps st).found = false) :
    (∀ p ∈ ps, runs need st p = false) ∧
      ∃ c, forLoop allocation need ps st = { st with cmps := st.cmps + c } := by
  induction ps generalizing st with
  | nil => exact ⟨by simp, 0, rfl⟩
  | cons p ps ih =>
    unfold forLoop at h ⊢
    by_cases hr : runs need st p = true
    · have hf : (forBody allocation need st p).found = true := by
        rw [forBody_of_runs _ _ _ _ hr]
      have := forLoop_found_of_found allocation need ps _ hf
      rw [h] at this
      cases this
    · have hr0 : runs need st p = false := by simpa using hr
      obtain ⟨c, _, he⟩ := forBody_of_not_runs allocation need st p hr0
      rw [he] at h ⊢
      obtain ⟨h1, c2, h2⟩ := ih _ h
      refine ⟨?_, c + c2, ?_⟩
      · intro q hq
        rcases List.mem_cons.mp hq with hq | hq
        · rw [hq]; exact hr0
        · exact h1 q hq
      · rw [h2]
        simp only [Nat.add_assoc]

theorem range_lt (n : Nat) : ∀ p ∈ List.range n, p < n := fun _ hp => List.mem_range.mp hp

theorem pass_fields (allocation need : List (List Int)) (st : State) :
    (pass allocation need st).work
        = (forLoop allocation need (List.range NUM_PROCESSES)
            { st with found := false, cmps := 0 }).work ∧
      (pass allocation need st).finish
        = (forLoop allocation need (List.range NUM_PROCESSES)
            { st with found := false, cmps := 0 }).finish ∧
      (pass allocation need st).safeSequence
        = (forLoop allocation need (List.range NUM_PROCESSES)
            { st with found := false, cmps := 0 }).safeSequence ∧
      (pass allocation need st).safeIndex
        = (forLoop allocation need (List.range NUM_PROCESSES)
            { st with found := false, cmps := 0 }).safeIndex ∧
      (pass allocation need st).count
        = (forLoop allocation need (List.range NUM_PROCESSES)
            { st with found := false, cmps := 0 }).count ∧
      (pass allocation need st).found
        = (forLoop allocation need (List.range NUM_PROCESSES)
            { st with found := false, cmps := 0 }).found := by
  unfold pass
  exact ⟨rfl, rfl, rfl, rfl, rfl, rfl⟩

theorem Inv_pass (allocation max_need : List (List Int)) (available : List Int)
    (st : State) (L : List Nat) (h : Inv allocation max_need available st L) :
    Inv allocation max_need available (pass allocation (computeNeed allocation max_need) st)
      (schedPass allocation (computeNeed allocation max_need) st L) := by
  have h1 : Inv allocation max_need available { st with found := false, cmps := 0 } L :=
    Inv_congr h _ rfl rfl rfl rfl
  have h2 := Inv_forLoop allocation max_need available (List.range NUM_PROCESSES) (range_lt _)
    { st with found := false, cmps := 0 } L h1
  exact Inv_congr h2 (pass allocation (computeNeed allocation max_need) st)
    (pass_fields _ _ _).1 (pass_fields _ _ _).2.1 (pass_fields _ _ _).2.2.2.1
    (pass_fields _ _ _).2.2.2.2.1

theorem BufInv_pass (allocation max_need : List (List Int)) (available sq : List Int)
    (hsq : NUM_PROCESSES ≤ sq.length) (st : State) (L : List Nat)
    (h : Inv allocation max_need available st L) (hb : BufInv sq st L) :
    BufInv sq (pass allocation (computeNeed allocation max_need) st)
      (schedPass allocation (computeNeed allocation max_need) st L) := by
  have h1 : Inv allocation max_need available { st with found := false, cmps := 0 } L :=
    Inv_congr h _ rfl rfl rfl rfl
  have hb1 : BufInv sq { st with found := false, cmps := 0 } L := BufInv_congr hb _ rfl
  have h2 := BufInv_forLoop allocation max_need available sq hsq (List.range NUM_PROCESSES)
    (range_lt _) { st with found := false, cmps := 0 } L h1 hb1
  exact BufInv_congr h2 (pass allocation (computeNeed allocation max_need) st)
    (pass_fields _ _ _).2.2.1

theorem pass_count (allocation need : List (List Int)) (st : State) :
    st.count ≤ (pass allocation need st).count ∧
      ((pass allocation need st).found = true → st.count < (pass allocation need st).count) := by
  have h := forLoop_count allocation need (List.range NUM_PROCESSES)
    { st with found := false, cmps := 0 }
  rw [← (pass_fields allocation need st).2.2.2.2.1, ← (pass_fields allocation need st).2.2.2.2.2] at h
  refine ⟨h.1, fun hf => ?_⟩
  rcases h.2 hf with h0 | h0
  · cases h0
  · exact h0

theorem pass_not_found (allocation need : List (List Int)) (st : State)
    (h : (pass allocation need st).found = false) :
    (∀ p, p < NUM_PROCESSES → runs need st p = false) ∧
      (pass allocation need st).work = st.work ∧
      (pass allocation need st).finish = st.finish ∧
      (pass allocation need st).safeSequence = st.safeSequence ∧
      (pass allocation need st).safeIndex = st.safeIndex ∧
      (pass allocation need st).count = st.count := by
  rw [(pass_fields allocation need st).2.2.2.2.2] at h
  obtain ⟨h1, c, h2⟩ := forLoop_not_found allocation need (List.range NUM_PROCESSES)
    { st with found := false, cmps := 0 } h
  refine ⟨fun p hp => h1 p (List.mem_range.mpr hp), ?_⟩
  unfold pass
  simp only [h2, and_self]

theorem pass_cmps (allocation need : List (List Int)) (st : State) :
    ∃ c, c ≤ NUM_PROCESSES * NUM_RESOURCES ∧
      (pass allocation need st).passCmps = st.passCmps ++ [c] := by
  have h := forLoop_cmps allocation need (List.range NUM_PROCESSES)
    { st with found := false, cmps := 0 }
  simp only [List.length_range, Nat.zero_add] at h
  refine ⟨_, h.2, ?_⟩
  unfold pass
  simp only [h.1]

/-! ## The `while` loop -/

theorem whileLoop_induct (allocation need : List (List Int)) (P : State → Prop)
    (hpass : ∀ st, P st → st.count < NUM_PROCESSES → (pass allocation need st).found = true →
      P (pass allocation need st))
    (fuel : Nat) (st : State) (b : Bool) (st2 : State) (h0 : P st)
    (h : whileLoop allocation need fuel st = some (b, st2)) :
    (b = true ∧ P st2 ∧ NUM_PROCESSES ≤ st2.count) ∨
      (b = false ∧ ∃ st0, P st0 ∧ st0.count < NUM_PROCESSES ∧
        st2 = pass allocation need st0 ∧ (pass allocation need st0).found = false) := by
  induction fuel generalizing st with
  | zero =>
    unfold whileLoop at h
    split at h
    · cases h
    · next hc =>
      simp only [Option.some.injEq, Prod.mk.injEq] at h
      exact Or.inl ⟨h.1.symm, h.2 ▸ h0, h.2 ▸ Nat.le_of_not_lt hc⟩
  | succ fuel ih =>
    unfold whileLoop at h
    split at h
    · next hc =>
      split at h
      · next hf => exact ih _ (hpass st h0 hc hf) h
      · next hf =>
        simp only [Option.some.injEq, Prod.mk.injEq] at h
        refine Or.inr ⟨h.1.symm, st, h0, hc, h.2.symm, by simpa using hf⟩
    · next hc =>
      simp only [Option.some.injEq, Prod.mk.injEq] at h
      exact Or.inl ⟨h.1.symm, h.2 ▸ h0, h.2 ▸ Nat.le_of_not_lt hc⟩

theorem whileLoop_terminates (allocation need : List (List Int)) (fuel : Nat) (st : State)
    (h : NUM_PROCESSES - st.count ≤ fuel) :
    ∃ r, whileLoop allocation need fuel st = some r := by
  induction fuel generalizing st with
  | zero =>
    unfold whileLoop
    rw [if_neg (by omega)]
    exact ⟨_, rfl⟩
  | succ fuel ih =>
    unfold whileLoop
    split
    · split
      · next hf =>
        have := (pass_count allocation need st).2 hf
        exact ih _ (by omega)
      · exact ⟨_, rfl⟩
    · exact ⟨_, rfl⟩

theorem whileLoop_fuel_mono (allocation need : List (List Int)) (fuel fuel2 : Nat) (st : State)
    (r : Bool × State) (h : whileLoop allocation need fuel st = some r) (hle : fuel ≤ fuel2) :
    whileLoop allocation need fuel2 st = some r := by
  induction fuel generalizing st fuel2 with
  | zero =>
    unfold whileLoop at h
    split at h
    · cases h
    · next hc =>
      cases fuel2 with
      | zero => unfold whileLoop; rw [if_neg hc]; exact h
      | succ n => unfold whileLoop; rw [if_neg hc]; exact h
  | succ fuel ih =>
    cases fuel2 with
    | zero => omega
    | succ n =>
      unfold whileLoop at h ⊢
      split
      · next hc =>
        rw [if_pos hc] at h
        split
        · next hf =>
          rw [if_pos hf] at h
          exact ih n _ h (by omega)
        · next hf =>
          rw [if_neg hf] at h
          exact h
      · next hc =>
        rw [if_neg hc] at h
        exact h

theorem Head_initState (allocation max_need : List (List Int)) (available sq : List Int) :
    Head allocation max_need available sq (initState available sq) :=
  ⟨[], Inv_initState _ _ _ _, fun _ => BufInv_initState _ _, Nat.le_refl _, by simp [initState]⟩

theorem Head_pass (allocation max_need : List (List Int)) (available sq : List Int) (st : State)
    (h : Head allocation max_need available sq st)
    (hf : (pass allocation (computeNeed allocation max_need) st).found = true) :
    Head allocation max_need available sq (pass allocation (computeNeed allocation max_need) st) := by
  obtain ⟨L, hinv, hbuf, hlen, hall⟩ := h
  obtain ⟨c, hc, hpc⟩ := pass_cmps allocation (computeNeed allocation max_need) st
  have hcnt := (pass_count allocation (computeNeed allocation max_need) st).2 hf
  refine ⟨_, Inv_pass _ _ _ _ _ hinv, fun hsq => BufInv_pass _ _ _ _ hsq _ _ hinv (hbuf hsq), ?_, ?_⟩
  · rw [hpc, List.length_append, List.length_singleton]
    omega
  · intro c2 hc2
    rw [hpc] at hc2
    rcases List.mem_append.mp hc2 with h1 | h1
    · exact hall c2 h1
    · rw [List.mem_singleton.mp h1]; exact hc

theorem runs_congr (need : List (List Int)) (st st2 : State) (p : Nat)
    (hw : st2.work = st.work) (hf : st2.finish = st.finish) :
    runs need st2 p = runs need st p := by
  unfold runs
  rw [hw, hf]

/-- What holds of the verdict `b` and the variables `st` that `isSafeState` returns. -/
theorem isSafeState_spec (fuel : Nat) (allocation max_need : List (List Int))
    (available sq : List Int) (b : Bool) (st : State)
    (h : isSafeState fuel allocation max_need available sq = some (b, st)) :
    ∃ L, Inv allocation max_need available st L ∧
      (NUM_PROCESSES ≤ sq.length → BufInv sq st L) ∧
      st.passCmps.length ≤ NUM_PROCESSES ∧
      (∀ c ∈ st.passCmps, c ≤ NUM_PROCESSES * NUM_RESOURCES) ∧
      (b = true → L.length = NUM_PROCESSES) ∧
      (b = false → L.length < NUM_PROCESSES ∧ st.found = false ∧
        ∀ p, p < NUM_PROCESSES → runs (computeNeed allocation max_need) st p = false) := by
  unfold isSafeState at h
  rcases whileLoop_induct allocation (computeNeed allocation max_need)
      (Head allocation max_need available sq)
      (fun st0 h0 _ hf => Head_pass _ _ _ _ st0 h0 hf) fuel _ b st
      (Head_initState _ _ _ _) h with ⟨hb, ⟨L, hinv, hbuf, hlen, hall⟩, hcount⟩ | ⟨hb, st0, ⟨L, hinv, hbuf, hlen, hall⟩, hcount, hst, hnf⟩
  · have hL := length_le_of_nodup_of_lt L NUM_PROCESSES hinv.nodup hinv.lt
    have hc := hinv.cnt
    refine ⟨L, hinv, hbuf, by omega, hall, fun _ => by omega, fun hb2 => ?_⟩
    rw [hb] at hb2
    cases hb2
  · obtain ⟨hruns, hw, hfin, hsq, hsi, hcnt⟩ := pass_not_found _ _ st0 hnf
    obtain ⟨c, hc, hpc⟩ := pass_cmps allocation (computeNeed allocation max_need) st0
    rw [← hst] at hw hfin hsq hsi hcnt hpc hnf
    have hc0 := hinv.cnt
    refine ⟨L, Inv_congr hinv _ hw hfin hsi hcnt, fun h5 => BufInv_congr (hbuf h5) _ hsq, ?_, ?_, ?_, ?_⟩
    · rw [hpc, List.length_append, List.length_singleton]
      omega
    · intro c2 hc2
      rw [hpc] at hc2
      rcases List.mem_append.mp hc2 with h1 | h1
      · exact hall c2 h1
      · rw [List.mem_singleton.mp h1]; exact hc
    · intro hb2
      rw [hb] at hb2
      cases hb2
    · intro _
      refine ⟨by omega, hnf, fun p hp => ?_⟩
      rw [runs_congr _ st0 st p hw hfin]
      exact hruns p hp

theorem isSafeState_terminates (fuel : Nat) (hfuel : NUM_PROCESSES ≤ fuel)
    (allocation max_need : List (List Int)) (available sq : List Int) :
    ∃ b st, isSafeState fuel allocation max_need available sq = some (b, st) := by
  obtain ⟨⟨b, st⟩, h⟩ := whileLoop_terminates allocation (computeNeed allocation max_need) fuel
    (initState available sq) (by simp only [initState]; omega)
  exact ⟨b, st, h⟩

theorem perm_range_of_length (L : List Nat) (n : Nat) (hnd : L.Nodup) (hlt : ∀ p ∈ L, p < n)
    (hlen : L.length = n) : L.Perm (List.range n) := by
  have h := List.subperm_of_subset hnd (fun p hp => List.mem_range.mpr (hlt p hp))
  exact h.perm_of_length_le (by simp [hlen])

theorem run_scenarioA : isSafeState 5 allocA maxA [3, 3, 2] mainBuffer = some (true, finalA) := by
  decide

theorem run_scenarioB : isSafeState 5 allocA maxA [0, 0, 0] mainBuffer = some (false, finalB) := by
  decide

/-! ## Sequence validity, verdict correctness, unsafe minimality -/

theorem workAfter_mono (allocation : List (List Int)) (w : List Int) (A B : List Nat) (j : Nat)
    (hA : A.Nodup) (hB : B.Nodup) (hsub : A ⊆ B) (hnn : ∀ p ∈ B, 0 ≤ idx2 allocation p j) :
    workAfter allocation w A j ≤ workAfter allocation w B j := by
  unfold workAfter
  rw [← List.sum_toFinset _ hA, ← List.sum_toFinset _ hB]
  have hs : A.toFinset ⊆ B.toFinset := by
    intro x hx
    exact List.mem_toFinset.mpr (hsub (List.mem_toFinset.mp hx))
  have := Finset.sum_le_sum_of_subset_of_nonneg hs
    (fun i hi _ => hnn i (List.mem_toFinset.mp hi))
  omega

/-- When the call returns `false`, every process of a safe ordering is finished. -/
theorem take_subset_of_stuck (allocation max_need : List (List Int)) (available : List Int)
    (st : State) (L s : List Nat) (hpre : Precondition allocation max_need available)
    (hinv : Inv allocation max_need available st L)
    (hstuck : ∀ p, p < NUM_PROCESSES → runs (computeNeed allocation max_need) st p = false)
    (hs : SafeOrdering allocation max_need available s) (k : Nat) :
    s.take k ⊆ L := by
  have hsnd : s.Nodup := (List.Perm.nodup_iff hs.1).mpr (List.nodup_range _)
  have hslen : s.length = NUM_PROCESSES := by simpa using hs.1.length_eq
  induction k with
  | zero => simp
  | succ k ih =>
    by_cases hk : k < s.length
    · rw [List.take_succ, List.getElem?_eq_getElem hk]
      intro q hq
      rcases List.mem_append.mp hq with hq | hq
      · exact ih hq
      · simp only [Option.toList_some, List.mem_singleton] at hq
        subst hq
        have hlt : s[k] < NUM_PROCESSES :=
          List.mem_range.mp ((hs.1.mem_iff).mp (List.getElem_mem hk))
        have hget : s.getD k 0 = s[k] := by
          simp [List.getD_eq_getElem?_getD, List.getElem?_eq_getElem hk]
        by_contra hnot
        have hfin : st.finish.getD s[k] false = false := by
          cases hv : st.finish.getD s[k] false
          · rfl
          · exact absurd ((hinv.fin _).mp hv) hnot
        have hrun : runs (computeNeed allocation max_need) st s[k] = true := by
          refine (runs_iff allocation max_need st _ hlt).mpr ⟨hfin, fun j hj => ?_⟩
          have h1 := hs.2 k hk j hj
          rw [hget] at h1
          have h2 := workAfter_mono allocation available (s.take k) L j
            (hsnd.sublist (List.take_sublist _ _)) hinv.nodup ih
            (fun p hp => (hpre.1 p (hinv.lt p hp) j hj).1)
          rw [hinv.work j hj]
          omega
        rw [hstuck _ hlt] at hrun
        cases hrun
    · rw [List.take_of_length_le (by omega)] at ih ⊢
      exact ih

theorem ctl_fields (s1 s2 : State) (h : ctl s1 = ctl s2) :
    s1.work = s2.work ∧ s1.finish = s2.finish ∧ s1.safeIndex = s2.safeIndex ∧
      s1.count = s2.count ∧ s1.found = s2.found ∧ s1.cmps = s2.cmps ∧
      s1.passCmps = s2.passCmps := by
  unfold ctl at h
  injection h with h1 h2 h3 h4 h5 h6 h7 h8
  exact ⟨h1, h2, h4, h5, h6, h7, h8⟩

theorem ctl_eq_of_fields (s1 s2 : State) (h1 : s1.work = s2.work) (h2 : s1.finish = s2.finish)
    (h4 : s1.safeIndex = s2.safeIndex) (h5 : s1.count = s2.count) (h6 : s1.found = s2.found)
    (h7 : s1.cmps = s2.cmps) (h8 : s1.passCmps = s2.passCmps) : ctl s1 = ctl s2 := by
  unfold ctl
  rw [h1, h2, h4, h5, h6, h7, h8]

theorem ctl_forBody (allocation need : List (List Int)) (st : State) (p : Nat) :
    ctl (forBody allocation need st p) = forBody allocation need (ctl st) p := by
  by_cases hr : runs need st p = true
  · have hr2 : runs need (ctl st) p = true := hr
    rw [forBody_of_runs _ _ _ _ hr, forBody_of_runs _ _ _ _ hr2]
    simp [ctl]
  · have hr0 : runs need st p = false := by simpa using hr
    have hr2 : runs need (ctl st) p = false := hr0
    unfold forBody
    unfold runs at hr0
    by_cases hf : st.finish.getD p false = true
    · rw [if_pos hf, if_pos (show (ctl st).finish.getD p false = true from hf)]
    · rw [if_neg hf, if_neg (show ¬ (ctl st).finish.getD p false = true from hf)]
      have hf2 : st.finish.getD p false = false := by simpa using hf
      rw [hf2] at hr0
      have hc : (canRunLoop need st.work p (List.range NUM_RESOURCES)).1 = false := by
        simpa using hr0
      have hc2 : (canRunLoop need (ctl st).work p (List.range NUM_RESOURCES)).1 = false := hc
      simp only [hc, hc2]
      rfl

theorem forBody_buffer_length (allocation need : List (List Int)) (st : State) (p : Nat) :
    (forBody allocation need st p).safeSequence.length = st.safeSequence.length := by
  by_cases hr : runs need st p = true
  · rw [forBody_of_runs _ _ _ _ hr]
    simp only [List.length_set]
  · have hr0 : runs need st p = false := by simpa using hr
    obtain ⟨c, _, he⟩ := forBody_of_not_runs allocation need st p hr0
    rw [he]

theorem written_forBody (allocation max_need : List (List Int)) (available : List Int)
    (st : State) (L : List Nat) (p : Nat) (hp : p < NUM_PROCESSES)
    (hinv : Inv allocation max_need available st L)
    (hlen : NUM_PROCESSES ≤ st.safeSequence.length) :
    written (forBody allocation (computeNeed allocation max_need) st p)
      = if runs (computeNeed allocation max_need) st p then written st ++ [(p : Int)]
        else written st := by
  by_cases hr : runs (computeNeed allocation max_need) st p = true
  · have h2 := Inv_forBody allocation max_need available st L p hp hinv
    unfold sched at h2
    rw [if_pos hr] at h2
    have hL := length_le_of_nodup_of_lt _ NUM_PROCESSES h2.nodup h2.lt
    simp only [List.length_append, List.length_singleton] at hL
    have hsi := hinv.sidx
    rw [if_pos hr, forBody_of_runs _ _ _ _ hr]
    unfold written
    simp only []
    exact take_succ_set _ _ _ (by omega)
  · have hr0 : runs (computeNeed allocation max_need) st p = false := by simpa using hr
    obtain ⟨c, _, he⟩ := forBody_of_not_runs allocation (computeNeed allocation max_need) st p hr0
    rw [if_neg hr, he]
    rfl

theorem Rel_forBody (allocation max_need : List (List Int)) (available : List Int)
    (s1 s2 : State) (p : Nat) (hp : p < NUM_PROCESSES)
    (h : Rel allocation max_need available s1 s2) :
    Rel allocation max_need available
      (forBody allocation (computeNeed allocation max_need) s1 p)
      (forBody allocation (computeNeed allocation max_need) s2 p) := by
  obtain ⟨L, hinv⟩ := h.inv
  obtain ⟨hw, hf, hi, hc, _, _, _⟩ := ctl_fields s1 s2 h.same
  have hinv2 : Inv allocation max_need available s2 L := Inv_congr hinv _ hw.symm hf.symm hi.symm hc.symm
  have hruns : runs (computeNeed allocation max_need) s2 p
      = runs (computeNeed allocation max_need) s1 p := runs_congr _ s1 s2 p hw.symm hf.symm
  constructor
  · rw [ctl_forBody, ctl_forBody, h.same]
  · rw [written_forBody allocation max_need available s1 L p hp hinv h.len1,
      written_forBody allocation max_need available s2 L p hp hinv2 h.len2, hruns, h.wr]
  · rw [forBody_buffer_length]; exact h.len1
  · rw [forBody_buffer_length]; exact h.len2
  · exact ⟨_, Inv_forBody allocation max_need available s1 L p hp hinv⟩

theorem Rel_forLoop (allocation max_need : List (List Int)) (available : List Int)
    (ps : List Nat) (hps : ∀ p ∈ ps, p < NUM_PROCESSES) (s1 s2 : State)
    (h : Rel allocation max_need available s1 s2) :
    Rel allocation max_need available
      (forLoop allocation (computeNeed allocation max_need) ps s1)
      (forLoop allocation (computeNeed allocation max_need) ps s2) := by
  induction ps generalizing s1 s2 with
  | nil => exact h
  | cons p ps ih =>
    unfold forLoop
    exact ih (fun q hq => hps q (List.mem_cons_of_mem _ hq)) _ _
      (Rel_forBody _ _ _ _ _ _ (hps p (List.mem_cons_self _ _)) h)

theorem Rel_pass (allocation max_need : List (List Int)) (available : List Int)
    (s1 s2 : State) (h : Rel allocation max_need available s1 s2) :
    Rel allocation max_need available
      (pass allocation (computeNeed allocation max_need) s1)
      (pass allocation (computeNeed allocation max_need) s2) := by
  obtain ⟨L, hinv⟩ := h.inv
  obtain ⟨hw, hf, hi, hc, _, _, hpc⟩ := ctl_fields s1 s2 h.same
  have h1 : Rel allocation max_need available { s1 with found := false, cmps := 0 }
      { s2 with found := false, cmps := 0 } :=
    ⟨ctl_eq_of_fields _ _ hw hf hi hc rfl rfl hpc,
      by have := h.wr; unfold written at this ⊢; exact this, h.len1, h.len2,
      ⟨L, Inv_congr hinv _ rfl rfl rfl rfl⟩⟩
  have h2 := Rel_forLoop allocation max_need available (List.range NUM_PROCESSES) (range_lt _)
    _ _ h1
  obtain ⟨L2, hinv2⟩ := h2.inv
  obtain ⟨gw, gf, gi, gc, gfd, gcm, gpc⟩ := ctl_fields _ _ h2.same
  have e1 := pass_fields allocation (computeNeed allocation max_need) s1
  have e2 := pass_fields allocation (computeNeed allocation max_need) s2
  constructor
  · refine ctl_eq_of_fields _ _ ?_ ?_ ?_ ?_ ?_ ?_ ?_
    · rw [e1.1, e2.1, gw]
    · rw [e1.2.1, e2.2.1, gf]
    · rw [e1.2.2.2.1, e2.2.2.2.1, gi]
    · rw [e1.2.2.2.2.1, e2.2.2.2.2.1, gc]
    · rw [e1.2.2.2.2.2, e2.2.2.2.2.2, gfd]
    · unfold pass; simp only [gcm]
    · unfold pass; simp only [gcm, gpc]
  · have := h2.wr
    unfold written at this ⊢
    rw [e1.2.2.1, e2.2.2.1, e1.2.2.2.1, e2.2.2.2.1]
    exact this
  · rw [e1.2.2.1]; exact h2.len1
  · rw [e2.2.2.1]; exact h2.len2
  · exact ⟨L2, Inv_congr hinv2 (pass allocation (computeNeed allocation max_need) s1)
      e1.1 e1.2.1 e1.2.2.2.1 e1.2.2.2.2.1⟩

theorem Rel_whileLoop (allocation max_need : List (List Int)) (available : List Int)
    (fuel : Nat) (s1 s2 : State) (b1 b2 : Bool) (t1 t2 : State)
    (h : Rel allocation max_need available s1 s2)
    (h1 : whileLoop allocation (computeNeed allocation max_need) fuel s1 = some (b1, t1))
    (h2 : whileLoop allocation (computeNeed allocation max_need) fuel s2 = some (b2, t2)) :
    b1 = b2 ∧ Rel allocation max_need available t1 t2 := by
  induction fuel generalizing s1 s2 with
  | zero =>
    have hc := (ctl_fields s1 s2 h.same).2.2.2.1
    unfold whileLoop at h1 h2
    rw [← hc] at h2
    split at h1
    · cases h1
    · next hcnt =>
      rw [if_neg hcnt] at h2
      simp only [Option.some.injEq, Prod.mk.injEq] at h1 h2
      rw [← h1.1, ← h1.2, ← h2.1, ← h2.2]
      exact ⟨rfl, h⟩
  | succ fuel ih =>
    have hc := (ctl_fields s1 s2 h.same).2.2.2.1
    have hp := Rel_pass allocation max_need available s1 s2 h
    have hfd := (ctl_fields _ _ hp.same).2.2.2.2.1
    unfold whileLoop at h1 h2
    rw [← hc, ← hfd] at h2
    split at h1
    · next hcnt =>
      rw [if_pos hcnt] at h2
      split at h1
      · next hf =>
        rw [if_pos hf] at h2
        exact ih _ _ hp h1 h2
      · next hf =>
        rw [if_neg hf] at h2
        simp only [Option.some.injEq, Prod.mk.injEq] at h1 h2
        rw [← h1.1, ← h1.2, ← h2.1, ← h2.2]
        exact ⟨rfl, hp⟩
    · next hcnt =>
      rw [if_neg hcnt] at h2
      simp only [Option.some.injEq, Prod.mk.injEq] at h1 h2
      rw [← h1.1, ← h1.2, ← h2.1, ← h2.2]
      exact ⟨rfl, h⟩

/-- Two calls on the same inputs with different output buffers return the same
verdict, agree on all variables but the buffer, and have written the same entries. -/
theorem isSafeState_buffer (fuel : Nat) (allocation max_need : List (List Int))
    (available sq1 sq2 : List Int) (b1 b2 : Bool) (t1 t2 : State)
    (hl1 : NUM_PROCESSES ≤ sq1.length) (hl2 : NUM_PROCESSES ≤ sq2.length)
    (h1 : isSafeState fuel allocation max_need available sq1 = some (b1, t1))
    (h2 : isSafeState fuel allocation max_need available sq2 = some (b2, t2)) :
    b1 = b2 ∧ ctl t1 = ctl t2 ∧ written t1 = written t2 := by
  have h0 : Rel allocation max_need available (initState available sq1) (initState available sq2) :=
    ⟨rfl, rfl, hl1, hl2, ⟨[], Inv_initState _ _ _ _⟩⟩
  have := Rel_whileLoop allocation max_need available fuel _ _ b1 b2 t1 t2 h0 h1 h2
  exact ⟨this.1, this.2.same, this.2.wr⟩

theorem isSafeState_fuel_mono (fuel fuel2 : Nat) (allocation max_need : List (List Int))
    (available sq : List Int) (r : Bool × State)
    (h : isSafeState fuel allocation max_need available sq = some r) (hle : fuel ≤ fuel2) :
    isSafeState fuel2 allocation max_need available sq = some r :=
  whileLoop_fuel_mono _ _ fuel fuel2 _ r h hle

/-- What a run with the buffer of `main` tells about the run on the same inputs
with any other buffer of at least five entries. -/
theorem isSafeState_transfer (fuel : Nat) (allocation max_need : List (List Int))
    (available sq : List Int) (b : Bool) (t : State)
    (hfuel : NUM_PROCESSES ≤ fuel) (hsq : NUM_PROCESSES ≤ sq.length)
    (h : isSafeState 5 allocation max_need available mainBuffer = some (b, t)) :
    ∃ st, isSafeState fuel allocation max_need available sq = some (b, st) ∧
      ctl st = ctl t ∧ written st = written t ∧
      st.safeSequence.drop st.safeIndex = sq.drop st.safeIndex := by
  obtain ⟨b2, st, h2⟩ := isSafeState_terminates fuel hfuel allocation max_need available sq
  have h1 := isSafeState_fuel_mono 5 fuel _ _ _ _ _ h hfuel
  obtain ⟨hb, hctl, hwr⟩ := isSafeState_buffer fuel allocation max_need available sq mainBuffer
    b2 b st t hsq (by decide) h2 h1
  obtain ⟨L, hinv, hbuf, _⟩ := isSafeState_spec _ _ _ _ _ _ _ h2
  refine ⟨st, by rw [← hb]; exact h2, hctl, hwr, ?_⟩
  rw [hinv.sidx]
  exact (hbuf hsq).post

/-! ## Scenarios A and B, the boundary case -/

/-- C4. Scenario A: with the textbook matrices and `available = [3,3,2]`,
`isSafeState` returns `true` and the five entries of `safeSequence` are exactly
`[1, 3, 4, 0, 2]`, whatever the buffer held before. -/
theorem C4_scenario_A (fuel : Nat) (safeSequence : List Int)
    (hfuel : NUM_PROCESSES ≤ fuel) (hbuf : NUM_PROCESSES ≤ safeSequence.length) :
    ∃ st, isSafeState fuel allocA maxA [3, 3, 2] safeSequence = some (true, st) ∧
      st.safeSequence.take NUM_PROCESSES = [1, 3, 4, 0, 2] := by
  obtain ⟨st, h, hctl, hwr, _⟩ := isSafeState_transfer fuel allocA maxA [3, 3, 2] safeSequence
    true finalA hfuel hbuf run_scenarioA
  refine ⟨st, h, ?_⟩
  have hi : st.safeIndex = NUM_PROCESSES := (ctl_fields _ _ hctl).2.2.1
  unfold written at hwr
  rw [hi] at hwr
  rw [hwr]
  rfl

/-- Witness for C4: the call that `main` makes. -/
theorem C4_scenario_A_witness :
    NUM_PROCESSES ≤ 5 ∧ NUM_PROCESSES ≤ mainBuffer.length ∧
    ∃ st, isSafeState 5 allocA maxA [3, 3, 2] mainBuffer = some (true, st) ∧
      st.safeSequence.take NUM_PROCESSES = [1, 3, 4, 0, 2] :=
  ⟨by decide, by decide, C4_scenario_A 5 mainBuffer (by decide) (by decide)⟩

/-- C5. Scenario B: with the matrices of scenario A and `available = [0,0,0]`,
`isSafeState` returns `false` after a single pass that finds no executable
process; no process is marked finished and no entry of `safeSequence` is written. -/
theorem C5_scenario_B (fuel : Nat) (safeSequence : List Int)
    (hfuel : NUM_PROCESSES ≤ fuel) (hbuf : NUM_PROCESSES ≤ safeSequence.length) :
    ∃ st, isSafeState fuel allocA maxA [0, 0, 0] safeSequence = some (false, st) ∧
      st.passCmps.length = 1 ∧ st.found = false ∧
      st.finish = List.replicate NUM_PROCESSES false ∧ st.count = 0 ∧
      st.safeIndex = 0 ∧ written st = [] ∧ st.safeSequence = safeSequence := by
  obtain ⟨st, h, hctl, hwr, hdrop⟩ := isSafeState_transfer fuel allocA maxA [0, 0, 0] safeSequence
    false finalB hfuel hbuf run_scenarioB
  obtain ⟨_, hf, hi, hc, hfd, _, hpc⟩ := ctl_fields _ _ hctl
  have hi0 : st.safeIndex = 0 := hi
  rw [hi0] at hdrop
  exact ⟨st, h, by rw [hpc]; rfl, hfd, hf, hc, hi, hwr, hdrop⟩

/-- Witness for C5: the call that `main` makes. -/
theorem C5_scenario_B_witness :
    NUM_PROCESSES ≤ 5 ∧ NUM_PROCESSES ≤ mainBuffer.length ∧
    ∃ st, isSafeState 5 allocA maxA [0, 0, 0] mainBuffer = some (false, st) ∧
      st.passCmps.length = 1 ∧ st.found = false ∧
      st.finish = List.replicate NUM_PROCESSES false ∧ st.count = 0 ∧
      st.safeIndex = 0 ∧ written st = [] ∧ st.safeSequence = mainBuffer :=
  ⟨by decide, by decide, C5_scenario_B 5 mainBuffer (by decide) (by decide)⟩

theorem run_boundary :
    isSafeState 5 zeroMatrix zeroMatrix [0, 0, 0] mainBuffer = some (true, finalZero) := by
  decide

/-- C7. Boundary: with `allocation` and `max_need` all zero and
`available = [0,0,0]`, `isSafeState` returns `true` and the five entries of
`safeSequence` are `[0, 1, 2, 3, 4]`. -/
theorem C7_boundary_all_zero (fuel : Nat) (safeSequence : List Int)
    (hfuel : NUM_PROCESSES ≤ fuel) (hbuf : NUM_PROCESSES ≤ safeSequence.length) :
    ∃ st, isSafeState fuel zeroMatrix zeroMatrix [0, 0, 0] safeSequence = some (true, st) ∧
      st.safeSequence.take NUM_PROCESSES = [0, 1, 2, 3, 4] := by
  obtain ⟨st, h, hctl, hwr, _⟩ := isSafeState_transfer fuel zeroMatrix zeroMatrix [0, 0, 0]
    safeSequence true finalZero hfuel hbuf run_boundary
  refine ⟨st, h, ?_⟩
  have hi : st.safeIndex = NUM_PROCESSES := (ctl_fields _ _ hctl).2.2.1
  unfold written at hwr
  rw [hi] at hwr
  rw [hwr]
  rfl

/-- Witness for C7: the call that `main` makes. -/
theorem C7_boundary_all_zero_witness :
    NUM_PROCESSES ≤ 5 ∧ NUM_PROCESSES ≤ mainBuffer.length ∧
    ∃ st, isSafeState 5 zeroMatrix zeroMatrix [0, 0, 0] mainBuffer = some (true, st) ∧
      st.safeSequence.take NUM_PROCESSES = [0, 1, 2, 3, 4] :=
  ⟨by decide, by decide, C7_boundary_all_zero 5 mainBuffer (by decide) (by decide)⟩

/-! ## Termination -/

/-- C8. Termination bound: on every input `isSafeState` returns once it is allowed
five passes, and more fuel does not change what it returns; the `while` loop makes
at most `NUM_PROCESSES = 5` passes (`passCmps` has one entry per pass), and each
pass makes at most `NUM_PROCESSES * NUM_RESOURCES = 15` comparisons of a need with
the work vector. -/
theorem C8_termination_bound (fuel : Nat) (allocation max_need : List (List Int))
    (available safeSequence : List Int) (hfuel : NUM_PROCESSES ≤ fuel) :
    ∃ b st, isSafeState NUM_PROCESSES allocation max_need available safeSequence = some (b, st) ∧
      isSafeState fuel allocation max_need available safeSequence = some (b, st) ∧
      st.passCmps.length ≤ NUM_PROCESSES ∧
      ∀ c ∈ st.passCmps, c ≤ NUM_PROCESSES * NUM_RESOURCES := by
  obtain ⟨b, st, h⟩ := isSafeState_terminates NUM_PROCESSES (Nat.le_refl _) allocation max_need
    available safeSequence
  obtain ⟨L, _, _, hlen, hall, _⟩ := isSafeState_spec _ _ _ _ _ _ _ h
  exact ⟨b, st, h, isSafeState_fuel_mono _ fuel _ _ _ _ _ h hfuel, hlen, hall⟩

/-- Witness for C8: scenario A, which takes two passes of 11 and 6 comparisons. -/
theorem C8_termination_bound_witness :
    NUM_PROCESSES ≤ 7 ∧
    ∃ b st, isSafeState NUM_PROCESSES allocA maxA [3, 3, 2] mainBuffer = some (b, st) ∧
      isSafeState 7 allocA maxA [3, 3, 2] mainBuffer = some (b, st) ∧
      st.passCmps.length ≤ NUM_PROCESSES ∧
      ∀ c ∈ st.passCmps, c ≤ NUM_PROCESSES * NUM_RESOURCES :=
  ⟨by decide, C8_termination_bound 7 allocA maxA [3, 3, 2] mainBuffer (by decide)⟩

/-! ## Scenario C -/

theorem needOf_le_totalNeed (allocation max_need : List (List Int)) (available : List Int)
    (hpre : Precondition allocation max_need available) (p j : Nat)
    (hp : p < NUM_PROCESSES) (hj : j < NUM_RESOURCES) :
    needOf allocation max_need p j ≤ totalNeed allocation max_need := by
  have hnn : ∀ i, i < NUM_PROCESSES → ∀ k, k < NUM_RESOURCES →
      0 ≤ needOf allocation max_need i k := by
    intro i hi k hk
    have := (hpre.1 i hi k hk).2
    unfold needOf
    omega
  have hrow : ∀ i, i < NUM_PROCESSES →
      0 ≤ ((List.range NUM_RESOURCES).map fun k => needOf allocation max_need i k).sum := by
    intro i hi
    apply List.sum_nonneg
    intro x hx
    obtain ⟨k, hk, rfl⟩ := List.mem_map.mp hx
    exact hnn i hi k (List.mem_range.mp hk)
  have h1 : needOf allocation max_need p j
      ≤ ((List.range NUM_RESOURCES).map fun k => needOf allocation max_need p k).sum := by
    apply List.single_le_sum
    · intro x hx
      obtain ⟨k, hk, rfl⟩ := List.mem_map.mp hx
      exact hnn p hp k (List.mem_range.mp hk)
    · exact List.mem_map.mpr ⟨j, List.mem_range.mpr hj, rfl⟩
  have h2 : ((List.range NUM_RESOURCES).map fun k => needOf allocation max_need p k).sum
      ≤ totalNeed allocation max_need := by
    unfold totalNeed
    apply List.single_le_sum
    · intro x hx
      obtain ⟨i, hi, rfl⟩ := List.mem_map.mp hx
      exact hrow i (List.mem_range.mp hi)
    · exact List.mem_map.mpr ⟨p, List.mem_range.mpr hp, rfl⟩
  omega

theorem le_workAfter (allocation : List (List Int)) (w : List Int) (L : List Nat) (j : Nat)
    (hnn : ∀ p ∈ L, 0 ≤ idx2 allocation p j) : idx w j ≤ workAfter allocation w L j := by
  unfold workAfter
  have : 0 ≤ (L.map fun p => idx2 allocation p j).sum := by
    apply List.sum_nonneg
    intro x hx
    obtain ⟨p, hp, rfl⟩ := List.mem_map.mp hx
    exact hnn p hp
  omega

/-- When every process can run on `available` alone, the `for` loop schedules every
process it comes to. -/
theorem schedLoop_all (allocation max_need : List (List Int)) (available : List Int)
    (hpre : Precondition allocation max_need available)
    (hrun : ∀ p, p < NUM_PROCESSES → ∀ j, j < NUM_RESOURCES →
      needOf allocation max_need p j ≤ idx available j)
    (ps : List Nat) (st : State) (L : List Nat)
    (hinv : Inv allocation max_need available st L) (hnd : ps.Nodup)
    (hps : ∀ q ∈ ps, q < NUM_PROCESSES ∧ q ∉ L) :
    schedLoop allocation (computeNeed allocation max_need) ps st L = L ++ ps ∧
      (ps ≠ [] → (forLoop allocation (computeNeed allocation max_need) ps st).found = true) := by
  induction ps generalizing st L with
  | nil => exact ⟨by simp [schedLoop], fun h => absurd rfl h⟩
  | cons p ps ih =>
    obtain ⟨hp, hpL⟩ := hps p (List.mem_cons_self _ _)
    have hnd2 := List.nodup_cons.mp hnd
    have hfin : st.finish.getD p false = false := by
      cases hv : st.finish.getD p false
      · rfl
      · exact absurd ((hinv.fin p).mp hv) hpL
    have hr : runs (computeNeed allocation max_need) st p = true := by
      refine (runs_iff allocation max_need st p hp).mpr ⟨hfin, fun j hj => ?_⟩
      rw [hinv.work j hj]
      have := le_workAfter allocation available L j (fun q hq => (hpre.1 q (hinv.lt q hq) j hj).1)
      have := hrun p hp j hj
      omega
    have hstep := Inv_forBody allocation max_need available st L p hp hinv
    have hsched : sched (computeNeed allocation max_need) st p L = L ++ [p] := by
      unfold sched
      rw [if_pos hr]
    rw [hsched] at hstep
    have hrec := ih (forBody allocation (computeNeed allocation max_need) st p) (L ++ [p]) hstep
      hnd2.2 (by
        intro q hq
        obtain ⟨hq5, hqL⟩ := hps q (List.mem_cons_of_mem _ hq)
        refine ⟨hq5, ?_⟩
        intro hmem
        rcases List.mem_append.mp hmem with h1 | h1
        · exact hqL h1
        · rw [List.mem_singleton.mp h1] at hq
          exact hnd2.1 hq)
    unfold schedLoop forLoop
    rw [hsched]
    refine ⟨by rw [hrec.1]; simp, fun _ => ?_⟩
    apply forLoop_found_of_found
    rw [forBody_of_runs _ _ _ _ hr]

theorem whileLoop_done (allocation need : List (List Int)) (fuel : Nat) (st : State)
    (h : ¬ st.count < NUM_PROCESSES) : whileLoop allocation need fuel st = some (true, st) := by
  cases fuel with
  | zero => unfold whileLoop; rw [if_neg h]
  | succ n => unfold whileLoop; rw [if_neg h]

/-- In exact arithmetic: on an input that satisfies the preconditions and in which
every `available[j]` exceeds the sum of all need entries, the run returns `true` after
a single pass in which all five processes are scheduled, and the five entries of
`safeSequence` are `[0, 1, 2, 3, 4]`. -/
theorem scenarioC_exact (fuel : Nat) (allocation max_need : List (List Int))
    (available safeSequence : List Int)
    (hfuel : NUM_PROCESSES ≤ fuel) (hbuf : NUM_PROCESSES ≤ safeSequence.length)
    (hpre : Precondition allocation max_need available)
    (hbig : ∀ j, j < NUM_RESOURCES → totalNeed allocation max_need < idx available j) :
    ∃ st, isSafeState fuel allocation max_need available safeSequence = some (true, st) ∧
      st.passCmps.length = 1 ∧ st.count = NUM_PROCESSES ∧
      st.safeSequence.take NUM_PROCESSES = [0, 1, 2, 3, 4] := by
  have hrun : ∀ p, p < NUM_PROCESSES → ∀ j, j < NUM_RESOURCES →
      needOf allocation max_need p j ≤ idx available j := by
    intro p hp j hj
    have := needOf_le_totalNeed allocation max_need available hpre p j hp hj
    have := hbig j hj
    omega
  have h0 := Inv_initState allocation max_need available safeSequence
  have hb0 := BufInv_initState available safeSequence
  have hall := schedLoop_all allocation max_need available hpre hrun (List.range NUM_PROCESSES)
    { initState available safeSequence with found := false, cmps := 0 } []
    (Inv_congr h0 _ rfl rfl rfl rfl) (List.nodup_range _)
    (fun q hq => ⟨List.mem_range.mp hq, by simp⟩)
  have hL : schedPass allocation (computeNeed allocation max_need)
      (initState available safeSequence) [] = List.range NUM_PROCESSES := by
    unfold schedPass
    rw [hall.1]
    simp
  have hinv := Inv_pass allocation max_need available _ _ h0
  have hbinv := BufInv_pass allocation max_need available safeSequence hbuf _ _ h0 hb0
  rw [hL] at hinv hbinv
  have hfound : (pass allocation (computeNeed allocation max_need)
      (initState available safeSequence)).found = true := by
    rw [(pass_fields _ _ _).2.2.2.2.2]
    exact hall.2 (by decide)
  have hcnt := hinv.cnt
  simp only [List.length_range] at hcnt
  obtain ⟨c, _, hpc⟩ := pass_cmps allocation (computeNeed allocation max_need)
    (initState available safeSequence)
  refine ⟨pass allocation (computeNeed allocation max_need) (initState available safeSequence),
    ?_, ?_, hcnt, ?_⟩
  · obtain ⟨n, rfl⟩ : ∃ n, fuel = n + 1 := ⟨fuel - 1, by unfold NUM_PROCESSES at hfuel; omega⟩
    unfold isSafeState whileLoop
    rw [if_pos (show (initState available safeSequence).count < NUM_PROCESSES by
      simp [initState, NUM_PROCESSES]), if_pos hfound]
    exact whileLoop_done _ _ _ _ (by omega)
  · rw [hpc]
    rfl
  · have := hbinv.pre
    simp only [List.length_range] at this
    rw [this]
    rfl

/-! ## The finish set and the sequence, throughout the run -/

theorem FinishSeqInv_of_inv (allocation max_need : List (List Int)) (available sq : List Int)
    (st : State) (L : List Nat) (hinv : Inv allocation max_need available st L)
    (hb : BufInv sq st L) : FinishSeqInv st := by
  have hw : written st = L.map Int.ofNat := by
    unfold written
    rw [hinv.sidx]
    exact hb.pre
  refine ⟨by rw [hinv.sidx, hinv.cnt], by rw [hinv.cnt, hinv.fin_count], ?_, ?_, ?_⟩
  · rw [hw, List.length_map, hinv.sidx]
  · rw [hw]
    exact hinv.nodup.map (fun a b hab => Int.ofNat_inj.mp hab)
  · intro x
    rw [hw, List.mem_map]
    constructor
    · rintro ⟨p, hp, rfl⟩
      exact ⟨p, hinv.lt p hp, rfl, (hinv.fin p).mpr hp⟩
    · rintro ⟨p, _, rfl, hf⟩
      exact ⟨p, (hinv.fin p).mp hf, rfl⟩

theorem forTrace_inv (allocation max_need : List (List Int)) (available sq : List Int)
    (hsq : NUM_PROCESSES ≤ sq.length) (ps : List Nat) (hps : ∀ p ∈ ps, p < NUM_PROCESSES)
    (st : State) (L : List Nat) (hinv : Inv allocation max_need available st L)
    (hb : BufInv sq st L) :
    ∀ t ∈ forTrace allocation (computeNeed allocation max_need) ps st,
      ∃ L2, Inv allocation max_need available t L2 ∧ BufInv sq t L2 := by
  induction ps generalizing st L with
  | nil => intro t ht; cases ht
  | cons p ps ih =>
    have hp := hps p (List.mem_cons_self _ _)
    have h1 := Inv_forBody allocation max_need available st L p hp hinv
    have h2 := BufInv_forBody allocation max_need available sq st L p hp hsq hinv hb
    intro t ht
    unfold forTrace at ht
    rcases List.mem_cons.mp ht with ht | ht
    · rw [ht]; exact ⟨_, h1, h2⟩
    · exact ih (fun q hq => hps q (List.mem_cons_of_mem _ hq)) _ _ h1 h2 t ht

theorem whileTrace_inv (allocation max_need : List (List Int)) (available sq : List Int)
    (hsq : NUM_PROCESSES ≤ sq.length) (fuel : Nat) (st : State) (L : List Nat)
    (hinv : Inv allocation max_need available st L) (hb : BufInv sq st L) :
    ∀ t ∈ whileTrace allocation (computeNeed allocation max_need) fuel st,
      ∃ L2, Inv allocation max_need available t L2 ∧ BufInv sq t L2 := by
  induction fuel generalizing st L with
  | zero =>
    intro t ht
    unfold whileTrace at ht
    rw [List.mem_singleton.mp ht]
    exact ⟨L, hinv, hb⟩
  | succ fuel ih =>
    intro t ht
    unfold whileTrace at ht
    split at ht
    · have h1 : Inv allocation max_need available { st with found := false, cmps := 0 } L :=
        Inv_congr hinv _ rfl rfl rfl rfl
      have hb1 : BufInv sq { st with found := false, cmps := 0 } L := BufInv_congr hb _ rfl
      have hp := Inv_pass allocation max_need available st L hinv
      have hbp := BufInv_pass allocation max_need available sq hsq st L hinv hb
      rcases List.mem_cons.mp ht with ht | ht
      · rw [ht]; exact ⟨L, hinv, hb⟩
      rcases List.mem_cons.mp ht with ht | ht
      · rw [ht]; exact ⟨L, h1, hb1⟩
      rcases List.mem_append.mp ht with ht | ht
      · exact forTrace_inv allocation max_need available sq hsq _ (range_lt _) _ L h1 hb1 t ht
      · split at ht
        · exact ih _ _ hp hbp t ht
        · rw [List.mem_singleton.mp ht]; exact ⟨_, hp, hbp⟩
    · rw [List.mem_singleton.mp ht]
      exact ⟨L, hinv, hb⟩

theorem whileLoop_mem_trace (allocation need : List (List Int)) (fuel : Nat) (st : State)
    (b : Bool) (t : State) (h : whileLoop allocation need fuel st = some (b, t)) :
    t ∈ whileTrace allocation need fuel st := by
  induction fuel generalizing st with
  | zero =>
    unfold whileLoop at h
    unfold whileTrace
    split at h
    · cases h
    · simp only [Option.some.injEq, Prod.mk.injEq] at h
      rw [h.2]
      exact List.mem_singleton.mpr rfl
  | succ fuel ih =>
    unfold whileLoop at h
    unfold whileTrace
    split at h
    · next hc =>
      rw [if_pos hc]
      refine List.mem_cons_of_mem _ (List.mem_cons_of_mem _ (List.mem_append_right _ ?_))
      split at h
      · next hf =>
        rw [if_pos hf]
        exact ih _ h
      · next hf =>
        rw [if_neg hf]
        simp only [Option.some.injEq, Prod.mk.injEq] at h
        rw [h.2]
        exact List.mem_singleton.mpr rfl
    · next hc =>
      rw [if_neg hc]
      simp only [Option.some.injEq, Prod.mk.injEq] at h
      rw [h.2]
      exact List.mem_singleton.mpr rfl

/-- C9. Finish set and sequence size: at every loop boundary of `isSafeState` the
number of entries written to `safeSequence` (`safeIndex`) equals `count` and the
number of processes marked finished, and the written entries are pairwise distinct
and are exactly the indices in `0..4` of the finished processes.  The call returns
(given five passes), the variables it returns with are among those states, and their
`safeIndex` is `NUM_PROCESSES = 5` if and only if the verdict is `true`; it is less
than `5` when the verdict is `false`. -/
theorem C9_finish_sequence_size (fuel : Nat) (allocation max_need : List (List Int))
    (available safeSequence : List Int)
    (hfuel : NUM_PROCESSES ≤ fuel) (hbuf : NUM_PROCESSES ≤ safeSequence.length) :
    (∀ st ∈ trace fuel allocation max_need available safeSequence, FinishSeqInv st) ∧
      ∃ b st, isSafeState fuel allocation max_need available safeSequence = some (b, st) ∧
        st ∈ trace fuel allocation max_need available safeSequence ∧
        (st.safeIndex = NUM_PROCESSES ↔ b = true) ∧
        (b = false → st.safeIndex < NUM_PROCESSES) := by
  constructor
  · intro st hst
    obtain ⟨L, hinv, hb⟩ := whileTrace_inv allocation max_need available safeSequence hbuf fuel
      _ [] (Inv_initState _ _ _ _) (BufInv_initState _ _) st hst
    exact FinishSeqInv_of_inv _ _ _ _ st L hinv hb
  · obtain ⟨b, st, h⟩ := isSafeState_terminates fuel hfuel allocation max_need available
      safeSequence
    obtain ⟨L, hinv, _, _, _, htrue, hfalse⟩ := isSafeState_spec _ _ _ _ _ _ _ h
    have hsi := hinv.sidx
    refine ⟨b, st, h, whileLoop_mem_trace _ _ _ _ _ _ h, ?_, ?_⟩
    · constructor
      · intro h5
        cases b with
        | true => rfl
        | false =>
          have := (hfalse rfl).1
          omega
      · intro hb
        rw [hsi]
        exact htrue hb
    · intro hb
      have := (hfalse hb).1
      omega

/-- Witness for C9: scenario A with the buffer of `main`. -/
theorem C9_finish_sequence_size_witness :
    NUM_PROCESSES ≤ 5 ∧ NUM_PROCESSES ≤ mainBuffer.length ∧
    (∀ st ∈ trace 5 allocA maxA [3, 3, 2] mainBuffer, FinishSeqInv st) ∧
      ∃ b st, isSafeState 5 allocA maxA [3, 3, 2] mainBuffer = some (b, st) ∧
        st ∈ trace 5 allocA maxA [3, 3, 2] mainBuffer ∧
        (st.safeIndex = NUM_PROCESSES ↔ b = true) ∧
        (b = false → st.safeIndex < NUM_PROCESSES) :=
  ⟨by decide, by decide,
    C9_finish_sequence_size 5 allocA maxA [3, 3, 2] mainBuffer (by decide) (by decide)⟩

/-! ## Determinism -/

/-- C10, as stated, fails: scenario B called with a buffer of five zeros and with a
buffer of five nines returns `false` both times, but the contents of `safeSequence`
after the two calls differ. -/
theorem C10_counterexample :
    isSafeState 5 allocA maxA [0, 0, 0] [0, 0, 0, 0, 0] = some (false, finalB) ∧
    isSafeState 5 allocA maxA [0, 0, 0] [9, 9, 9, 9, 9] = some (false, finalB9) ∧
    finalB.safeSequence ≠ finalB9.safeSequence := by
  decide

/-- C10, amended. Determinism: two invocations of `isSafeState` with the same
`allocation`, `max_need` and `available` return the same verdict, have written the
same number `k` of entries and hold the same first `k` entries in `safeSequence`,
whatever the two output buffers held before the calls; `k` is 5 when the verdict is
`true`, so all five entries then coincide.  The entries from position `k` on are
those that the buffer held before the call. -/
theorem C10_determinism (fuel : Nat) (allocation max_need : List (List Int))
    (available sq1 sq2 : List Int) (hfuel : NUM_PROCESSES ≤ fuel)
    (hl1 : NUM_PROCESSES ≤ sq1.length) (hl2 : NUM_PROCESSES ≤ sq2.length) :
    ∃ b t1 t2, isSafeState fuel allocation max_need available sq1 = some (b, t1) ∧
      isSafeState fuel allocation max_need available sq2 = some (b, t2) ∧
      t1.safeIndex = t2.safeIndex ∧
      t1.safeSequence.take t1.safeIndex = t2.safeSequence.take t1.safeIndex ∧
      (b = true → t1.safeSequence.take NUM_PROCESSES = t2.safeSequence.take NUM_PROCESSES) ∧
      t1.safeSequence.drop t1.safeIndex = sq1.drop t1.safeIndex ∧
      t2.safeSequence.drop t1.safeIndex = sq2.drop t1.safeIndex := by
  obtain ⟨b1, t1, h1⟩ := isSafeState_terminates fuel hfuel allocation max_need available sq1
  obtain ⟨b2, t2, h2⟩ := isSafeState_terminates fuel hfuel allocation max_need available sq2
  obtain ⟨hb, hctl, hwr⟩ := isSafeState_buffer fuel allocation max_need available sq1 sq2
    b1 b2 t1 t2 hl1 hl2 h1 h2
  obtain ⟨L1, hinv1, hbuf1, _, _, htrue1, _⟩ := isSafeState_spec _ _ _ _ _ _ _ h1
  obtain ⟨L2, hinv2, hbuf2, _, _, _, _⟩ := isSafeState_spec _ _ _ _ _ _ _ h2
  have hi : t1.safeIndex = t2.safeIndex := (ctl_fields _ _ hctl).2.2.1
  have hw : t1.safeSequence.take t1.safeIndex = t2.safeSequence.take t1.safeIndex := by
    unfold written at hwr
    rw [← hi] at hwr
    exact hwr
  refine ⟨b1, t1, t2, h1, by rw [hb]; exact h2, hi, hw, ?_, ?_, ?_⟩
  · intro hb1
    have := htrue1 hb1
    rw [← this, ← hinv1.sidx]
    exact hw
  · rw [hinv1.sidx]
    exact (hbuf1 hl1).post
  · rw [hi, hinv2.sidx]
    exact (hbuf2 hl2).post

/-- Witness for C10 as amended: scenario A with a buffer of five zeros and a buffer
of six nines. -/
theorem C10_determinism_witness :
    NUM_PROCESSES ≤ 5 ∧ NUM_PROCESSES ≤ mainBuffer.length ∧
    NUM_PROCESSES ≤ [9, 9, 9, 9, 9, (9 : Int)].length ∧
    ∃ b t1 t2, isSafeState 5 allocA maxA [3, 3, 2] mainBuffer = some (b, t1) ∧
      isSafeState 5 allocA maxA [3, 3, 2] [9, 9, 9, 9, 9, 9] = some (b, t2) ∧
      t1.safeIndex = t2.safeIndex ∧
      t1.safeSequence.take t1.safeIndex = t2.safeSequence.take t1.safeIndex ∧
      (b = true → t1.safeSequence.take NUM_PROCESSES = t2.safeSequence.take NUM_PROCESSES) ∧
      t1.safeSequence.drop t1.safeIndex = mainBuffer.drop t1.safeIndex ∧
      t2.safeSequence.drop t1.safeIndex = [9, 9, 9, 9, 9, 9].drop t1.safeIndex :=
  ⟨by decide, by decide, by decide,
    C10_determinism 5 allocA maxA [3, 3, 2] mainBuffer [9, 9, 9, 9, 9, 9] (by decide) (by decide)
      (by decide)⟩

/-! ## The partial sequence of an unsafe verdict -/

theorem forTrace_inv0 (allocation max_need : List (List Int)) (available : List Int)
    (ps : List Nat) (hps : ∀ p ∈ ps, p < NUM_PROCESSES)
    (st : State) (L : List Nat) (hinv : Inv allocation max_need available st L) :
    ∀ t ∈ forTrace allocation (computeNeed allocation max_need) ps st,
      ∃ L2, Inv allocation max_need available t L2 := by
  induction ps generalizing st L with
  | nil => intro t ht; cases ht
  | cons p ps ih =>
    have h1 := Inv_forBody allocation max_need available st L p (hps p (List.mem_cons_self _ _)) hinv
    intro t ht
    unfold forTrace at ht
    rcases List.mem_cons.mp ht with ht | ht
    · rw [ht]; exact ⟨_, h1⟩
    · exact ih (fun q hq => hps q (List.mem_cons_of_mem _ hq)) _ _ h1 t ht

theorem whileTrace_inv0 (allocation max_need : List (List Int)) (available : List Int)
    (fuel : Nat) (st : State) (L : List Nat)
    (hinv : Inv allocation max_need available st L) :
    ∀ t ∈ whileTrace allocation (computeNeed allocation max_need) fuel st,
      ∃ L2, Inv allocation max_need available t L2 := by
  induction fuel generalizing st L with
  | zero =>
    intro t ht
    unfold whileTrace at ht
    rw [List.mem_singleton.mp ht]
    exact ⟨L, hinv⟩
  | succ fuel ih =>
    intro t ht
    unfold whileTrace at ht
    split at ht
    · have h1 : Inv allocation max_need available { st with found := false, cmps := 0 } L :=
        Inv_congr hinv _ rfl rfl rfl rfl
      have hp := Inv_pass allocation max_need available st L hinv
      rcases List.mem_cons.mp ht with ht | ht
      · rw [ht]; exact ⟨L, hinv⟩
      rcases List.mem_cons.mp ht with ht | ht
      · rw [ht]; exact ⟨L, h1⟩
      rcases List.mem_append.mp ht with ht | ht
      · exact forTrace_inv0 allocation max_need available _ (range_lt _) _ L h1 t ht
      · split at ht
        · exact ih _ _ hp t ht
        · rw [List.mem_singleton.mp ht]; exact ⟨_, hp⟩
    · rw [List.mem_singleton.mp ht]
      exact ⟨L, hinv⟩

theorem whileTrace_eq_cons (allocation need : List (List Int)) (fuel : Nat) (st : State) :
    ∃ l, whileTrace allocation need fuel st = st :: l := by
  cases fuel with
  | zero => exact ⟨[], rfl⟩
  | succ n =>
    unfold whileTrace
    split
    · exact ⟨_, rfl⟩
    · exact ⟨[], rfl⟩

/-! ## No overflow under the resource bound -/

theorem work_le_colTotal (allocation max_need : List (List Int)) (available : List Int)
    (hpre : Precondition allocation max_need available)
    (st : State) (L : List Nat) (hinv : Inv allocation max_need available st L)
    (j : Nat) (hj : j < NUM_RESOURCES) :
    0 ≤ idx st.work j ∧ idx st.work j ≤ idx available j + colTotal allocation j := by
  rw [hinv.work j hj]
  constructor
  · have h1 := le_workAfter allocation available L j
      (fun q hq => (hpre.1 q (hinv.lt q hq) j hj).1)
    have h2 := hpre.2 j hj
    omega
  · exact workAfter_mono allocation available L (List.range NUM_PROCESSES) j hinv.nodup
      (List.nodup_range _) (fun p hp => List.mem_range.mpr (hinv.lt p hp))
      (fun p hp => (hpre.1 p (List.mem_range.mp hp) j hj).1)

/-- C18. No integer overflow under a resource bound: on an input that satisfies the
preconditions, whose `max_need` entries are `int`s, and in which for each resource
`j` the sum `available[j] + allocation[0][j] + ... + allocation[4][j]` is at most
`2^31 - 1`, every value that an `int` operation of `isSafeState` computes fits a
signed 32-bit `int`: each entry of the need matrix lies in `[0, 2^31 - 1]`, and at
every loop boundary each `Work[j]` lies between `0` and `available[j]` plus the
column total of `allocation`, hence is at most `2^31 - 1`, while `count` and
`safeIndex` are at most 5. -/
theorem C18_no_overflow (fuel : Nat) (allocation max_need : List (List Int))
    (available safeSequence : List Int)
    (hpre : Precondition allocation max_need available)
    (hmax : ∀ i, i < NUM_PROCESSES → ∀ j, j < NUM_RESOURCES → idx2 max_need i j ≤ INT_MAX)
    (hbound : ∀ j, j < NUM_RESOURCES → idx available j + colTotal allocation j ≤ INT_MAX) :
    (∀ i, i < NUM_PROCESSES → ∀ j, j < NUM_RESOURCES →
        idx2 (computeNeed allocation max_need) i j = idx2 max_need i j - idx2 allocation i j ∧
        0 ≤ idx2 (computeNeed allocation max_need) i j ∧
        idx2 (computeNeed allocation max_need) i j ≤ INT_MAX) ∧
      ∀ st ∈ trace fuel allocation max_need available safeSequence,
        (∀ j, j < NUM_RESOURCES →
          0 ≤ idx st.work j ∧ idx st.work j ≤ idx available j + colTotal allocation j ∧
          idx st.work j ≤ INT_MAX) ∧
        st.count ≤ NUM_PROCESSES ∧ st.safeIndex ≤ NUM_PROCESSES := by
  constructor
  · intro i hi j hj
    rw [idx2_computeNeed allocation max_need i j hi hj]
    have h1 := hpre.1 i hi j hj
    have h2 := hmax i hi j hj
    exact ⟨rfl, by omega, by omega⟩
  · intro st hst
    obtain ⟨L, hinv⟩ := whileTrace_inv0 allocation max_need available fuel _ []
      (Inv_initState allocation max_need available safeSequence) st hst
    have hlen := length_le_of_nodup_of_lt L NUM_PROCESSES hinv.nodup hinv.lt
    refine ⟨fun j hj => ?_, by rw [hinv.cnt]; exact hlen, by rw [hinv.sidx]; exact hlen⟩
    have h1 := work_le_colTotal allocation max_need available hpre st L hinv j hj
    have h2 := hbound j hj
    exact ⟨h1.1, h1.2, by omega⟩

/-- Witness for C18: scenario A. -/
theorem C18_no_overflow_witness :
    Precondition allocA maxA [3, 3, 2] ∧
    (∀ i, i < NUM_PROCESSES → ∀ j, j < NUM_RESOURCES → idx2 maxA i j ≤ INT_MAX) ∧
    (∀ j, j < NUM_RESOURCES → idx [3, 3, 2] j + colTotal allocA j ≤ INT_MAX) ∧
    (∀ i, i < NUM_PROCESSES → ∀ j, j < NUM_RESOURCES →
        idx2 (computeNeed allocA maxA) i j = idx2 maxA i j - idx2 allocA i j ∧
        0 ≤ idx2 (computeNeed allocA maxA) i j ∧
        idx2 (computeNeed allocA maxA) i j ≤ INT_MAX) ∧
      ∀ st ∈ trace 5 allocA maxA [3, 3, 2] mainBuffer,
        (∀ j, j < NUM_RESOURCES →
          0 ≤ idx st.work j ∧ idx st.work j ≤ idx [3, 3, 2] j + colTotal allocA j ∧
          idx st.work j ≤ INT_MAX) ∧
        st.count ≤ NUM_PROCESSES ∧ st.safeIndex ≤ NUM_PROCESSES :=
  ⟨by decide, by decide, by decide,
    C18_no_overflow 5 allocA maxA [3, 3, 2] mainBuffer (by decide) (by decide) (by decide)⟩

/-! ## The inputs are not written -/

theorem forLoopS_eq (ps : List Nat) (s : Store) :
    forLoopS ps s = { s with loc := forLoop s.allocation s.need ps s.loc } := by
  induction ps generalizing s with
  | nil => rfl
  | cons p ps ih =>
    unfold forLoopS forLoop
    rw [ih]
    rfl

theorem passS_eq (s : Store) :
    passS s = { s with loc := pass s.allocation s.need s.loc } := by
  unfold passS pass
  simp only [forLoopS_eq]

theorem whileLoopS_eq (fuel : Nat) (s : Store) :
    whileLoopS fuel s
      = (whileLoop s.allocation s.need fuel s.loc).map
          fun r => (r.1, { s with loc := r.2 }) := by
  induction fuel generalizing s with
  | zero =>
    unfold whileLoopS whileLoop
    split <;> rfl
  | succ fuel ih =>
    unfold whileLoopS whileLoop
    split
    · rw [passS_eq]
      simp only []
      split
      · rw [ih]
      · rfl
    · rfl

/-- C14. Inputs are read-only: when `isSafeState` returns, with either verdict, the
memory holds the `allocation`, `max_need` and `available` it held before the call;
what has changed is the output buffer and the local variables, and these are as
the function `isSafeState` of this development computes them.  The call returns on
every input once it is allowed five passes. -/
theorem C14_inputs_read_only (fuel : Nat) (allocation max_need : List (List Int))
    (available safeSequence : List Int) (hfuel : NUM_PROCESSES ≤ fuel) :
    ∃ b s, isSafeStateS fuel allocation max_need available safeSequence = some (b, s) ∧
      s.allocation = allocation ∧ s.max_need = max_need ∧ s.available = available ∧
      isSafeState fuel allocation max_need available safeSequence = some (b, s.loc) := by
  obtain ⟨b, st, h⟩ := isSafeState_terminates fuel hfuel allocation max_need available
    safeSequence
  refine ⟨b, Store.mk allocation max_need available (computeNeed allocation max_need) st,
    ?_, rfl, rfl, rfl, h⟩
  unfold isSafeStateS
  simp only [whileLoopS_eq]
  unfold isSafeState at h
  show Option.map _ (whileLoop allocation (computeNeed allocation max_need) fuel
    (initState available safeSequence)) = _
  rw [h]
  rfl

/-- Witness for C14: scenario A. -/
theorem C14_inputs_read_only_witness :
    NUM_PROCESSES ≤ 5 ∧
    ∃ b s, isSafeStateS 5 allocA maxA [3, 3, 2] mainBuffer = some (b, s) ∧
      s.allocation = allocA ∧ s.max_need = maxA ∧ s.available = [3, 3, 2] ∧
      isSafeState 5 allocA maxA [3, 3, 2] mainBuffer = some (b, s.loc) :=
  ⟨by decide, C14_inputs_read_only 5 allocA maxA [3, 3, 2] mainBuffer (by decide)⟩

/-! ## The loader and `main` -/

theorem length_eq_five (l : List (List Int)) (h : l.length = 5) :
    ∃ a b c d e, l = [a, b, c, d, e] := by
  match l, h with
  | [a, b, c, d, e], _ => exact ⟨a, b, c, d, e, rfl⟩

theorem extract_num (r : List Token) (v old : Int) (hv : IsInt32 v) :
    extract { rest := Token.num v :: r, fail := false } old = ({ rest := r, fail := false }, v) := by
  unfold extract
  have h1 : ¬ v < INT_MIN := not_lt.mpr hv.1
  have h2 : ¬ INT_MAX < v := not_lt.mpr hv.2
  simp [h1, h2]

theorem readRow_wellFormed (i : Nat) (row : List Int) (r : List Token) (m : List (List Int))
    (hrow : row.length = NUM_RESOURCES) (hin : ∀ v ∈ row, IsInt32 v)
    (hm : (m.getD i []).length = NUM_RESOURCES) :
    readRow i (List.range NUM_RESOURCES) ({ rest := row.map Token.num ++ r, fail := false }, m)
      = ({ rest := r, fail := false }, m.set i row) := by
  obtain ⟨a, b, c, rfl⟩ := List.length_eq_three.mp hrow
  obtain ⟨x, y, z, hxyz⟩ := List.length_eq_three.mp hm
  have ha : IsInt32 a := hin a (by simp)
  have hb : IsInt32 b := hin b (by simp)
  have hc : IsInt32 c := hin c (by simp)
  show readRow i [0, 1, 2] _ = _
  simp only [readRow, List.map_cons, List.map_nil, List.cons_append, List.nil_append,
    extract_num _ _ _ ha, extract_num _ _ _ hb, extract_num _ _ _ hc]
  by_cases hi : i < m.length
  · have hmi : m[i] = [x, y, z] := by
      simpa [List.getD_eq_getElem?_getD, List.getElem?_eq_getElem hi] using hxyz
    simp [set2, List.getD_eq_getElem?_getD, hi, hmi]
  · have h1 : m[i]? = none := List.getElem?_eq_none (Nat.le_of_not_lt hi)
    simp [List.getD_eq_getElem?_getD, h1] at hxyz

theorem take_succ_set_row (m : List (List Int)) (k : Nat) (row : List Int) (hk : k < m.length) :
    (m.set k row).take (k + 1) = m.take k ++ [row] := by
  induction m generalizing k with
  | nil => simp at hk
  | cons a m ih =>
    cases k with
    | zero => simp
    | succ k =>
      simp only [List.length_cons, Nat.add_lt_add_iff_right] at hk
      simp [ih k hk]

theorem readMatrix_from (n k : Nat) (A : List (List Int)) (r : List Token)
    (m : List (List Int)) (hA : A.length = n)
    (hrows : ∀ row ∈ A, row.length = NUM_RESOURCES) (hin : ∀ row ∈ A, ∀ v ∈ row, IsInt32 v)
    (hm : m.length = k + n) (hmrows : ∀ row ∈ m, row.length = NUM_RESOURCES) :
    readMatrix (List.range' k n) ({ rest := A.flatten.map Token.num ++ r, fail := false }, m)
      = ({ rest := r, fail := false }, m.take k ++ A) := by
  induction n generalizing k A m with
  | zero =>
    have hnil : A = [] := List.length_eq_zero.mp hA
    subst hnil
    simp only [List.range'_zero, readMatrix, List.flatten_nil, List.map_nil, List.nil_append,
      List.append_nil]
    rw [List.take_of_length_le (by omega)]
  | succ n ih =>
    match A, hA with
    | row :: A2, hA2 =>
      have hk : k < m.length := by omega
      have hrow : (m.getD k []).length = NUM_RESOURCES := by
        rw [List.getD_eq_getElem?_getD, List.getElem?_eq_getElem hk]
        exact hmrows _ (List.getElem_mem hk)
      simp only [List.range'_succ, readMatrix, List.flatten_cons, List.map_append,
        List.append_assoc]
      rw [readRow_wellFormed k row _ m (hrows row (List.mem_cons_self _ _))
        (hin row (List.mem_cons_self _ _)) hrow]
      have := ih (k + 1) A2 (m.set k row) (by simpa using hA2)
        (fun x hx => hrows x (List.mem_cons_of_mem _ hx))
        (fun x hx => hin x (List.mem_cons_of_mem _ hx))
        (by rw [List.length_set]; omega)
        (by
          intro x hx
          rcases List.mem_or_eq_of_mem_set hx with h1 | h1
          · exact hmrows x h1
          · rw [h1]; exact hrows row (List.mem_cons_self _ _))
      rw [this, take_succ_set_row m k row hk]
      simp

theorem readVector_from (n k : Nat) (V : List Int) (r : List Token) (v : List Int)
    (hV : V.length = n) (hin : ∀ x ∈ V, IsInt32 x) (hv : v.length = k + n) :
    readVector (List.range' k n) ({ rest := V.map Token.num ++ r, fail := false }, v)
      = ({ rest := r, fail := false }, v.take k ++ V) := by
  induction n generalizing k V v with
  | zero =>
    have hnil : V = [] := List.length_eq_zero.mp hV
    subst hnil
    simp only [List.range'_zero, readVector, List.map_nil, List.nil_append, List.append_nil]
    rw [List.take_of_length_le (by omega)]
  | succ n ih =>
    match V, hV with
    | x :: V2, hV2 =>
      have hk : k < v.length := by omega
      simp only [List.range'_succ, readVector, List.map_cons, List.cons_append]
      rw [extract_num _ _ _ (hin x (List.mem_cons_self _ _))]
      have := ih (k + 1) V2 (v.set k x) (by simpa using hV2)
        (fun y hy => hin y (List.mem_cons_of_mem _ hy)) (by rw [List.length_set]; omega)
      rw [this, take_succ_set v k x hk]
      simp

/-- A well-formed file of 33 integers that fit an `int` loads as the matrices and the
vector it lists, whatever their values. -/
theorem mainLoad_wellFormed (A M : List (List Int)) (V : List Int)
    (hA : IsMatrix A) (hM : IsMatrix M) (hV : V.length = NUM_RESOURCES)
    (hAin : ∀ row ∈ A, ∀ v ∈ row, IsInt32 v) (hMin : ∀ row ∈ M, ∀ v ∈ row, IsInt32 v)
    (hVin : ∀ v ∈ V, IsInt32 v) :
    mainLoad (fileOfData A M V) = { ok := true, allocation := A, max_need := M, available := V } := by
  have hz : zeroMatrix.length = 0 + NUM_PROCESSES := by decide
  have hzr : ∀ row ∈ zeroMatrix, row.length = NUM_RESOURCES := by decide
  unfold mainLoad fileOfData fileOf readInputFile
  simp only [List.map_append, List.range_eq_range']
  rw [readMatrix_from NUM_PROCESSES 0 A _ zeroMatrix hA.1 hA.2 hAin hz hzr]
  simp only []
  rw [readMatrix_from NUM_PROCESSES 0 M _ zeroMatrix hM.1 hM.2 hMin hz hzr]
  simp only []
  have := readVector_from NUM_RESOURCES 0 V [] (List.replicate NUM_RESOURCES 0) hV hVin
    (by simp)
  rw [List.append_nil] at this
  rw [this]
  simp

theorem main_of_ok (fuel : Nat) (file : Option (List Token)) (b : Bool) (st : State)
    (hok : (mainLoad file).ok = true)
    (h : isSafeState fuel (mainLoad file).allocation (mainLoad file).max_need
      (mainLoad file).available mainBuffer = some (b, st)) :
    main fuel file = some { status := 0, verdict := some b } := by
  unfold main
  rw [hok, h]
  rfl

theorem main_of_not_ok (fuel : Nat) (file : Option (List Token))
    (hok : (mainLoad file).ok = false) :
    main fuel file = some { status := 1, verdict := none } := by
  unfold main
  rw [hok]
  rfl

/-- C11, as stated, fails: the file `fileInconsistent` holds 33 well-formed integers
with `allocation[0][0] = 1 > 0 = max_need[0][0]` and `available[0] = -1`, yet
`readInputFile` returns `true`, and `main` goes on to call `isSafeState`, reports
the verdict "safe" and returns 0. -/
theorem C11_counterexample :
    fileInconsistent = fileOfData onesMatrix zeroMatrix [-1, 0, 0] ∧
    (mainLoad fileInconsistent).ok = true ∧
    idx2 (mainLoad fileInconsistent).max_need 0 0 < idx2 (mainLoad fileInconsistent).allocation 0 0 ∧
    idx (mainLoad fileInconsistent).available 0 < 0 ∧
    main 5 fileInconsistent = some { status := 0, verdict := some true } := by
  decide

/-- C11, amended. The loader does not check consistency: for every input file of 33
well-formed integer tokens, also when some entry has `allocation[i][j] >
max_need[i][j]` or is negative, `readInputFile` returns `true` and has stored the
values as the file lists them; `main` then calls `isSafeState` on them, reports its
verdict and returns 0. -/
theorem C11_loader_accepts_inconsistent_data (fuel : Nat) (A M : List (List Int)) (V : List Int)
    (hfuel : NUM_PROCESSES ≤ fuel)
    (hA : IsMatrix A) (hM : IsMatrix M) (hV : V.length = NUM_RESOURCES)
    (hAin : ∀ row ∈ A, ∀ v ∈ row, IsInt32 v) (hMin : ∀ row ∈ M, ∀ v ∈ row, IsInt32 v)
    (hVin : ∀ v ∈ V, IsInt32 v) :
    readInputFile (fileOfData A M V) zeroMatrix zeroMatrix (List.replicate NUM_RESOURCES 0)
        = { ok := true, allocation := A, max_need := M, available := V } ∧
      ∃ b st, isSafeState fuel A M V mainBuffer = some (b, st) ∧
        main fuel (fileOfData A M V) = some { status := 0, verdict := some b } := by
  have hload := mainLoad_wellFormed A M V hA hM hV hAin hMin hVin
  refine ⟨hload, ?_⟩
  obtain ⟨b, st, h⟩ := isSafeState_terminates fuel hfuel A M V mainBuffer
  refine ⟨b, st, h, main_of_ok fuel _ b st (by rw [hload]) ?_⟩
  rw [hload]
  exact h

/-- Witness for C11 as amended: the file `fileInconsistent`. -/
theorem C11_loader_accepts_inconsistent_data_witness :
    NUM_PROCESSES ≤ 5 ∧ IsMatrix onesMatrix ∧ IsMatrix zeroMatrix ∧
    ([-1, 0, 0] : List Int).length = NUM_RESOURCES ∧
    (∀ row ∈ onesMatrix, ∀ v ∈ row, IsInt32 v) ∧ (∀ row ∈ zeroMatrix, ∀ v ∈ row, IsInt32 v) ∧
    (∀ v ∈ ([-1, 0, 0] : List Int), IsInt32 v) ∧
    readInputFile (fileOfData onesMatrix zeroMatrix [-1, 0, 0]) zeroMatrix zeroMatrix
        (List.replicate NUM_RESOURCES 0)
        = { ok := true, allocation := onesMatrix, max_need := zeroMatrix,
            available := [-1, 0, 0] } ∧
      ∃ b st, isSafeState 5 onesMatrix zeroMatrix [-1, 0, 0] mainBuffer = some (b, st) ∧
        main 5 (fileOfData onesMatrix zeroMatrix [-1, 0, 0])
          = some { status := 0, verdict := some b } :=
  ⟨by decide, by decide, by decide, by decide, by decide, by decide, by decide,
    C11_loader_accepts_inconsistent_data 5 onesMatrix zeroMatrix [-1, 0, 0] (by decide)
      (by decide) (by decide) (by decide) (by decide) (by decide) (by decide)⟩

/-- C12 on the code: a file that cannot be opened makes `readInputFile` return
`false`, but a file that opens makes it return `true` also when it is empty, when it
is cut off after 18 of the 33 integers, and when one of its tokens is not a number;
`main` then reports a verdict computed from the entries that were read and zeros,
and returns 0. -/
theorem C12_malformed_file_accepted :
    (mainLoad none).ok = false ∧
    (mainLoad (some [])).ok = true ∧
    (mainLoad fileTruncated).ok = true ∧
    (mainLoad fileTruncated).max_need = [[7, 5, 3], [0, 0, 0], [0, 0, 0], [0, 0, 0], [0, 0, 0]] ∧
    main 5 fileTruncated = some { status := 0, verdict := some false } ∧
    (mainLoad fileNonNumeric).ok = true ∧
    (mainLoad fileNonNumeric).allocation = zeroMatrix ∧
    main 5 fileNonNumeric = some { status := 0, verdict := some true } := by
  decide

theorem mainLoad_fileA :
    mainLoad fileA = { ok := true, allocation := allocA, max_need := maxA, available := [3, 3, 2] } := by
  decide

theorem mainLoad_fileB :
    mainLoad fileB = { ok := true, allocation := allocA, max_need := maxA, available := [0, 0, 0] } := by
  decide

/-- C13. Exit status: `main` returns 0 whenever `readInputFile` reported success, and
it has then called `isSafeState` and reports its verdict, which can be "safe"
(scenario A) as well as "unsafe" (scenario B); it returns a non-zero status, 1,
exactly when `readInputFile` reported failure, and `isSafeState` is then not
called. -/
theorem C13_exit_status (fuel : Nat) (file : Option (List Token))
    (hfuel : NUM_PROCESSES ≤ fuel) :
    (∃ e, main fuel file = some e ∧
      ((mainLoad file).ok = true → e.status = 0 ∧
        ∃ b st, isSafeState fuel (mainLoad file).allocation (mainLoad file).max_need
            (mainLoad file).available mainBuffer = some (b, st) ∧ e.verdict = some b) ∧
      ((mainLoad file).ok = false → e.status = 1 ∧ e.verdict = none) ∧
      (e.status ≠ 0 ↔ (mainLoad file).ok = false)) ∧
    main fuel fileA = some { status := 0, verdict := some true } ∧
    main fuel fileB = some { status := 0, verdict := some false } := by
  refine ⟨?_, ?_, ?_⟩
  · cases hok : (mainLoad file).ok
    · refine ⟨_, main_of_not_ok fuel file hok, ?_, ?_, ?_⟩
      · intro h; cases h
      · intro _; exact ⟨rfl, rfl⟩
      · exact ⟨fun _ => rfl, fun _ => by decide⟩
    · obtain ⟨b, st, h⟩ := isSafeState_terminates fuel hfuel (mainLoad file).allocation
        (mainLoad file).max_need (mainLoad file).available mainBuffer
      refine ⟨_, main_of_ok fuel file b st hok h, ?_, ?_, ?_⟩
      · intro _; exact ⟨rfl, b, st, h, rfl⟩
      · intro h; cases h
      · exact ⟨fun h => absurd rfl h, fun h => by cases h⟩
  · refine main_of_ok fuel fileA true finalA (by rw [mainLoad_fileA]) ?_
    rw [mainLoad_fileA]
    exact isSafeState_fuel_mono 5 fuel _ _ _ _ _ run_scenarioA hfuel
  · refine main_of_ok fuel fileB false finalB (by rw [mainLoad_fileB]) ?_
    rw [mainLoad_fileB]
    exact isSafeState_fuel_mono 5 fuel _ _ _ _ _ run_scenarioB hfuel

/-- Witness for C13: a file that cannot be opened, with seven passes allowed. -/
theorem C13_exit_status_witness :
    NUM_PROCESSES ≤ 7 ∧
    (∃ e, main 7 none = some e ∧
      ((mainLoad none).ok = true → e.status = 0 ∧
        ∃ b st, isSafeState 7 (mainLoad none).allocation (mainLoad none).max_need
            (mainLoad none).available mainBuffer = some (b, st) ∧ e.verdict = some b) ∧
      ((mainLoad none).ok = false → e.status = 1 ∧ e.verdict = none) ∧
      (e.status ≠ 0 ↔ (mainLoad none).ok = false)) ∧
    main 7 fileA = some { status := 0, verdict := some true } ∧
    main 7 fileB = some { status := 0, verdict := some false } :=
  ⟨by decide, C13_exit_status 7 none (by decide)⟩

/-! ## The two-step pass of the specification -/

theorem mem_specMarked (allocation max_need : List (List Int)) (s : SpecState) (p : Nat) :
    p ∈ specMarked allocation max_need s ↔
      p < NUM_PROCESSES ∧ p ∉ s.finish ∧
        ∀ j, j < NUM_RESOURCES → needOf allocation max_need p j ≤ idx s.work j := by
  unfold specMarked
  rw [List.mem_filter, List.mem_range]
  simp only [Bool.and_eq_true, decide_eq_true_eq]

theorem idx_specFinish (allocation : List (List Int)) (s : SpecState) (p j : Nat)
    (hj : j < NUM_RESOURCES) :
    idx (specFinish allocation s p).work j = idx s.work j + idx2 allocation p j := by
  unfold specFinish
  conv_lhs => unfold idx
  simp [List.getD_eq_getElem?_getD, List.getElem?_map, List.getElem?_range, hj, idx]

theorem specFinish_foldl (allocation max_need : List (List Int)) (available : List Int)
    (hnn : ∀ i, i < NUM_PROCESSES → ∀ j, j < NUM_RESOURCES → 0 ≤ idx2 allocation i j)
    (w0 : List Int) (ps : List Nat) (s : SpecState)
    (hinv : SpecInv allocation max_need available s)
    (hw0 : ∀ j, j < NUM_RESOURCES → idx w0 j ≤ idx s.work j)
    (hnd : ps.Nodup)
    (hps : ∀ p ∈ ps, p < NUM_PROCESSES ∧ p ∉ s.sequence ∧
      ∀ j, j < NUM_RESOURCES → needOf allocation max_need p j ≤ idx w0 j) :
    SpecInv allocation max_need available (ps.foldl (specFinish allocation) s) ∧
      (ps.foldl (specFinish allocation) s).sequence = s.sequence ++ ps := by
  induction ps generalizing s with
  | nil => exact ⟨hinv, by simp⟩
  | cons p ps ih =>
    obtain ⟨hp, hpL, hneed⟩ := hps p (List.mem_cons_self _ _)
    have hnd2 := List.nodup_cons.mp hnd
    have hstep : SpecInv allocation max_need available (specFinish allocation s p) := by
      constructor
      · exact List.Nodup.append hinv.nodup (List.nodup_singleton p) (by simpa using hpL)
      · intro q hq
        rcases List.mem_append.mp hq with hq | hq
        · exact hinv.lt q hq
        · rw [List.mem_singleton.mp hq]; exact hp
      · intro q
        show q ∈ p :: s.finish ↔ q ∈ s.sequence ++ [p]
        rw [List.mem_cons, List.mem_append, List.mem_singleton, hinv.fin q]
        exact or_comm
      · intro j hj
        rw [idx_specFinish allocation s p j hj]
        show _ = workAfter allocation available (s.sequence ++ [p]) j
        rw [workAfter_append, hinv.work j hj]
      · refine Completable_append _ _ _ _ _ hinv.comp ?_
        intro j hj
        rw [← hinv.work j hj]
        exact le_trans (hneed j hj) (hw0 j hj)
    have hrec := ih (specFinish allocation s p) hstep
      (by
        intro j hj
        rw [idx_specFinish allocation s p j hj]
        have := hw0 j hj
        have := hnn p hp j hj
        omega)
      hnd2.2
      (by
        intro q hq
        obtain ⟨hq5, hqL, hqn⟩ := hps q (List.mem_cons_of_mem _ hq)
        refine ⟨hq5, ?_, hqn⟩
        intro hmem
        rcases List.mem_append.mp hmem with h1 | h1
        · exact hqL h1
        · rw [List.mem_singleton.mp h1] at hq
          exact hnd2.1 hq)
    rw [List.foldl_cons]
    refine ⟨hrec.1, ?_⟩
    rw [hrec.2]
    show (s.sequence ++ [p]) ++ ps = _
    simp

theorem SpecInv_specPass (allocation max_need : List (List Int)) (available : List Int)
    (hnn : ∀ i, i < NUM_PROCESSES → ∀ j, j < NUM_RESOURCES → 0 ≤ idx2 allocation i j)
    (s : SpecState) (hinv : SpecInv allocation max_need available s) :
    SpecInv allocation max_need available (specPass allocation max_need s) ∧
      (specPass allocation max_need s).sequence
        = s.sequence ++ specMarked allocation max_need s := by
  unfold specPass
  refine specFinish_foldl allocation max_need available hnn s.work _ s hinv
    (fun j _ => le_refl _) ((List.nodup_range _).filter _) ?_
  intro p hp
  obtain ⟨h1, h2, h3⟩ := (mem_specMarked allocation max_need s p).mp hp
  exact ⟨h1, fun h => h2 ((hinv.fin p).mpr h), h3⟩

theorem specAllFinished_iff (allocation max_need : List (List Int)) (available : List Int)
    (s : SpecState) (hinv : SpecInv allocation max_need available s) :
    specAllFinished s = true ↔ s.sequence.length = NUM_PROCESSES := by
  unfold specAllFinished
  rw [List.all_eq_true]
  simp only [decide_eq_true_eq, List.mem_range]
  have hle := length_le_of_nodup_of_lt s.sequence NUM_PROCESSES hinv.nodup hinv.lt
  constructor
  · intro h
    have hsub : List.range NUM_PROCESSES ⊆ s.sequence :=
      fun p hp => (hinv.fin p).mp (h p (List.mem_range.mp hp))
    have := (List.subperm_of_subset (List.nodup_range _) hsub).length_le
    simp only [List.length_range] at this
    omega
  · intro h p hp
    have hperm := perm_range_of_length s.sequence NUM_PROCESSES hinv.nodup hinv.lt h
    exact (hinv.fin p).mpr (hperm.mem_iff.mpr (List.mem_range.mpr hp))

/-- A state in which the scheduled processes `L` are not all, and no other process has
its need covered by the work vector `W`, admits no safe ordering. -/
theorem no_safeOrdering_of_stuck (allocation max_need : List (List Int)) (available : List Int)
    (hnn : ∀ i, i < NUM_PROCESSES → ∀ j, j < NUM_RESOURCES → 0 ≤ idx2 allocation i j)
    (W : List Int) (L : List Nat) (hnd : L.Nodup) (hlt : ∀ p ∈ L, p < NUM_PROCESSES)
    (hW : ∀ j, j < NUM_RESOURCES → idx W j = workAfter allocation available L j)
    (hlen : L.length < NUM_PROCESSES)
    (hstuck : ∀ p, p < NUM_PROCESSES → p ∉ L →
      ¬ ∀ j, j < NUM_RESOURCES → needOf allocation max_need p j ≤ idx W j)
    (s : List Nat) (hs : SafeOrdering allocation max_need available s) : False := by
  have hsnd : s.Nodup := (List.Perm.nodup_iff hs.1).mpr (List.nodup_range _)
  have hslen : s.length = NUM_PROCESSES := by simpa using hs.1.length_eq
  have hsub : ∀ k, s.take k ⊆ L := by
    intro k
    induction k with
    | zero => simp
    | succ k ih =>
      by_cases hk : k < s.length
      · rw [List.take_succ, List.getElem?_eq_getElem hk]
        intro q hq
        rcases List.mem_append.mp hq with hq | hq
        · exact ih hq
        · simp only [Option.toList_some, List.mem_singleton] at hq
          subst hq
          have hq5 : s[k] < NUM_PROCESSES :=
            List.mem_range.mp ((hs.1.mem_iff).mp (List.getElem_mem hk))
          have hget : s.getD k 0 = s[k] := by
            simp [List.getD_eq_getElem?_getD, List.getElem?_eq_getElem hk]
          by_contra hnot
          apply hstuck s[k] hq5 hnot
          intro j hj
          have h1 := hs.2 k hk j hj
          rw [hget] at h1
          have h2 := workAfter_mono allocation available (s.take k) L j
            (hsnd.sublist (List.take_sublist _ _)) hnd ih
            (fun p hp => hnn p (hlt p hp) j hj)
          rw [hW j hj]
          omega
      · rw [List.take_of_length_le (by omega)] at ih ⊢
        exact ih
  have h := hsub s.length
  rw [List.take_length] at h
  have := (List.subperm_of_subset hsnd h).length_le
  omega

/-- The verdict of the code is `true` exactly when a safe ordering exists. -/
theorem isSafeState_verdict_iff (fuel : Nat) (allocation max_need : List (List Int))
    (available sq : List Int) (b : Bool) (st : State)
    (hnn : ∀ i, i < NUM_PROCESSES → ∀ j, j < NUM_RESOURCES → 0 ≤ idx2 allocation i j)
    (h : isSafeState fuel allocation max_need available sq = some (b, st)) :
    b = true ↔ ∃ s, SafeOrdering allocation max_need available s := by
  obtain ⟨L, hinv, _, _, _, htrue, hfalse⟩ := isSafeState_spec _ _ _ _ _ _ _ h
  constructor
  · intro hb
    exact ⟨L, perm_range_of_length L _ hinv.nodup hinv.lt (htrue hb), hinv.comp⟩
  · rintro ⟨s, hs⟩
    cases b with
    | true => rfl
    | false =>
      exfalso
      obtain ⟨hlt, _, hstuck⟩ := hfalse rfl
      refine no_safeOrdering_of_stuck allocation max_need available hnn st.work L hinv.nodup
        hinv.lt hinv.work hlt ?_ s hs
      intro p hp hpL hall
      have hfin : st.finish.getD p false = false := by
        cases hv : st.finish.getD p false
        · rfl
        · exact absurd ((hinv.fin p).mp hv) hpL
      have := (runs_iff allocation max_need st p hp).mpr ⟨hfin, hall⟩
      rw [hstuck p hp] at this
      cases this

/-- The verdict of the specification's algorithm is `true` exactly when a safe ordering
exists. -/
theorem specLoop_verdict_iff (allocation max_need : List (List Int)) (available : List Int)
    (hnn : ∀ i, i < NUM_PROCESSES → ∀ j, j < NUM_RESOURCES → 0 ≤ idx2 allocation i j)
    (fuel : Nat) (s : SpecState) (b : Bool) (seq : List Nat)
    (hinv : SpecInv allocation max_need available s)
    (h : specLoop allocation max_need fuel s = some (b, seq)) :
    b = true ↔ ∃ o, SafeOrdering allocation max_need available o := by
  have hdone : specAllFinished s = true →
      ∃ o, SafeOrdering allocation max_need available o := fun hall =>
    ⟨s.sequence, perm_range_of_length _ _ hinv.nodup hinv.lt
      ((specAllFinished_iff allocation max_need available s hinv).mp hall), hinv.comp⟩
  induction fuel generalizing s with
  | zero =>
    unfold specLoop at h
    split at h
    · next hall =>
      simp only [Option.some.injEq, Prod.mk.injEq] at h
      exact ⟨fun _ => hdone hall, fun _ => h.1.symm⟩
    · cases h
  | succ fuel ih =>
    unfold specLoop at h
    split at h
    · next hall =>
      simp only [Option.some.injEq, Prod.mk.injEq] at h
      exact ⟨fun _ => hdone hall, fun _ => h.1.symm⟩
    · next hall =>
      split at h
      · next hmark =>
        simp only [Option.some.injEq, Prod.mk.injEq] at h
        rw [← h.1]
        refine ⟨fun hb => Bool.noConfusion hb, ?_⟩
        rintro ⟨o, ho⟩
        exfalso
        have hle := length_le_of_nodup_of_lt s.sequence NUM_PROCESSES hinv.nodup hinv.lt
        have hne : s.sequence.length ≠ NUM_PROCESSES := fun e =>
          hall ((specAllFinished_iff allocation max_need available s hinv).mpr e)
        refine no_safeOrdering_of_stuck allocation max_need available hnn s.work s.sequence
          hinv.nodup hinv.lt hinv.work (by omega) ?_ o ho
        intro p hp hpL hneed
        have : p ∈ specMarked allocation max_need s :=
          (mem_specMarked allocation max_need s p).mpr
            ⟨hp, fun hf => hpL ((hinv.fin p).mp hf), hneed⟩
        rw [hmark] at this
        cases this
      · have hp := SpecInv_specPass allocation max_need available hnn s hinv
        exact ih (specPass allocation max_need s) hp.1 h
          (fun hall2 => ⟨_, perm_range_of_length _ _ hp.1.nodup hp.1.lt
            ((specAllFinished_iff allocation max_need available _ hp.1).mp hall2), hp.1.comp⟩)

theorem specLoop_terminates (allocation max_need : List (List Int)) (available : List Int)
    (hnn : ∀ i, i < NUM_PROCESSES → ∀ j, j < NUM_RESOURCES → 0 ≤ idx2 allocation i j)
    (fuel : Nat) (s : SpecState) (hinv : SpecInv allocation max_need available s)
    (hfuel : NUM_PROCESSES - s.sequence.length ≤ fuel) :
    ∃ r, specLoop allocation max_need fuel s = some r := by
  have hle := length_le_of_nodup_of_lt s.sequence NUM_PROCESSES hinv.nodup hinv.lt
  induction fuel generalizing s with
  | zero =>
    unfold specLoop
    rw [if_pos ((specAllFinished_iff allocation max_need available s hinv).mpr (by omega))]
    exact ⟨_, rfl⟩
  | succ fuel ih =>
    unfold specLoop
    split
    · exact ⟨_, rfl⟩
    · split
      · exact ⟨_, rfl⟩
      · next hmark =>
        have hp := SpecInv_specPass allocation max_need available hnn s hinv
        have hpos : 0 < (specMarked allocation max_need s).length :=
          List.length_pos.mpr hmark
        have hlen : (specPass allocation max_need s).sequence.length
            = s.sequence.length + (specMarked allocation max_need s).length := by
          rw [hp.2, List.length_append]
        exact ih _ hp.1 (by omega)
          (length_le_of_nodup_of_lt _ NUM_PROCESSES hp.1.nodup hp.1.lt)

theorem SpecInv_init (allocation max_need : List (List Int)) (available : List Int) :
    SpecInv allocation max_need available { work := available, finish := [], sequence := [] } where
  nodup := List.nodup_nil
  lt := by simp
  fin := by simp
  work := by
    intro j _
    simp [workAfter]
  comp := by
    intro k hk
    simp at hk

/-! ## Index safety -/

theorem rd_of_lt {α : Type} (v : List α) (i : Nat) (d : α) (h : i < v.length) :
    rd v i = some (v.getD i d) := by
  unfold rd
  rw [List.getD_eq_getElem?_getD, List.getElem?_eq_getElem h]
  rfl

theorem wr_of_lt {α : Type} (v : List α) (i : Nat) (x : α) (h : i < v.length) :
    wr v i x = some (v.set i x) := by
  unfold wr
  rw [if_pos h]

theorem IsMatrix_row (m : List (List Int)) (hm : IsMatrix m) (i : Nat) (hi : i < NUM_PROCESSES) :
    i < m.length ∧ (m.getD i []).length = NUM_RESOURCES := by
  have h1 : i < m.length := by rw [hm.1]; exact hi
  refine ⟨h1, ?_⟩
  rw [List.getD_eq_getElem?_getD, List.getElem?_eq_getElem h1]
  exact hm.2 _ (List.getElem_mem h1)

theorem rd2_of_IsMatrix (m : List (List Int)) (hm : IsMatrix m) (i j : Nat)
    (hi : i < NUM_PROCESSES) (hj : j < NUM_RESOURCES) : rd2 m i j = some (idx2 m i j) := by
  obtain ⟨h1, h2⟩ := IsMatrix_row m hm i hi
  unfold rd2 idx2 idx
  rw [rd_of_lt m i [] h1, Option.some_bind, rd_of_lt _ j 0 (by omega)]

theorem IsMatrix_set (m : List (List Int)) (hm : IsMatrix m) (i : Nat) (row : List Int)
    (hrow : row.length = NUM_RESOURCES) : IsMatrix (m.set i row) := by
  refine ⟨by rw [List.length_set]; exact hm.1, ?_⟩
  intro x hx
  rcases List.mem_or_eq_of_mem_set hx with h1 | h1
  · exact hm.2 x h1
  · rw [h1]; exact hrow

theorem wr2_of_IsMatrix (m : List (List Int)) (hm : IsMatrix m) (i j : Nat) (x : Int)
    (hi : i < NUM_PROCESSES) (hj : j < NUM_RESOURCES) : wr2 m i j x = some (set2 m i j x) := by
  obtain ⟨h1, h2⟩ := IsMatrix_row m hm i hi
  unfold wr2 set2
  rw [rd_of_lt m i [] h1, Option.some_bind, wr_of_lt _ j x (by omega), Option.some_bind,
    wr_of_lt m i _ h1]

theorem IsMatrix_set2 (m : List (List Int)) (hm : IsMatrix m) (i j : Nat) (x : Int)
    (hi : i < NUM_PROCESSES) : IsMatrix (set2 m i j x) := by
  unfold set2
  exact IsMatrix_set m hm i _ (by rw [List.length_set]; exact (IsMatrix_row m hm i hi).2)

theorem IsMatrix_computeNeed (allocation max_need : List (List Int)) :
    IsMatrix (computeNeed allocation max_need) := by
  unfold computeNeed IsMatrix
  refine ⟨by simp, ?_⟩
  intro r hr
  obtain ⟨i, _, rfl⟩ := List.mem_map.mp hr
  simp

theorem set2_row (m : List (List Int)) (i : Nat) (a b c : Int)
    (hm : (m.getD i []).length = NUM_RESOURCES) :
    set2 (set2 (set2 m i 0 a) i 1 b) i 2 c = m.set i [a, b, c] := by
  obtain ⟨x, y, z, hxyz⟩ := List.length_eq_three.mp hm
  by_cases hi : i < m.length
  · have hmi : m[i] = [x, y, z] := by
      simpa [List.getD_eq_getElem?_getD, List.getElem?_eq_getElem hi] using hxyz
    simp [set2, List.getD_eq_getElem?_getD, hi, hmi]
  · have h1 : m[i]? = none := List.getElem?_eq_none (Nat.le_of_not_lt hi)
    simp [List.getD_eq_getElem?_getD, h1] at hxyz

theorem needRowChk_eq (allocation max_need : List (List Int)) (hal : IsMatrix allocation)
    (hmx : IsMatrix max_need) (i : Nat) (hi : i < NUM_PROCESSES) (need : List (List Int))
    (hneed : IsMatrix need) :
    needRowChk allocation max_need i (List.range NUM_RESOURCES) need
      = some (need.set i
          ((List.range NUM_RESOURCES).map fun j => idx2 max_need i j - idx2 allocation i j)) := by
  have h0 : (0 : Nat) < NUM_RESOURCES := by decide
  have h1 : (1 : Nat) < NUM_RESOURCES := by decide
  have h2 : (2 : Nat) < NUM_RESOURCES := by decide
  have n1 := IsMatrix_set2 need hneed i 0 (idx2 max_need i 0 - idx2 allocation i 0) hi
  have n2 := IsMatrix_set2 _ n1 i 1 (idx2 max_need i 1 - idx2 allocation i 1) hi
  show needRowChk allocation max_need i [0, 1, 2] need = some (need.set i [_, _, _])
  simp only [needRowChk, rd2_of_IsMatrix _ hal i _ hi h0, rd2_of_IsMatrix _ hal i _ hi h1,
    rd2_of_IsMatrix _ hal i _ hi h2, rd2_of_IsMatrix _ hmx i _ hi h0,
    rd2_of_IsMatrix _ hmx i _ hi h1, rd2_of_IsMatrix _ hmx i _ hi h2, Option.some_bind,
    wr2_of_IsMatrix _ hneed i 0 _ hi h0, wr2_of_IsMatrix _ n1 i 1 _ hi h1,
    wr2_of_IsMatrix _ n2 i 2 _ hi h2]
  rw [set2_row need i _ _ _ (IsMatrix_row need hneed i hi).2]

theorem needLoopChk_from (allocation max_need : List (List Int)) (hal : IsMatrix allocation)
    (hmx : IsMatrix max_need) (n k : Nat) (hkn : k + n = NUM_PROCESSES)
    (need : List (List Int)) (hneed : IsMatrix need) :
    needLoopChk allocation max_need (List.range' k n) need
      = some (need.take k ++ (List.range' k n).map fun i =>
          (List.range NUM_RESOURCES).map fun j => idx2 max_need i j - idx2 allocation i j) := by
  induction n generalizing k need with
  | zero =>
    simp only [List.range'_zero, needLoopChk, List.map_nil, List.append_nil]
    rw [List.take_of_length_le (by rw [hneed.1]; omega)]
  | succ n ih =>
    have hk : k < NUM_PROCESSES := by omega
    have hk2 : k < need.length := by rw [hneed.1]; exact hk
    simp only [List.range'_succ, needLoopChk, List.map_cons]
    rw [needRowChk_eq allocation max_need hal hmx k hk need hneed, Option.some_bind,
      ih (k + 1) (by omega) _ (IsMatrix_set need hneed k _ (by simp))]
    rw [take_succ_set_row need k _ hk2]
    simp

theorem computeNeedChk_eq (allocation max_need : List (List Int)) (hal : IsMatrix allocation)
    (hmx : IsMatrix max_need) :
    computeNeedChk allocation max_need = some (computeNeed allocation max_need) := by
  unfold computeNeedChk computeNeed
  rw [List.range_eq_range', needLoopChk_from allocation max_need hal hmx NUM_PROCESSES 0
    (by omega) zeroMatrix (by decide)]
  simp

theorem initWorkChk_eq (available : List Int) (hav : available.length = NUM_RESOURCES) :
    initWorkChk available = some (initWork available) := by
  obtain ⟨a, b, c, rfl⟩ := List.length_eq_three.mp hav
  rfl

theorem printLoopChk_eq (work : List Int) (ks : List Nat) (hks : ∀ k ∈ ks, k < work.length) :
    printLoopChk work ks = some () := by
  induction ks with
  | nil => rfl
  | cons k ks ih =>
    unfold printLoopChk
    rw [rd_of_lt work k 0 (hks k (List.mem_cons_self _ _)), Option.some_bind]
    exact ih (fun q hq => hks q (List.mem_cons_of_mem _ hq))

theorem displayMatrixChk_eq (matrix : List (List Int)) (hm : IsMatrix matrix) (rows : List Nat)
    (hrows : ∀ i ∈ rows, i < NUM_PROCESSES) : displayMatrixChk matrix rows = some () := by
  induction rows with
  | nil => rfl
  | cons i rows ih =>
    have hi := hrows i (List.mem_cons_self _ _)
    have h0 : (0 : Nat) < NUM_RESOURCES := by decide
    have h1 : (1 : Nat) < NUM_RESOURCES := by decide
    have h2 : (2 : Nat) < NUM_RESOURCES := by decide
    unfold displayMatrixChk
    have : (List.range NUM_RESOURCES) = [0, 1, 2] := by decide
    rw [this]
    simp only [List.foldl_cons, List.foldl_nil, Option.some_bind,
      rd2_of_IsMatrix matrix hm i _ hi h0, rd2_of_IsMatrix matrix hm i _ hi h1,
      rd2_of_IsMatrix matrix hm i _ hi h2]
    exact ih (fun q hq => hrows q (List.mem_cons_of_mem _ hq))

theorem canRunLoopChk_eq (need : List (List Int)) (hneed : IsMatrix need) (work : List Int)
    (hwork : work.length = NUM_RESOURCES) (p : Nat) (hp : p < NUM_PROCESSES) (js : List Nat)
    (hjs : ∀ j ∈ js, j < NUM_RESOURCES) :
    canRunLoopChk need work p js = some (canRunLoop need work p js) := by
  induction js with
  | nil => rfl
  | cons j js ih =>
    have hj := hjs j (List.mem_cons_self _ _)
    unfold canRunLoopChk canRunLoop
    rw [rd2_of_IsMatrix need hneed p j hp hj, Option.some_bind,
      rd_of_lt work j 0 (by omega), Option.some_bind,
      ih (fun q hq => hjs q (List.mem_cons_of_mem _ hq)), Option.some_bind]
    show (if idx2 need p j > idx work j then _ else _) = _
    split <;> rfl

theorem releaseLoopChk_eq (allocation : List (List Int)) (hal : IsMatrix allocation) (p : Nat)
    (hp : p < NUM_PROCESSES) (ks : List Nat) (hks : ∀ k ∈ ks, k < NUM_RESOURCES)
    (work : List Int) (hwork : work.length = NUM_RESOURCES) :
    releaseLoopChk allocation p ks work = some (releaseLoop allocation p ks work) := by
  induction ks generalizing work with
  | nil => rfl
  | cons k ks ih =>
    have hk := hks k (List.mem_cons_self _ _)
    unfold releaseLoopChk releaseLoop
    rw [rd_of_lt work k 0 (by omega), Option.some_bind,
      rd2_of_IsMatrix allocation hal p k hp hk, Option.some_bind,
      wr_of_lt work k _ (by omega), Option.some_bind]
    exact ih (fun q hq => hks q (List.mem_cons_of_mem _ hq)) _
      (by rw [List.length_set]; exact hwork)

theorem forBodyChk_eq (allocation max_need : List (List Int)) (available sq : List Int)
    (hal : IsMatrix allocation) (hsq : NUM_PROCESSES ≤ sq.length)
    (st : State) (L : List Nat) (p : Nat) (hp : p < NUM_PROCESSES)
    (hinv : Inv allocation max_need available st L) (hb : BufInv sq st L) :
    forBodyChk allocation (computeNeed allocation max_need) st p
      = some (forBody allocation (computeNeed allocation max_need) st p) := by
  have hneed := IsMatrix_computeNeed allocation max_need
  have hr3 : ∀ k ∈ List.range NUM_RESOURCES, k < NUM_RESOURCES := range_lt _
  unfold forBodyChk
  rw [rd_of_lt st.finish p false (by rw [hinv.fin_len]; exact hp), Option.some_bind,
    canRunLoopChk_eq _ hneed st.work hinv.work_len p hp _ hr3, Option.some_bind]
  by_cases hf : st.finish.getD p false = true
  · rw [if_pos hf]
    unfold forBody
    rw [if_pos hf]
  · rw [if_neg hf]
    have hf2 : st.finish.getD p false = false := by simpa using hf
    by_cases hc : (canRunLoop (computeNeed allocation max_need) st.work p
        (List.range NUM_RESOURCES)).1 = true
    · have hr : runs (computeNeed allocation max_need) st p = true := by
        unfold runs
        rw [hf2, hc]
        rfl
      have h2 := Inv_forBody allocation max_need available st L p hp hinv
      unfold sched at h2
      rw [if_pos hr] at h2
      have hL := length_le_of_nodup_of_lt _ NUM_PROCESSES h2.nodup h2.lt
      simp only [List.length_append, List.length_singleton] at hL
      have hsi := hinv.sidx
      have hlen := hb.len
      rw [if_pos hc, forBody_of_runs _ _ _ _ hr,
        printLoopChk_eq st.work _ (by rw [hinv.work_len]; exact hr3), Option.some_bind,
        releaseLoopChk_eq allocation hal p hp _ hr3 st.work hinv.work_len, Option.some_bind,
        printLoopChk_eq _ _ (by rw [releaseLoop_length, hinv.work_len]; exact hr3),
        Option.some_bind, wr_of_lt st.safeSequence st.safeIndex _ (by omega), Option.some_bind,
        wr_of_lt st.finish p true (by rw [hinv.fin_len]; exact hp), Option.some_bind]
    · rw [if_neg hc]
      unfold forBody
      rw [if_neg hf]
      simp only [hc]
      rfl

theorem forLoopChk_eq (allocation max_need : List (List Int)) (available sq : List Int)
    (hal : IsMatrix allocation) (hsq : NUM_PROCESSES ≤ sq.length)
    (ps : List Nat) (hps : ∀ p ∈ ps, p < NUM_PROCESSES) (st : State) (L : List Nat)
    (hinv : Inv allocation max_need available st L) (hb : BufInv sq st L) :
    forLoopChk allocation (computeNeed allocation max_need) ps st
      = some (forLoop allocation (computeNeed allocation max_need) ps st) := by
  induction ps generalizing st L with
  | nil => rfl
  | cons p ps ih =>
    have hp := hps p (List.mem_cons_self _ _)
    unfold forLoopChk forLoop
    rw [forBodyChk_eq allocation max_need available sq hal hsq st L p hp hinv hb,
      Option.some_bind]
    exact ih (fun q hq => hps q (List.mem_cons_of_mem _ hq)) _ _
      (Inv_forBody _ _ _ _ _ _ hp hinv) (BufInv_forBody _ _ _ _ _ _ _ hp hsq hinv hb)

theorem passChk_eq (allocation max_need : List (List Int)) (available sq : List Int)
    (hal : IsMatrix allocation) (hsq : NUM_PROCESSES ≤ sq.length)
    (st : State) (L : List Nat)
    (hinv : Inv allocation max_need available st L) (hb : BufInv sq st L) :
    passChk allocation (computeNeed allocation max_need) st
      = some (pass allocation (computeNeed allocation max_need) st) := by
  have h1 : Inv allocation max_need available { st with found := false, cmps := 0 } L :=
    Inv_congr hinv _ rfl rfl rfl rfl
  have hb1 : BufInv sq { st with found := false, cmps := 0 } L := BufInv_congr hb _ rfl
  unfold passChk pass
  rw [forLoopChk_eq allocation max_need available sq hal hsq _ (range_lt _)
    { st with found := false, cmps := 0 } L h1 hb1, Option.some_bind]

theorem whileLoopChk_eq (allocation max_need : List (List Int)) (available sq : List Int)
    (hal : IsMatrix allocation) (hsq : NUM_PROCESSES ≤ sq.length)
    (fuel : Nat) (st : State) (L : List Nat)
    (hinv : Inv allocation max_need available st L) (hb : BufInv sq st L) :
    whileLoopChk allocation (computeNeed allocation max_need) fuel st
      = some (whileLoop allocation (computeNeed allocation max_need) fuel st) := by
  induction fuel generalizing st L with
  | zero =>
    unfold whileLoopChk whileLoop
    split <;> rfl
  | succ fuel ih =>
    unfold whileLoopChk whileLoop
    split
    · rw [passChk_eq allocation max_need available sq hal hsq st L hinv hb, Option.some_bind]
      split
      · exact ih _ _ (Inv_pass _ _ _ _ _ hinv) (BufInv_pass _ _ _ _ hsq _ _ hinv hb)
      · rfl
    · rfl

/-- C17. Index safety: when `allocation` and `max_need` have 5 rows of 3 entries,
`available` has 3 entries and `safeSequence` has at least 5, no vector access of
`isSafeState` is out of bounds: the run with a bounds check on every access never
fails and computes what the run without checks computes.  In particular, at every
loop boundary of the run, `safeIndex` is the number of processes marked finished,
and whenever an unfinished process `p` is about to be scheduled the index of the
write `safeSequence[safeIndex++] = p` is below 5. -/
theorem C17_index_safety (fuel : Nat) (allocation max_need : List (List Int))
    (available safeSequence : List Int)
    (hal : IsMatrix allocation) (hmx : IsMatrix max_need)
    (hav : available.length = NUM_RESOURCES) (hbuf : NUM_PROCESSES ≤ safeSequence.length) :
    isSafeStateChk fuel allocation max_need available safeSequence
        = some (isSafeState fuel allocation max_need available safeSequence) ∧
      ∀ st ∈ trace fuel allocation max_need available safeSequence,
        st.safeIndex = st.finish.count true ∧
        ∀ p, p < NUM_PROCESSES → runs (computeNeed allocation max_need) st p = true →
          st.finish.getD p false = false ∧ st.safeIndex < NUM_PROCESSES ∧
            st.safeIndex < st.safeSequence.length := by
  constructor
  · unfold isSafeStateChk isSafeState
    rw [computeNeedChk_eq allocation max_need hal hmx, Option.some_bind,
      displayMatrixChk_eq _ (IsMatrix_computeNeed allocation max_need) _ (range_lt _),
      Option.some_bind, initWorkChk_eq available hav, Option.some_bind]
    exact whileLoopChk_eq allocation max_need available safeSequence hal hbuf fuel _ []
      (Inv_initState _ _ _ _) (BufInv_initState _ _)
  · intro st hst
    obtain ⟨L, hinv, hb⟩ := whileTrace_inv allocation max_need available safeSequence hbuf fuel
      _ [] (Inv_initState _ _ _ _) (BufInv_initState _ _) st hst
    refine ⟨by rw [hinv.sidx, hinv.fin_count], fun p hp hr => ?_⟩
    have h2 := Inv_forBody allocation max_need available st L p hp hinv
    unfold sched at h2
    rw [if_pos hr] at h2
    have hL := length_le_of_nodup_of_lt _ NUM_PROCESSES h2.nodup h2.lt
    simp only [List.length_append, List.length_singleton] at hL
    have hsi := hinv.sidx
    have hlen := hb.len
    exact ⟨((runs_iff allocation max_need st p hp).mp hr).1, by omega, by omega⟩

/-- Witness for C17: scenario A with the buffer of `main`. -/
theorem C17_index_safety_witness :
    IsMatrix allocA ∧ IsMatrix maxA ∧ ([3, 3, 2] : List Int).length = NUM_RESOURCES ∧
    NUM_PROCESSES ≤ mainBuffer.length ∧
    isSafeStateChk 5 allocA maxA [3, 3, 2] mainBuffer
        = some (isSafeState 5 allocA maxA [3, 3, 2] mainBuffer) ∧
      ∀ st ∈ trace 5 allocA maxA [3, 3, 2] mainBuffer,
        st.safeIndex = st.finish.count true ∧
        ∀ p, p < NUM_PROCESSES → runs (computeNeed allocA maxA) st p = true →
          st.finish.getD p false = false ∧ st.safeIndex < NUM_PROCESSES ∧
            st.safeIndex < st.safeSequence.length :=
  ⟨by decide, by decide, by decide, by decide,
    C17_index_safety 5 allocA maxA [3, 3, 2] mainBuffer (by decide) (by decide) (by decide)
      (by decide)⟩

/-! ## The run in 32-bit arithmetic -/

theorem wrap32_eq (x : Int) (h1 : INT_MIN ≤ x) (h2 : x ≤ INT_MAX) : wrap32 x = x := by
  unfold wrap32
  unfold INT_MIN at h1
  unfold INT_MAX at h2
  omega

theorem computeNeed32_eq (allocation max_need : List (List Int)) (available : List Int)
    (hpre : Precondition allocation max_need available)
    (hmax : ∀ i, i < NUM_PROCESSES → ∀ j, j < NUM_RESOURCES → idx2 max_need i j ≤ INT_MAX) :
    computeNeed32 allocation max_need = computeNeed allocation max_need := by
  unfold computeNeed32 computeNeed
  apply List.map_congr_left
  intro i hi
  apply List.map_congr_left
  intro j hj
  have h1 := hpre.1 i (List.mem_range.mp hi) j (List.mem_range.mp hj)
  have h2 := hmax i (List.mem_range.mp hi) j (List.mem_range.mp hj)
  apply wrap32_eq
  · unfold INT_MIN; omega
  · omega

theorem WInv_congr {allocation : List (List Int)} {available : List Int}
    {st : State} {L : List Nat} (h : WInv allocation available st L) (st2 : State)
    (hw : st2.work = st.work) (hf : st2.finish = st.finish) (hc : st2.count = st.count) :
    WInv allocation available st2 L where
  work_len := by rw [hw]; exact h.work_len
  fin_len := by rw [hf]; exact h.fin_len
  nodup := h.nodup
  lt := h.lt
  fin := by rw [hf]; exact h.fin
  cnt := by rw [hc]; exact h.cnt
  work := by rw [hw]; exact h.work

theorem WInv_initState (allocation : List (List Int)) (available sq : List Int) :
    WInv allocation available (initState available sq) [] where
  work_len := by simp [initState, initWork]
  fin_len := by simp [initState]
  nodup := List.nodup_nil
  lt := by simp
  fin := by
    intro p
    simp only [initState, List.getD_eq_getElem?_getD, List.getElem?_replicate]
    split <;> simp
  cnt := rfl
  work := by
    intro j hj
    simp [initState, idx_initWork available j hj, workAfter]

theorem finish_false_of_runs (need : List (List Int)) (st : State) (p : Nat)
    (h : runs need st p = true) : st.finish.getD p false = false := by
  unfold runs at h
  simp only [Bool.and_eq_true, Bool.not_eq_true'] at h
  exact h.1

/-- One iteration of the `for` loop in exact arithmetic keeps the invariant, whatever
the need matrix: the process is appended to `L` when it is scheduled. -/
theorem WInv_forBody (allocation need : List (List Int)) (available : List Int)
    (st : State) (L : List Nat) (p : Nat) (hp : p < NUM_PROCESSES)
    (h : WInv allocation available st L) :
    WInv allocation available (forBody allocation need st p)
      (if runs need st p then L ++ [p] else L) := by
  by_cases hr : runs need st p = true
  · rw [if_pos hr, forBody_of_runs _ _ _ _ hr]
    have hfin := finish_false_of_runs need st p hr
    have hpL : p ∉ L := by
      intro hmem
      have := (h.fin p).mpr hmem
      rw [hfin] at this
      cases this
    have hplen : p < st.finish.length := by rw [h.fin_len]; exact hp
    constructor
    · simp only [releaseLoop_length]; exact h.work_len
    · simp only [List.length_set]; exact h.fin_len
    · exact List.Nodup.append h.nodup (List.nodup_singleton p) (by simpa using hpL)
    · intro q hq
      rcases List.mem_append.mp hq with hq | hq
      · exact h.lt q hq
      · rw [List.mem_singleton.mp hq]; exact hp
    · intro q
      simp only [getD_set_bool, List.mem_append, List.mem_singleton]
      by_cases hqp : p = q
      · subst hqp
        simp [hplen]
      · have hqp2 : ¬ q = p := fun e => hqp e.symm
        simp only [hqp, false_and, if_false, hqp2, or_false]
        exact h.fin q
    · simp only [List.length_append, List.length_singleton, h.cnt]
    · intro j hj
      simp only []
      rw [idx_release allocation p st.work h.work_len j hj, workAfter_append, h.work j hj]
  · have hr0 : runs need st p = false := by simpa using hr
    rw [if_neg hr]
    obtain ⟨c, _, hc⟩ := forBody_of_not_runs allocation need st p hr0
    rw [hc]
    exact WInv_congr h _ rfl rfl rfl

/-- Under the resource bound the work vector stays between `available` and
`available` plus the column total, so every entry is an `int`. -/
theorem WInv_work_bound (allocation : List (List Int)) (available : List Int)
    (hb : WorkBound allocation available) (st : State) (L : List Nat)
    (h : WInv allocation available st L) (j : Nat) (hj : j < NUM_RESOURCES) :
    idx available j ≤ idx st.work j ∧
      idx st.work j ≤ idx available j + colTotal allocation j := by
  rw [h.work j hj]
  constructor
  · exact le_workAfter allocation available L j (fun q hq => hb.1 q (h.lt q hq) j hj)
  · exact workAfter_mono allocation available L (List.range NUM_PROCESSES) j h.nodup
      (List.nodup_range _) (fun p hp => List.mem_range.mpr (h.lt p hp))
      (fun p hp => hb.1 p (List.mem_range.mp hp) j hj)

theorem releaseLoop32_eq (allocation : List (List Int)) (p : Nat) (ks : List Nat)
    (work : List Int) (hnd : ks.Nodup)
    (hin : ∀ k ∈ ks, wrap32 (idx work k + idx2 allocation p k) = idx work k + idx2 allocation p k) :
    releaseLoop32 allocation p ks work = releaseLoop allocation p ks work := by
  induction ks generalizing work with
  | nil => rfl
  | cons k ks ih =>
    have hnd2 := List.nodup_cons.mp hnd
    unfold releaseLoop32 releaseLoop
    rw [hin k (List.mem_cons_self _ _)]
    apply ih _ hnd2.2
    intro q hq
    have hqk : ¬ (k = q ∧ k < work.length) := by
      rintro ⟨e, _⟩
      rw [e] at hnd2
      exact hnd2.1 hq
    rw [idx_set, if_neg hqk]
    exact hin q (List.mem_cons_of_mem _ hq)

/-- Under the resource bound one iteration of the `for` loop computes the same in
32-bit arithmetic as in exact arithmetic, whatever the need matrix. -/
theorem forBody32_eq (allocation need : List (List Int)) (available : List Int)
    (hb : WorkBound allocation available) (st : State) (L : List Nat) (p : Nat)
    (hp : p < NUM_PROCESSES) (h : WInv allocation available st L) :
    forBody32 allocation need st p = forBody allocation need st p := by
  unfold forBody32 forBody
  by_cases hr : runs need st p = true
  · have h2 := WInv_forBody allocation need available st L p hp h
    rw [if_pos hr, forBody_of_runs _ _ _ _ hr] at h2
    have hrel : releaseLoop32 allocation p (List.range NUM_RESOURCES) st.work
        = releaseLoop allocation p (List.range NUM_RESOURCES) st.work := by
      apply releaseLoop32_eq _ _ _ _ (List.nodup_range _)
      intro k hk
      have hk3 := List.mem_range.mp hk
      have hbd := WInv_work_bound allocation available hb _ _ h2 k hk3
      simp only [] at hbd
      rw [idx_release allocation p st.work h.work_len k hk3] at hbd
      have hav := hb.2 k hk3
      exact wrap32_eq _ (by omega) (by omega)
    rw [hrel]
  · have hr0 : runs need st p = false := by simpa using hr
    unfold runs at hr0
    by_cases hf : st.finish.getD p false = true
    · rw [if_pos hf, if_pos hf]
    · rw [if_neg hf, if_neg hf]
      have hf2 : st.finish.getD p false = false := by simpa using hf
      rw [hf2] at hr0
      have hc : (canRunLoop need st.work p (List.range NUM_RESOURCES)).1 = false := by
        simpa using hr0
      simp only [hc]
      rfl

theorem forLoop32_eq (allocation need : List (List Int)) (available : List Int)
    (hb : WorkBound allocation available) (ps : List Nat)
    (hps : ∀ p ∈ ps, p < NUM_PROCESSES) (st : State) (L : List Nat)
    (h : WInv allocation available st L) :
    forLoop32 allocation need ps st = forLoop allocation need ps st ∧
      ∃ L2, WInv allocation available (forLoop allocation need ps st) L2 := by
  induction ps generalizing st L with
  | nil => exact ⟨rfl, L, h⟩
  | cons p ps ih =>
    have hp := hps p (List.mem_cons_self _ _)
    unfold forLoop32 forLoop
    rw [forBody32_eq allocation need available hb st L p hp h]
    exact ih (fun q hq => hps q (List.mem_cons_of_mem _ hq)) _ _
      (WInv_forBody allocation need available st L p hp h)

theorem pass32_eq (allocation need : List (List Int)) (available : List Int)
    (hb : WorkBound allocation available) (st : State) (L : List Nat)
    (h : WInv allocation available st L) :
    pass32 allocation need st = pass allocation need st ∧
      ∃ L2, WInv allocation available (pass allocation need st) L2 := by
  have h1 : WInv allocation available { st with found := false, cmps := 0 } L :=
    WInv_congr h _ rfl rfl rfl
  obtain ⟨e, L2, h2⟩ := forLoop32_eq allocation need available hb (List.range NUM_PROCESSES)
    (range_lt _) { st with found := false, cmps := 0 } L h1
  have e1 := pass_fields allocation need st
  refine ⟨?_, L2, WInv_congr h2 (pass allocation need st) e1.1 e1.2.1 e1.2.2.2.2.1⟩
  unfold pass32 pass
  simp only [e]

theorem whileLoop32_eq (allocation need : List (List Int)) (available : List Int)
    (hb : WorkBound allocation available) (fuel : Nat) (st : State) (L : List Nat)
    (h : WInv allocation available st L) :
    whileLoop32 allocation need fuel st = whileLoop allocation need fuel st := by
  induction fuel generalizing st L with
  | zero =>
    unfold whileLoop32 whileLoop
    rfl
  | succ fuel ih =>
    obtain ⟨e, L2, h2⟩ := pass32_eq allocation need available hb st L h
    unfold whileLoop32 whileLoop
    rw [e]
    split
    · split
      · exact ih _ _ h2
      · rfl
    · rfl

theorem forTrace32_eq (allocation need : List (List Int)) (available : List Int)
    (hb : WorkBound allocation available) (ps : List Nat)
    (hps : ∀ p ∈ ps, p < NUM_PROCESSES) (st : State) (L : List Nat)
    (h : WInv allocation available st L) :
    forTrace32 allocation need ps st = forTrace allocation need ps st := by
  induction ps generalizing st L with
  | nil => rfl
  | cons p ps ih =>
    have hp := hps p (List.mem_cons_self _ _)
    unfold forTrace32 forTrace
    rw [forBody32_eq allocation need available hb st L p hp h]
    rw [ih (fun q hq => hps q (List.mem_cons_of_mem _ hq)) _ _
      (WInv_forBody allocation need available st L p hp h)]

theorem whileTrace32_eq (allocation need : List (List Int)) (available : List Int)
    (hb : WorkBound allocation available) (fuel : Nat) (st : State) (L : List Nat)
    (h : WInv allocation available st L) :
    whileTrace32 allocation need fuel st = whileTrace allocation need fuel st := by
  induction fuel generalizing st L with
  | zero => rfl
  | succ fuel ih =>
    have h1 : WInv allocation available { st with found := false, cmps := 0 } L :=
      WInv_congr h _ rfl rfl rfl
    obtain ⟨e, L2, h2⟩ := pass32_eq allocation need available hb st L h
    unfold whileTrace32 whileTrace
    rw [e, forTrace32_eq allocation need available hb _ (range_lt _) _ L h1, ih _ _ h2]

theorem WorkBound_of_precondition (allocation max_need : List (List Int))
    (available : List Int) (hpre : Precondition allocation max_need available)
    (hbound : ∀ j, j < NUM_RESOURCES → idx available j + colTotal allocation j ≤ INT_MAX) :
    WorkBound allocation available := by
  refine ⟨fun i hi j hj => (hpre.1 i hi j hj).1, fun j hj => ⟨?_, hbound j hj⟩⟩
  have := hpre.2 j hj
  unfold INT_MIN
  omega

/-- Under the preconditions and the resource bound, with `max_need` entries that are
`int`s, the run in 32-bit arithmetic is the run in exact arithmetic. -/
theorem isSafeState32_eq (fuel : Nat) (allocation max_need : List (List Int))
    (available sq : List Int) (hpre : Precondition allocation max_need available)
    (hmax : ∀ i, i < NUM_PROCESSES → ∀ j, j < NUM_RESOURCES → idx2 max_need i j ≤ INT_MAX)
    (hbound : ∀ j, j < NUM_RESOURCES → idx available j + colTotal allocation j ≤ INT_MAX) :
    isSafeState32 fuel allocation max_need available sq
      = isSafeState fuel allocation max_need available sq := by
  unfold isSafeState32 isSafeState
  rw [computeNeed32_eq allocation max_need available hpre hmax]
  exact whileLoop32_eq allocation _ available
    (WorkBound_of_precondition allocation max_need available hpre hbound) fuel _ []
    (WInv_initState allocation available sq)

/-! ## Verdict correctness in 32-bit arithmetic -/

/-- C2, as stated, fails on the code in 32-bit arithmetic: `allocX`, `maxX` and
`available = [2147483647, 0, 0]` satisfy the preconditions and `0, 1, 2, 3, 4` is a
safe ordering, but once process 0 has released its unit the addition of line 116
wraps `work[0]` around to `-2147483648`, every later need test fails, and
`isSafeState` returns `false`. -/
theorem C2_counterexample :
    Precondition allocX maxX [2147483647, 0, 0] ∧
    SafeOrdering allocX maxX [2147483647, 0, 0] [0, 1, 2, 3, 4] ∧
    isSafeState32 5 allocX maxX [2147483647, 0, 0] mainBuffer = some (false, finalX) := by
  decide

/-- C2, amended. Verdict correctness: on an input that satisfies the preconditions,
whose `max_need` entries are `int`s, and in which for each resource `available[j]`
plus the column total of `allocation` is at most `2^31 - 1`, `isSafeState` in 32-bit
arithmetic returns, and it returns `true` if and only if a safe ordering exists: a
permutation `s` of `0..4` with, for every `k` and every resource `j`,
`Need[s(k)][j] <= available[j] + sum over i<k of allocation[s(i)][j]`. -/
theorem C2_verdict_correctness (fuel : Nat) (allocation max_need : List (List Int))
    (available safeSequence : List Int) (hfuel : NUM_PROCESSES ≤ fuel)
    (hpre : Precondition allocation max_need available)
    (hmax : ∀ i, i < NUM_PROCESSES → ∀ j, j < NUM_RESOURCES → idx2 max_need i j ≤ INT_MAX)
    (hbound : ∀ j, j < NUM_RESOURCES → idx available j + colTotal allocation j ≤ INT_MAX) :
    ∃ b st, isSafeState32 fuel allocation max_need available safeSequence = some (b, st) ∧
      (b = true ↔ ∃ s : List Nat, s.Perm (List.range NUM_PROCESSES) ∧
        ∀ k, k < NUM_PROCESSES → ∀ j, j < NUM_RESOURCES →
          idx2 max_need (s.getD k 0) j - idx2 allocation (s.getD k 0) j
            ≤ idx available j + ((s.take k).map fun p => idx2 allocation p j).sum) := by
  obtain ⟨b, st, h⟩ := isSafeState_terminates fuel hfuel allocation max_need available safeSequence
  refine ⟨b, st, ?_, ?_⟩
  · rw [isSafeState32_eq fuel allocation max_need available safeSequence hpre hmax hbound]
    exact h
  · rw [isSafeState_verdict_iff fuel allocation max_need available safeSequence b st
      (fun i hi j hj => (hpre.1 i hi j hj).1) h]
    constructor
    · rintro ⟨s, hperm, hcomp⟩
      have hslen : s.length = NUM_PROCESSES := by simpa using hperm.length_eq
      exact ⟨s, hperm, fun k hk j hj => hcomp k (by omega) j hj⟩
    · rintro ⟨s, hperm, hcomp⟩
      have hslen : s.length = NUM_PROCESSES := by simpa using hperm.length_eq
      exact ⟨s, hperm, fun k hk j hj => hcomp k (by omega) j hj⟩

/-- Witness for C2 as amended: scenario A. -/
theorem C2_verdict_correctness_witness :
    NUM_PROCESSES ≤ 5 ∧ Precondition allocA maxA [3, 3, 2] ∧
    (∀ i, i < NUM_PROCESSES → ∀ j, j < NUM_RESOURCES → idx2 maxA i j ≤ INT_MAX) ∧
    (∀ j, j < NUM_RESOURCES → idx [3, 3, 2] j + colTotal allocA j ≤ INT_MAX) ∧
    ∃ b st, isSafeState32 5 allocA maxA [3, 3, 2] mainBuffer = some (b, st) ∧
      (b = true ↔ ∃ s : List Nat, s.Perm (List.range NUM_PROCESSES) ∧
        ∀ k, k < NUM_PROCESSES → ∀ j, j < NUM_RESOURCES →
          idx2 maxA (s.getD k 0) j - idx2 allocA (s.getD k 0) j
            ≤ idx [3, 3, 2] j + ((s.take k).map fun p => idx2 allocA p j).sum) :=
  ⟨by decide, by decide, by decide, by decide,
    C2_verdict_correctness 5 allocA maxA [3, 3, 2] mainBuffer (by decide) (by decide)
      (by decide) (by decide)⟩

/-! ## Scenario C in 32-bit arithmetic -/

/-- C6, as stated, fails on the code in 32-bit arithmetic: with
`allocation = max_need = allocX` every need is zero and
`available = [2147483647, 2147483647, 2147483647]` exceeds the total need, but after
process 0 the addition of line 116 wraps `work[0]` around to `-2147483648`, process 1
fails the test `0 > work[0]`, and `isSafeState` returns `false` with one process
finished. -/
theorem C6_counterexample :
    Precondition allocX allocX [2147483647, 2147483647, 2147483647] ∧
    (∀ j, j < NUM_RESOURCES →
      totalNeed allocX allocX < idx [2147483647, 2147483647, 2147483647] j) ∧
    isSafeState32 5 allocX allocX [2147483647, 2147483647, 2147483647] mainBuffer
      = some (false, finalX2) ∧
    finalX2.count = 1 := by
  decide

theorem idx2_le_colTotal (allocation : List (List Int))
    (hnn : ∀ i, i < NUM_PROCESSES → ∀ j, j < NUM_RESOURCES → 0 ≤ idx2 allocation i j)
    (p j : Nat) (hp : p < NUM_PROCESSES) (hj : j < NUM_RESOURCES) :
    idx2 allocation p j ≤ colTotal allocation j := by
  unfold colTotal
  apply List.single_le_sum
  · intro x hx
    obtain ⟨i, hi, rfl⟩ := List.mem_map.mp hx
    exact hnn i (List.mem_range.mp hi) j hj
  · exact List.mem_map.mpr ⟨p, List.mem_range.mpr hp, rfl⟩

/-- C6, amended. Scenario C: on an input that satisfies the preconditions, in which
every `available[j]` exceeds the sum of all need entries and for each resource
`available[j]` plus the column total of `allocation` is at most `2^31 - 1`,
`isSafeState` in 32-bit arithmetic returns `true` after a single pass in which all
five processes are scheduled, and the five entries of `safeSequence` are
`[0, 1, 2, 3, 4]`. -/
theorem C6_scenario_C (fuel : Nat) (allocation max_need : List (List Int))
    (available safeSequence : List Int)
    (hfuel : NUM_PROCESSES ≤ fuel) (hbuf : NUM_PROCESSES ≤ safeSequence.length)
    (hpre : Precondition allocation max_need available)
    (hbig : ∀ j, j < NUM_RESOURCES → totalNeed allocation max_need < idx available j)
    (hbound : ∀ j, j < NUM_RESOURCES → idx available j + colTotal allocation j ≤ INT_MAX) :
    ∃ st, isSafeState32 fuel allocation max_need available safeSequence = some (true, st) ∧
      st.passCmps.length = 1 ∧ st.count = NUM_PROCESSES ∧
      st.safeSequence.take NUM_PROCESSES = [0, 1, 2, 3, 4] := by
  have hmax : ∀ i, i < NUM_PROCESSES → ∀ j, j < NUM_RESOURCES →
      idx2 max_need i j ≤ INT_MAX := by
    intro i hi j hj
    have h1 := needOf_le_totalNeed allocation max_need available hpre i j hi hj
    have h2 := hbig j hj
    have h3 := hbound j hj
    have h4 := idx2_le_colTotal allocation (fun a ha b hb => (hpre.1 a ha b hb).1) i j hi hj
    unfold needOf at h1
    omega
  rw [isSafeState32_eq fuel allocation max_need available safeSequence hpre hmax hbound]
  exact scenarioC_exact fuel allocation max_need available safeSequence hfuel hbuf hpre hbig

/-- Witness for C6 as amended: the matrices of scenario A, whose needs add up to 35,
with 36 units available of every resource. -/
theorem C6_scenario_C_witness :
    NUM_PROCESSES ≤ 5 ∧ NUM_PROCESSES ≤ mainBuffer.length ∧
    Precondition allocA maxA [36, 36, 36] ∧
    (∀ j, j < NUM_RESOURCES → totalNeed allocA maxA < idx [36, 36, 36] j) ∧
    (∀ j, j < NUM_RESOURCES → idx [36, 36, 36] j + colTotal allocA j ≤ INT_MAX) ∧
    ∃ st, isSafeState32 5 allocA maxA [36, 36, 36] mainBuffer = some (true, st) ∧
      st.passCmps.length = 1 ∧ st.count = NUM_PROCESSES ∧
      st.safeSequence.take NUM_PROCESSES = [0, 1, 2, 3, 4] :=
  ⟨by decide, by decide, by decide, by decide, by decide,
    C6_scenario_C 5 allocA maxA [36, 36, 36] mainBuffer (by decide) (by decide) (by decide)
      (by decide) (by decide)⟩

/-! ## Pass structure equivalence in 32-bit arithmetic -/

/-- C16, as stated, fails on the code in 32-bit arithmetic: on `allocX`, `maxX` and
`available = [2147483647, 0, 0]`, which satisfy the preconditions, the two-step pass of
the specification finds the state safe while `isSafeState` returns `false`, because
the addition of line 116 wraps `work[0]` around after process 0. -/
theorem C16_counterexample :
    Precondition allocX maxX [2147483647, 0, 0] ∧
    check_safety 5 allocX maxX [2147483647, 0, 0] = some (true, [0, 1, 2, 3, 4]) ∧
    isSafeState32 5 allocX maxX [2147483647, 0, 0] mainBuffer = some (false, finalX) := by
  decide

/-- C16, amended. Pass structure equivalence: on an input that satisfies the
preconditions, whose `max_need` entries are `int`s, and in which for each resource
`available[j]` plus the column total of `allocation` is at most `2^31 - 1`,
`isSafeState` in 32-bit arithmetic, which releases the allocation of a process into
Work as soon as the scan finds it executable, and the algorithm of the specification,
whose pass first marks every unfinished process whose need is covered by the Work
held at the start of the pass and only then finishes the marked processes in
increasing index order, stopping as unsafe on a pass that marks none, both return,
and return the same verdict. -/
theorem C16_pass_structure_equivalence (fuel : Nat) (allocation max_need : List (List Int))
    (available safeSequence : List Int) (hfuel : NUM_PROCESSES ≤ fuel)
    (hpre : Precondition allocation max_need available)
    (hmax : ∀ i, i < NUM_PROCESSES → ∀ j, j < NUM_RESOURCES → idx2 max_need i j ≤ INT_MAX)
    (hbound : ∀ j, j < NUM_RESOURCES → idx available j + colTotal allocation j ≤ INT_MAX) :
    ∃ b st seq, isSafeState32 fuel allocation max_need available safeSequence = some (b, st) ∧
      check_safety fuel allocation max_need available = some (b, seq) := by
  have hnn : ∀ i, i < NUM_PROCESSES → ∀ j, j < NUM_RESOURCES → 0 ≤ idx2 allocation i j :=
    fun i hi j hj => (hpre.1 i hi j hj).1
  obtain ⟨b, st, h⟩ := isSafeState_terminates fuel hfuel allocation max_need available
    safeSequence
  have h0 := SpecInv_init allocation max_need available
  obtain ⟨⟨b2, seq⟩, h2⟩ := specLoop_terminates allocation max_need available hnn fuel _ h0
    (by simp only [List.length_nil]; omega)
  have e1 := isSafeState_verdict_iff fuel allocation max_need available safeSequence b st hnn h
  have e2 := specLoop_verdict_iff allocation max_need available hnn fuel _ b2 seq h0 h2
  have hb : b2 = b := by
    cases b <;> cases b2 <;> simp_all
  refine ⟨b, st, seq, ?_, ?_⟩
  · rw [isSafeState32_eq fuel allocation max_need available safeSequence hpre hmax hbound]
    exact h
  · unfold check_safety
    rw [h2, hb]

/-- Witness for C16 as amended: scenario A, where the code schedules `1, 3, 4, 0, 2`
and the two-step pass schedules `1, 3, 0, 2, 4`. -/
theorem C16_pass_structure_equivalence_witness :
    NUM_PROCESSES ≤ 5 ∧ Precondition allocA maxA [3, 3, 2] ∧
    (∀ i, i < NUM_PROCESSES → ∀ j, j < NUM_RESOURCES → idx2 maxA i j ≤ INT_MAX) ∧
    (∀ j, j < NUM_RESOURCES → idx [3, 3, 2] j + colTotal allocA j ≤ INT_MAX) ∧
    check_safety 5 allocA maxA [3, 3, 2] = some (true, [1, 3, 0, 2, 4]) ∧
    ∃ b st seq, isSafeState32 5 allocA maxA [3, 3, 2] mainBuffer = some (b, st) ∧
      check_safety 5 allocA maxA [3, 3, 2] = some (b, seq) :=
  ⟨by decide, by decide, by decide, by decide, by decide,
    C16_pass_structure_equivalence 5 allocA maxA [3, 3, 2] mainBuffer (by decide) (by decide)
      (by decide) (by decide)⟩

/-! ## The work vector along the run in 32-bit arithmetic -/

theorem perm_finishedList (allocation : List (List Int)) (available : List Int)
    (st : State) (L : List Nat) (hinv : WInv allocation available st L) :
    L.Perm (finishedList st) := by
  refine (List.perm_ext_iff_of_nodup hinv.nodup ((List.nodup_range _).filter _)).mpr ?_
  intro p
  rw [List.mem_filter, List.mem_range]
  constructor
  · intro hp
    exact ⟨hinv.lt p hp, (hinv.fin p).mpr hp⟩
  · intro hp
    exact (hinv.fin p).mp hp.2

theorem work_eq_finished (allocation : List (List Int)) (available : List Int)
    (st : State) (L : List Nat) (hinv : WInv allocation available st L) :
    st.count = (finishedList st).length ∧
      ∀ j, j < NUM_RESOURCES →
        idx st.work j
          = idx available j + ((finishedList st).map fun p => idx2 allocation p j).sum := by
  have hperm := perm_finishedList allocation available st L hinv
  refine ⟨by rw [hinv.cnt]; exact hperm.length_eq, fun j hj => ?_⟩
  rw [hinv.work j hj]
  unfold workAfter
  rw [(hperm.map fun p => idx2 allocation p j).sum_eq]

theorem forTrace_winv (allocation need : List (List Int)) (available : List Int)
    (ps : List Nat) (hps : ∀ p ∈ ps, p < NUM_PROCESSES)
    (st : State) (L : List Nat) (hinv : WInv allocation available st L) :
    (∀ t ∈ forTrace allocation need ps st, ∃ L2, WInv allocation available t L2) ∧
      ∃ L2, WInv allocation available (forLoop allocation need ps st) L2 := by
  induction ps generalizing st L with
  | nil =>
    refine ⟨?_, L, hinv⟩
    intro t ht
    cases ht
  | cons p ps ih =>
    have h1 := WInv_forBody allocation need available st L p (hps p (List.mem_cons_self _ _)) hinv
    have h2 := ih (fun q hq => hps q (List.mem_cons_of_mem _ hq)) _ _ h1
    unfold forTrace forLoop
    refine ⟨?_, h2.2⟩
    intro t ht
    rcases List.mem_cons.mp ht with ht | ht
    · rw [ht]; exact ⟨_, h1⟩
    · exact h2.1 t ht

theorem WInv_pass (allocation need : List (List Int)) (available : List Int)
    (st : State) (L : List Nat) (hinv : WInv allocation available st L) :
    ∃ L2, WInv allocation available (pass allocation need st) L2 := by
  have h1 : WInv allocation available { st with found := false, cmps := 0 } L :=
    WInv_congr hinv _ rfl rfl rfl
  obtain ⟨L2, h2⟩ := (forTrace_winv allocation need available _ (range_lt _) _ L h1).2
  have e1 := pass_fields allocation need st
  exact ⟨L2, WInv_congr h2 (pass allocation need st) e1.1 e1.2.1 e1.2.2.2.2.1⟩

theorem whileTrace_winv (allocation need : List (List Int)) (available : List Int)
    (fuel : Nat) (st : State) (L : List Nat) (hinv : WInv allocation available st L) :
    ∀ t ∈ whileTrace allocation need fuel st, ∃ L2, WInv allocation available t L2 := by
  induction fuel generalizing st L with
  | zero =>
    intro t ht
    unfold whileTrace at ht
    rw [List.mem_singleton.mp ht]
    exact ⟨L, hinv⟩
  | succ fuel ih =>
    intro t ht
    unfold whileTrace at ht
    split at ht
    · have h1 : WInv allocation available { st with found := false, cmps := 0 } L :=
        WInv_congr hinv _ rfl rfl rfl
      obtain ⟨L2, hp⟩ := WInv_pass allocation need available st L hinv
      rcases List.mem_cons.mp ht with ht | ht
      · rw [ht]; exact ⟨L, hinv⟩
      rcases List.mem_cons.mp ht with ht | ht
      · rw [ht]; exact ⟨L, h1⟩
      rcases List.mem_append.mp ht with ht | ht
      · exact (forTrace_winv allocation need available _ (range_lt _) _ L h1).1 t ht
      · split at ht
        · exact ih _ _ hp t ht
        · rw [List.mem_singleton.mp ht]; exact ⟨_, hp⟩
    · rw [List.mem_singleton.mp ht]
      exact ⟨L, hinv⟩

theorem WorkLe_forBody (allocation need : List (List Int)) (available : List Int)
    (hnn : ∀ i, i < NUM_PROCESSES → ∀ j, j < NUM_RESOURCES → 0 ≤ idx2 allocation i j)
    (st : State) (L : List Nat) (p : Nat) (hp : p < NUM_PROCESSES)
    (hinv : WInv allocation available st L) :
    WorkLe st (forBody allocation need st p) := by
  intro j hj
  by_cases hr : runs need st p = true
  · rw [forBody_of_runs _ _ _ _ hr]
    simp only []
    rw [idx_release allocation p st.work hinv.work_len j hj]
    have := hnn p hp j hj
    omega
  · have hr0 : runs need st p = false := by simpa using hr
    obtain ⟨c, _, he⟩ := forBody_of_not_runs allocation need st p hr0
    rw [he]

theorem forTrace_chain (allocation need : List (List Int)) (available : List Int)
    (hnn : ∀ i, i < NUM_PROCESSES → ∀ j, j < NUM_RESOURCES → 0 ≤ idx2 allocation i j)
    (ps : List Nat) (hps : ∀ p ∈ ps, p < NUM_PROCESSES)
    (st : State) (L : List Nat) (hinv : WInv allocation available st L) (x : State)
    (hx : WorkLe (forLoop allocation need ps st) x) :
    List.Chain WorkLe st (forTrace allocation need ps st ++ [x]) := by
  induction ps generalizing st L with
  | nil =>
    unfold forTrace
    unfold forLoop at hx
    exact List.Chain.cons hx List.Chain.nil
  | cons p ps ih =>
    have hp := hps p (List.mem_cons_self _ _)
    have h1 := WInv_forBody allocation need available st L p hp hinv
    unfold forTrace
    unfold forLoop at hx
    exact List.Chain.cons (WorkLe_forBody allocation need available hnn st L p hp hinv)
      (ih (fun q hq => hps q (List.mem_cons_of_mem _ hq)) _ _ h1 hx)

theorem whileTrace_chain (allocation need : List (List Int)) (available : List Int)
    (hnn : ∀ i, i < NUM_PROCESSES → ∀ j, j < NUM_RESOURCES → 0 ≤ idx2 allocation i j)
    (fuel : Nat) (st : State) (L : List Nat) (hinv : WInv allocation available st L) :
    List.Chain' WorkLe (whileTrace allocation need fuel st) := by
  induction fuel generalizing st L with
  | zero =>
    unfold whileTrace
    exact List.chain'_singleton st
  | succ fuel ih =>
    unfold whileTrace
    split
    · have h1 : WInv allocation available { st with found := false, cmps := 0 } L :=
        WInv_congr hinv _ rfl rfl rfl
      obtain ⟨L2, hp⟩ := WInv_pass allocation need available st L hinv
      have hlast : WorkLe
          (forLoop allocation need (List.range NUM_PROCESSES)
            { st with found := false, cmps := 0 })
          (pass allocation need st) := by
        intro j _
        rw [(pass_fields allocation need st).1]
      have htail : ∃ rest,
          (if (pass allocation need st).found = true then
              whileTrace allocation need fuel (pass allocation need st)
            else [pass allocation need st])
            = pass allocation need st :: rest ∧
          List.Chain WorkLe (pass allocation need st) rest := by
        split
        · obtain ⟨rest, hrest⟩ := whileTrace_eq_cons allocation need fuel
            (pass allocation need st)
          have hc := ih _ _ hp
          rw [hrest] at hc
          exact ⟨rest, hrest, hc⟩
        · exact ⟨[], rfl, List.Chain.nil⟩
      obtain ⟨rest, hrest, hchain⟩ := htail
      rw [hrest]
      show List.Chain WorkLe st _
      refine List.Chain.cons (fun j _ => le_refl _) ?_
      exact List.chain_split.mpr
        ⟨forTrace_chain allocation need available hnn _ (range_lt _) _ L h1 _ hlast, hchain⟩
    · exact List.chain'_singleton st

theorem chain_rel_at {α : Type} (R : α → α → Prop) (l : List α) (h : List.Chain' R l)
    (i : Nat) (a b : α) (ha : l[i]? = some a) (hb : l[i + 1]? = some b) : R a b := by
  induction l generalizing i with
  | nil => simp at ha
  | cons x l ih =>
    cases l with
    | nil => simp at hb
    | cons y l =>
      cases i with
      | zero =>
        simp only [List.getElem?_cons_zero, Option.some.injEq, zero_add,
          List.getElem?_cons_succ] at ha hb
        rw [← ha, ← hb]
        exact h.rel_head
      | succ i =>
        simp only [List.getElem?_cons_succ] at ha hb
        exact ih h.tail i ha (by simpa using hb)

/-- C15, as stated, fails on the code in 32-bit arithmetic: `allocX` is non-negative,
but on `available = [2147483647, 0, 0]` the addition of line 116 wraps `work[0]`
around from `2147483647` to `-2147483648` when process 0 is scheduled, so the work
vector decreases from one loop boundary to the next and is not `available` plus the
released allocation. -/
theorem C15_counterexample :
    (∀ i, i < NUM_PROCESSES → ∀ j, j < NUM_RESOURCES → 0 ≤ idx2 allocX i j) ∧
    (trace32 5 allocX maxX [2147483647, 0, 0] mainBuffer)[1]? = some startX ∧
    (trace32 5 allocX maxX [2147483647, 0, 0] mainBuffer)[2]? = some afterX ∧
    idx afterX.work 0 < idx startX.work 0 ∧
    finishedList afterX = [0] ∧
    idx afterX.work 0
      ≠ idx [2147483647, 0, 0] 0 + ((finishedList afterX).map fun p => idx2 allocX p 0).sum ∧
    ¬ List.Chain' WorkLe (trace32 5 allocX maxX [2147483647, 0, 0] mainBuffer) := by
  have h1 : (trace32 5 allocX maxX [2147483647, 0, 0] mainBuffer)[1]? = some startX := by
    decide
  have h2 : (trace32 5 allocX maxX [2147483647, 0, 0] mainBuffer)[2]? = some afterX := by
    decide
  refine ⟨by decide, h1, h2, by decide, by decide, by decide, ?_⟩
  intro hc
  have := chain_rel_at WorkLe _ hc 1 startX afterX h1 h2 0 (by decide)
  revert this
  decide

/-- C15, amended. Work monotonicity: when `allocation` is non-negative, the entries of
`available` are `int`s and for each resource `available[j]` plus the column total of
`allocation` is at most `2^31 - 1`, the work vector of `isSafeState` in 32-bit
arithmetic starts equal to `available`, is componentwise non-decreasing from each loop
boundary of the run to the next, and at every loop boundary, `count` processes having
been scheduled, `Work[j]` is `available[j]` plus the sum of `allocation[p][j]` over
exactly the processes marked finished, which are `count` in number. -/
theorem C15_work_monotonicity (fuel : Nat) (allocation max_need : List (List Int))
    (available safeSequence : List Int) (hb : WorkBound allocation available) :
    (∃ l, trace32 fuel allocation max_need available safeSequence
        = initState available safeSequence :: l) ∧
      (∀ j, j < NUM_RESOURCES → idx (initState available safeSequence).work j = idx available j) ∧
      List.Chain' WorkLe (trace32 fuel allocation max_need available safeSequence) ∧
      ∀ st ∈ trace32 fuel allocation max_need available safeSequence,
        st.count = (finishedList st).length ∧
        ∀ j, j < NUM_RESOURCES →
          idx st.work j
            = idx available j + ((finishedList st).map fun p => idx2 allocation p j).sum := by
  have h0 := WInv_initState allocation available safeSequence
  have he : trace32 fuel allocation max_need available safeSequence
      = whileTrace allocation (computeNeed32 allocation max_need) fuel
          (initState available safeSequence) :=
    whileTrace32_eq allocation _ available hb fuel _ [] h0
  rw [he]
  refine ⟨whileTrace_eq_cons _ _ _ _, fun j hj => idx_initWork available j hj,
    whileTrace_chain allocation _ available hb.1 fuel _ [] h0, ?_⟩
  intro st hst
  obtain ⟨L, hinv⟩ := whileTrace_winv allocation _ available fuel _ [] h0 st hst
  exact work_eq_finished allocation available st L hinv

/-- Witness for C15 as amended: scenario A. -/
theorem C15_work_monotonicity_witness :
    WorkBound allocA [3, 3, 2] ∧
    (∃ l, trace32 5 allocA maxA [3, 3, 2] mainBuffer = initState [3, 3, 2] mainBuffer :: l) ∧
      (∀ j, j < NUM_RESOURCES → idx (initState [3, 3, 2] mainBuffer).work j = idx [3, 3, 2] j) ∧
      List.Chain' WorkLe (trace32 5 allocA maxA [3, 3, 2] mainBuffer) ∧
      ∀ st ∈ trace32 5 allocA maxA [3, 3, 2] mainBuffer,
        st.count = (finishedList st).length ∧
        ∀ j, j < NUM_RESOURCES →
          idx st.work j
            = idx [3, 3, 2] j + ((finishedList st).map fun p => idx2 allocA p j).sum :=
  ⟨by decide, C15_work_monotonicity 5 allocA maxA [3, 3, 2] mainBuffer (by decide)⟩

end Bankers
